import Mathlib

/-!
Verification development for the gitlab-rclone-remote-backup tool.

The Go sources (backup.go, notifications.go, scheduler.go, main.go, utils.go)
are shallowly embedded below.  Strings are modelled as `List Char` (one `Char`
per rune; the tool only ever handles ASCII file names and patterns, so the
UTF-8 decoding in the Go standard library degenerates to taking one character).
`time.Time`/`time.Duration` are modelled as `Int` (nanoseconds); `t1.After t2`
is `t2 < t1` and `time.Since t` is `now - t`.  External effects (docker exec,
rclone invocations, the filesystem) are passed in as explicit environment
values recording the outcome of each call, so the control flow of the Go code
becomes a pure function of those outcomes.
-/

/-! ## Go standard library: `path.Match` (path/match.go)

`getEsc`, the range-parsing loop of `matchChunk`, `matchChunk`, `scanChunk`
and `Match` are translated from Go's `path` package, which is what
`path.Match` (used by `pruneOldBackups`) and `filepath.Match`/`filepath.Glob`
(used by `findLatestBackup`) execute on unix.  `Except Unit` models the
`ErrBadPattern` error. -/

/-- Go `getEsc(chunk)`: reads one (possibly escaped) class character. -/
def getEsc : List Char → Except Unit (Char × List Char)
  | [] => .error ()
  | c :: cs =>
    if c = '-' ∨ c = ']' then .error ()
    else if c = '\\' then
      match cs with
      | [] => .error ()
      | d :: ds => if ds.isEmpty then .error () else .ok (d, ds)
    else if cs.isEmpty then .error () else .ok (c, cs)

theorem getEsc_length {ch : List Char} {r : Char} {t : List Char}
    (h : getEsc ch = .ok (r, t)) : t.length < ch.length := by
  match ch with
  | [] => simp [getEsc] at h
  | c :: cs =>
    simp only [getEsc] at h
    split at h
    · exact absurd h (by simp)
    · split at h
      · match cs with
        | [] => simp at h
        | d :: ds =>
          simp only at h
          split at h
          · exact absurd h (by simp)
          · simp only [Except.ok.injEq, Prod.mk.injEq] at h
            simp [← h.2]
            omega
      · split at h
        · exact absurd h (by simp)
        · simp only [Except.ok.injEq, Prod.mk.injEq] at h
          simp [← h.2]

/-- The `for` loop inside `matchChunk`'s `[` case: parses all ranges of a
character class against rune `r`, accumulating whether any range matched. -/
def parseRanges (r : Char) (chunk : List Char) (acc : Bool) (nrange : Nat) :
    Except Unit (Bool × List Char) :=
  if chunk.headD ' ' = ']' ∧ chunk ≠ [] ∧ 0 < nrange then .ok (acc, chunk.tail)
  else
    match hlo : getEsc chunk with
    | .error e => .error e
    | .ok (lo, ch1) =>
      match hhi : (if ch1.headD ' ' = '-' then getEsc ch1.tail else .ok (lo, ch1)) with
      | .error e => .error e
      | .ok (hi, ch2) =>
        parseRanges r ch2 (acc || (lo ≤ r ∧ r ≤ hi)) (nrange + 1)
termination_by chunk.length
decreasing_by
  have h1 := getEsc_length hlo
  split at hhi
  · have h2 := getEsc_length hhi
    have h3 : ch1.tail.length ≤ ch1.length := by
      cases ch1 <;> simp
    omega
  · simp only [Except.ok.injEq, Prod.mk.injEq] at hhi
    obtain ⟨h2, h3⟩ := hhi
    subst h3
    omega

theorem parseRanges_length_aux : ∀ (k : Nat) (chunk : List Char), chunk.length ≤ k →
    ∀ {r : Char} {acc m : Bool} {n : Nat} {rest : List Char},
    parseRanges r chunk acc n = .ok (m, rest) → rest.length < chunk.length := by
  intro k
  induction k with
  | zero =>
    intro chunk hk r acc m n rest h
    have hnil : chunk = [] := List.length_eq_zero.mp (Nat.le_zero.mp hk)
    subst hnil
    rw [parseRanges] at h
    split at h
    · simp_all
    · split at h
      · exact absurd h (by simp)
      · rename_i lo ch1 hlo
        exact absurd hlo (by simp [getEsc])
  | succ k ih =>
    intro chunk hk r acc m n rest h
    rw [parseRanges] at h
    split at h
    · rename_i hcond
      simp only [Except.ok.injEq, Prod.mk.injEq] at h
      obtain ⟨-, hrest⟩ := h
      subst hrest
      obtain ⟨-, hne, -⟩ := hcond
      cases chunk with
      | nil => exact absurd rfl hne
      | cons a l => simp
    · split at h
      · exact absurd h (by simp)
      · rename_i lo ch1 hlo
        split at h
        · exact absurd h (by simp)
        · rename_i hi ch2 hhi
          have h1 := getEsc_length hlo
          have hch2 : ch2.length < chunk.length := by
            split at hhi
            · have h2 := getEsc_length hhi
              have h3 : ch1.tail.length ≤ ch1.length := by cases ch1 <;> simp
              omega
            · simp only [Except.ok.injEq, Prod.mk.injEq] at hhi
              obtain ⟨-, h3⟩ := hhi
              subst h3
              omega
          have h2 := ih ch2 (by omega) h
          omega

theorem parseRanges_length {r : Char} {chunk : List Char} {acc : Bool} {n : Nat}
    {m : Bool} {rest : List Char}
    (h : parseRanges r chunk acc n = .ok (m, rest)) : rest.length < chunk.length :=
  parseRanges_length_aux chunk.length chunk (le_refl _) h

/-- Go `matchChunk(chunk, s)` with the `failed` flag made explicit.
Result `.ok (some rest)` is Go's `(rest, true, nil)`, `.ok none` is
`("", false, nil)` and `.error ()` is `ErrBadPattern`.  When `failed` is
`false` the string `s` is known to be non-empty at every place `headD`/`tail`
are used (Go indexes `s[0]` directly there). -/
def matchChunkGo : List Char → List Char → Bool → Except Unit (Option (List Char))
  | [], s, failed0 => .ok (if failed0 then none else some s)
  | c :: cs, s, failed0 =>
    let failed := failed0 || s.isEmpty
    if c = '[' then
      let r : Char := if failed then Char.ofNat 0 else s.headD (Char.ofNat 0)
      let s1 : List Char := if failed then s else s.tail
      match hp : parseRanges r (if cs.headD ' ' = '^' then cs.tail else cs) false 0 with
      | .error e => .error e
      | .ok (m, cs2) => matchChunkGo cs2 s1 (failed || (m == (cs.headD ' ' == '^')))
    else if c = '?' then
      if failed then matchChunkGo cs s true
      else matchChunkGo cs s.tail (s.headD ' ' == '/')
    else if c = '\\' then
      match cs with
      | [] => .error ()
      | d :: ds =>
        if failed then matchChunkGo ds s true
        else matchChunkGo ds s.tail (d != s.headD ' ')
    else
      if failed then matchChunkGo cs s true
      else matchChunkGo cs s.tail (c != s.headD ' ')
termination_by chunk _ _ => chunk.length
decreasing_by
  · have h1 := parseRanges_length hp
    have h2 : (if _h : cs.headD ' ' = '^' then cs.tail else cs).length ≤ cs.length := by
      split
      · cases cs <;> simp
      · exact le_refl _
    simp only [List.length_cons]
    omega
  all_goals simp only [List.length_cons] <;> omega

/-- Go `matchChunk(chunk, s)`. -/
def matchChunk (chunk s : List Char) : Except Unit (Option (List Char)) :=
  matchChunkGo chunk s false

/-- The leading-`*` stripping loop of Go `scanChunk`. -/
def scanStars : List Char → Bool × List Char
  | [] => (false, [])
  | c :: cs => if c = '*' then (true, (scanStars cs).2) else (false, c :: cs)

/-- The `Scan` loop of Go `scanChunk`: cuts the pattern at the first `*`
that is not inside a character class (a `\` escapes the next byte). -/
def scanBody : Bool → List Char → List Char × List Char
  | _, [] => ([], [])
  | inrange, c :: cs =>
    if c = '\\' then
      match cs with
      | [] => ([c], [])
      | d :: ds =>
        let p := scanBody inrange ds
        (c :: d :: p.1, p.2)
    else if c = '[' then
      let p := scanBody true cs
      (c :: p.1, p.2)
    else if c = ']' then
      let p := scanBody false cs
      (c :: p.1, p.2)
    else if c = '*' then
      if inrange then
        let p := scanBody inrange cs
        (c :: p.1, p.2)
      else ([], c :: cs)
    else
      let p := scanBody inrange cs
      (c :: p.1, p.2)

/-- Go `scanChunk(pattern) = (star, chunk, rest)`. -/
def scanChunk (pattern : List Char) : Bool × List Char × List Char :=
  let sp := scanStars pattern
  let p := scanBody false sp.2
  (sp.1, p.1, p.2)

theorem scanStars_snd_length (p : List Char) : (scanStars p).2.length ≤ p.length := by
  induction p with
  | nil => simp [scanStars]
  | cons c cs ih =>
    simp only [scanStars]
    split
    · simpa using Nat.le_succ_of_le ih
    · simp

theorem scanStars_false (p : List Char) (h : (scanStars p).1 = false) :
    (scanStars p).2 = p := by
  cases p with
  | nil => rfl
  | cons c cs =>
    simp only [scanStars] at h ⊢
    by_cases hc : c = '*'
    · rw [if_pos hc] at h
      exact absurd h (by simp)
    · rw [if_neg hc]

theorem scanStars_true_length (p : List Char) (h : (scanStars p).1 = true) :
    (scanStars p).2.length < p.length := by
  cases p with
  | nil => simp [scanStars] at h
  | cons c cs =>
    simp only [scanStars] at h ⊢
    by_cases hc : c = '*'
    · rw [if_pos hc]
      have := scanStars_snd_length cs
      simp only [List.length_cons]
      omega
    · rw [if_neg hc] at h
      exact absurd h (by simp)

theorem scanBody_append_aux : ∀ (k : Nat) (ir : Bool) (p : List Char), p.length ≤ k →
    (scanBody ir p).1 ++ (scanBody ir p).2 = p := by
  intro k
  induction k with
  | zero =>
    intro ir p hk
    have hnil : p = [] := List.length_eq_zero.mp (Nat.le_zero.mp hk)
    subst hnil
    simp [scanBody]
  | succ k ih =>
    intro ir p hk
    match p with
    | [] => simp [scanBody]
    | c :: cs =>
      rw [scanBody.eq_def]
      simp only
      split
      · split
        · simp
        · rename_i d ds
          have hlen : ds.length ≤ k := by
            simp only [List.length_cons] at hk
            omega
          have := ih ir ds hlen
          simp only [List.cons_append, List.cons.injEq, true_and]
          exact this
      · split
        · have hlen : cs.length ≤ k := by
            simp only [List.length_cons] at hk
            omega
          have := ih true cs hlen
          simp only [List.cons_append, List.cons.injEq, true_and]
          exact this
        · split
          · have hlen : cs.length ≤ k := by
              simp only [List.length_cons] at hk
              omega
            have := ih false cs hlen
            simp only [List.cons_append, List.cons.injEq, true_and]
            exact this
          · split
            · split
              · have hlen : cs.length ≤ k := by
                  simp only [List.length_cons] at hk
                  omega
                have := ih ir cs hlen
                simp only [List.cons_append, List.cons.injEq, true_and]
                exact this
              · simp
            · have hlen : cs.length ≤ k := by
                simp only [List.length_cons] at hk
                omega
              have := ih ir cs hlen
              simp only [List.cons_append, List.cons.injEq, true_and]
              exact this

theorem scanBody_append_eq (ir : Bool) (p : List Char) :
    (scanBody ir p).1 ++ (scanBody ir p).2 = p :=
  scanBody_append_aux p.length ir p (le_refl _)

theorem scanBody_chunk_nil (p : List Char) (h : (scanBody false p).1 = []) :
    p = [] ∨ p.headD ' ' = '*' := by
  cases p with
  | nil => exact Or.inl rfl
  | cons c cs =>
    right
    rw [scanBody.eq_def] at h
    simp only at h
    split at h
    · split at h <;> simp_all
    · split at h
      · simp_all
      · split at h
        · simp_all
        · split at h
          · simp_all
          · simp_all

theorem matchChunkGo_some_length_aux : ∀ (k : Nat) (chunk : List Char), chunk.length ≤ k →
    ∀ {s : List Char} {f : Bool} {t : List Char},
    matchChunkGo chunk s f = .ok (some t) → t.length ≤ s.length := by
  intro k
  induction k with
  | zero =>
    intro chunk hk s f t h
    have hnil : chunk = [] := List.length_eq_zero.mp (Nat.le_zero.mp hk)
    subst hnil
    rw [matchChunkGo.eq_def] at h
    simp only at h
    split at h <;> simp_all
  | succ k ih =>
    intro chunk hk s f t h
    match chunk with
    | [] =>
      rw [matchChunkGo.eq_def] at h
      simp only at h
      split at h <;> simp_all
    | c :: cs =>
      rw [matchChunkGo.eq_def] at h
      simp only at h
      split at h
      · split at h
        · exact absurd h (by simp)
        · rename_i m cs2 hp
          have h1 := parseRanges_length hp
          have h2 : (if cs.headD ' ' = '^' then cs.tail else cs).length ≤ cs.length := by
            split
            · cases cs <;> simp
            · exact le_refl _
          have hklen : cs2.length ≤ k := by
            simp only [List.length_cons] at hk
            omega
          have h3 := ih cs2 hklen h
          have h4 : (if (f || s.isEmpty) = true then s else s.tail).length ≤ s.length := by
            split
            · exact le_refl _
            · cases s <;> simp
          omega
      · split at h
        · split at h
          · have hklen : cs.length ≤ k := by
              simp only [List.length_cons] at hk
              omega
            exact ih cs hklen h
          · have hklen : cs.length ≤ k := by
              simp only [List.length_cons] at hk
              omega
            have h3 := ih cs hklen h
            have h4 : s.tail.length ≤ s.length := by cases s <;> simp
            omega
        · split at h
          · split at h
            · exact absurd h (by simp)
            · rename_i d ds
              split at h
              · have hklen : ds.length ≤ k := by
                  simp only [List.length_cons] at hk
                  omega
                exact ih ds hklen h
              · have hklen : ds.length ≤ k := by
                  simp only [List.length_cons] at hk
                  omega
                have h3 := ih ds hklen h
                have h4 : s.tail.length ≤ s.length := by cases s <;> simp
                omega
          · split at h
            · have hklen : cs.length ≤ k := by
                simp only [List.length_cons] at hk
                omega
              exact ih cs hklen h
            · have hklen : cs.length ≤ k := by
                simp only [List.length_cons] at hk
                omega
              have h3 := ih cs hklen h
              have h4 : s.tail.length ≤ s.length := by cases s <;> simp
              omega

theorem matchChunk_some_length {chunk s t : List Char}
    (h : matchChunk chunk s = .ok (some t)) : t.length ≤ s.length :=
  matchChunkGo_some_length_aux chunk.length chunk (le_refl _) h

theorem scanChunk_parts (pattern : List Char) :
    (scanChunk pattern).2.1 ++ (scanChunk pattern).2.2 = (scanStars pattern).2 := by
  simp only [scanChunk]
  exact scanBody_append_eq false (scanStars pattern).2

theorem scanChunk_rest_lt (p : Char) (ps : List Char)
    (hno : ¬((scanChunk (p :: ps)).1 = true ∧ (scanChunk (p :: ps)).2.1 = [])) :
    (scanChunk (p :: ps)).2.2.length < (p :: ps).length ∧
      (scanChunk (p :: ps)).2.1.length + (scanChunk (p :: ps)).2.2.length <
        (p :: ps).length + 1 := by
  have hparts := scanChunk_parts (p :: ps)
  have hlen : (scanChunk (p :: ps)).2.1.length + (scanChunk (p :: ps)).2.2.length =
      (scanStars (p :: ps)).2.length := by
    rw [← hparts]
    simp
  by_cases hstar : (scanChunk (p :: ps)).1 = true
  · have hs : (scanStars (p :: ps)).1 = true := hstar
    have := scanStars_true_length (p :: ps) hs
    constructor <;> omega
  · have hsf : (scanStars (p :: ps)).1 = false := by
      simpa using hstar
    have heq := scanStars_false (p :: ps) hsf
    have hchunk : (scanChunk (p :: ps)).2.1 ≠ [] := by
      intro hnil
      rcases scanBody_chunk_nil (scanStars (p :: ps)).2 hnil with hcase | hcase
      · rw [heq] at hcase
        exact absurd hcase (by simp)
      · rw [heq] at hcase
        simp only [List.headD_cons] at hcase
        have hcontr : (scanStars (p :: ps)).1 = true := by
          simp [scanStars, hcase]
        rw [hsf] at hcontr
        exact absurd hcontr (by simp)
    have hchunklen : 0 < (scanChunk (p :: ps)).2.1.length := by
      cases hc : (scanChunk (p :: ps)).2.1 with
      | nil => exact absurd hc hchunk
      | cons a l => simp
    rw [heq] at hlen
    constructor <;> simp only [List.length_cons] at hlen ⊢ <;> omega

theorem scanChunk_star_parts_lt (p : Char) (ps : List Char)
    (hstar : (scanChunk (p :: ps)).1 = true) :
    (scanChunk (p :: ps)).2.1.length + (scanChunk (p :: ps)).2.2.length <
      (p :: ps).length := by
  have hparts := scanChunk_parts (p :: ps)
  have hlen : (scanChunk (p :: ps)).2.1.length + (scanChunk (p :: ps)).2.2.length =
      (scanStars (p :: ps)).2.length := by
    rw [← hparts]
    simp
  have := scanStars_true_length (p :: ps) hstar
  omega

mutual

/-- Go `path.Match(pattern, name)`.  The outer `Pattern:` loop. -/
def goMatch : List Char → List Char → Except Unit Bool
  | [], name => .ok name.isEmpty
  | p :: ps, name =>
    if (scanChunk (p :: ps)).1 = true ∧ (scanChunk (p :: ps)).2.1 = [] then
      .ok (!(name.contains '/'))
    else
      match matchChunk (scanChunk (p :: ps)).2.1 name with
      | .error e => .error e
      | .ok (some t) =>
        if t = [] ∨ (scanChunk (p :: ps)).2.2 ≠ [] then goMatch (scanChunk (p :: ps)).2.2 t
        else if (scanChunk (p :: ps)).1 then
          starLoop (scanChunk (p :: ps)).2.1 (scanChunk (p :: ps)).2.2 name
        else .ok false
      | .ok none =>
        if (scanChunk (p :: ps)).1 then
          starLoop (scanChunk (p :: ps)).2.1 (scanChunk (p :: ps)).2.2 name
        else .ok false
  termination_by p n => (p.length, n.length, 1)
  decreasing_by
    · have h1 := (scanChunk_rest_lt p ps (by assumption)).1
      exact Prod.Lex.left _ _ (by simpa using h1)
    · have h := scanChunk_star_parts_lt p ps (by assumption)
      rcases Nat.lt_or_ge
          ((scanChunk (p :: ps)).2.1.length + (scanChunk (p :: ps)).2.2.length + 1)
          (p :: ps).length with hlt | hge
      · exact Prod.Lex.left _ _ (by simpa using hlt)
      · have heq : (scanChunk (p :: ps)).2.1.length + (scanChunk (p :: ps)).2.2.length + 1 =
            (p :: ps).length := by
          simp only [List.length_cons] at h hge ⊢
          omega
        simp only [List.length_cons] at heq ⊢
        rw [heq]
        exact Prod.Lex.right _ (Prod.Lex.right _ (by omega))
    · have h := scanChunk_star_parts_lt p ps (by assumption)
      rcases Nat.lt_or_ge
          ((scanChunk (p :: ps)).2.1.length + (scanChunk (p :: ps)).2.2.length + 1)
          (p :: ps).length with hlt | hge
      · exact Prod.Lex.left _ _ (by simpa using hlt)
      · have heq : (scanChunk (p :: ps)).2.1.length + (scanChunk (p :: ps)).2.2.length + 1 =
            (p :: ps).length := by
          simp only [List.length_cons] at h hge ⊢
          omega
        simp only [List.length_cons] at heq ⊢
        rw [heq]
        exact Prod.Lex.right _ (Prod.Lex.right _ (by omega))

/-- The inner `for i` loop of Go `path.Match`: retry the chunk at each
position that follows a skipped byte (stopping at a `/`). -/
def starLoop : List Char → List Char → List Char → Except Unit Bool
  | _, _, [] => .ok false
  | chunk, rest, c :: name1 =>
    if c = '/' then .ok false
    else
      match matchChunk chunk name1 with
      | .error e => .error e
      | .ok (some t) =>
        if rest = [] ∧ t ≠ [] then starLoop chunk rest name1
        else goMatch rest t
      | .ok none => starLoop chunk rest name1
  termination_by chunk rest n => (chunk.length + rest.length + 1, n.length, 0)
  decreasing_by
    all_goals first
      | exact Prod.Lex.left _ _ (by first | omega | (simp only [List.length_cons]; omega))
      | exact Prod.Lex.right _
          (Prod.Lex.left _ _ (by first | omega | (simp only [List.length_cons]; omega)))

end

/-- Non-dependent rewrite equation for `parseRanges` (the definition's
`match h :` forms block `simp`). -/
theorem parseRanges_eq (r : Char) (chunk : List Char) (acc : Bool) (n : Nat) :
    parseRanges r chunk acc n =
      if chunk.headD ' ' = ']' ∧ chunk ≠ [] ∧ 0 < n then .ok (acc, chunk.tail)
      else
        match getEsc chunk with
        | .error e => .error e
        | .ok (lo, ch1) =>
          match (if ch1.headD ' ' = '-' then getEsc ch1.tail else .ok (lo, ch1)) with
          | .error e => .error e
          | .ok (hi, ch2) =>
            parseRanges r ch2 (acc || (lo ≤ r ∧ r ≤ hi)) (n + 1) := by
  rw [parseRanges]
  split
  · rfl
  · cases hlo : getEsc chunk with
    | error e => rfl
    | ok pr =>
      obtain ⟨lo, ch1⟩ := pr
      simp only
      cases hhi : (if ch1.headD ' ' = '-' then getEsc ch1.tail else Except.ok (lo, ch1)) with
      | error e => rfl
      | ok qr =>
        obtain ⟨hi, ch2⟩ := qr
        rfl

/-- Rewrite equation for `matchChunkGo` on `[]`. -/
theorem matchChunkGo_nil (s : List Char) (f : Bool) :
    matchChunkGo [] s f = .ok (if f then none else some s) := by
  rw [matchChunkGo.eq_def]

/-- Non-dependent rewrite equation for `matchChunkGo` on a cons chunk. -/
theorem matchChunkGo_cons (c : Char) (cs s : List Char) (f0 : Bool) :
    matchChunkGo (c :: cs) s f0 =
      (let failed := f0 || s.isEmpty
       if c = '[' then
         match parseRanges (if failed then Char.ofNat 0 else s.headD (Char.ofNat 0))
             (if cs.headD ' ' = '^' then cs.tail else cs) false 0 with
         | .error e => .error e
         | .ok (m, cs2) =>
           matchChunkGo cs2 (if failed then s else s.tail)
             (failed || (m == (cs.headD ' ' == '^')))
       else if c = '?' then
         if failed then matchChunkGo cs s true
         else matchChunkGo cs s.tail (s.headD ' ' == '/')
       else if c = '\\' then
         match cs with
         | [] => .error ()
         | d :: ds =>
           if failed then matchChunkGo ds s true
           else matchChunkGo ds s.tail (d != s.headD ' ')
       else
         if failed then matchChunkGo cs s true
         else matchChunkGo cs s.tail (c != s.headD ' ')) := by
  rw [matchChunkGo.eq_def]
  simp only
  split
  · cases hp : parseRanges (if (f0 || s.isEmpty) = true then Char.ofNat 0
        else s.headD (Char.ofNat 0)) (if cs.headD ' ' = '^' then cs.tail else cs) false 0 with
    | error e => rfl
    | ok pr =>
      obtain ⟨m, cs2⟩ := pr
      rfl
  · rfl

/-! ## Go standard library: `path/filepath` `Clean`, `Base`, `Dir`, `Join`
(on unix, `VolumeName` is empty and the separator is `/`).  `Clean`'s lazybuf
is modelled by the final output list `out` (whose length is Go's `out.w`),
together with the `dotdot` marker and the `rooted` flag. -/

/-- The state of Go `Clean`'s loop: the bytes written so far, the `dotdot`
backtracking bound and whether the path is rooted. -/
structure CS where
  out : List Char
  dotdot : Nat
  rooted : Bool
deriving DecidableEq, Repr

/-- The inner `for` of Go `Clean`'s `..` case: after `out.w--`, decrement
`out.w` while `out.w > dotdot && out.index(out.w) != '/'`. -/
def popW (out : List Char) (dotdot : Nat) : Nat → Nat
  | 0 => 0
  | w + 1 =>
    if dotdot < w + 1 ∧ out.getD (w + 1) ' ' ≠ '/' then popW out dotdot w
    else w + 1

/-- Go `Clean`'s `..` case. -/
def dotdotStep (st : CS) : CS :=
  if st.dotdot < st.out.length then
    { st with out := st.out.take (popW st.out st.dotdot (st.out.length - 1)) }
  else if !st.rooted then
    let out1 := if 0 < st.out.length then st.out ++ ['/'] else st.out
    let out2 := out1 ++ ['.', '.']
    { st with out := out2, dotdot := out2.length }
  else st

/-- Go `Clean`'s default case: append a separator if needed, then copy the
whole next component. -/
def appendComp (st : CS) (comp : List Char) : CS :=
  let needSep := if st.rooted then st.out.length ≠ 1 else st.out.length ≠ 0
  { st with out := st.out ++ (if needSep then ['/'] else []) ++ comp }

theorem dropWhile_length_le {α : Type} (q : α → Bool) (l : List α) :
    (l.dropWhile q).length ≤ l.length := by
  induction l with
  | nil => simp
  | cons a l ih =>
    rw [List.dropWhile_cons]
    split
    · simp only [List.length_cons]
      omega
    · simp

/-- The main loop of Go `Clean` (`for r < n`), reading the remaining input. -/
def cleanLoop : List Char → CS → CS
  | [], st => st
  | c :: rest, st =>
    if c = '/' then cleanLoop rest st
    else if c = '.' ∧ (rest = [] ∨ rest.headD ' ' = '/') then cleanLoop rest st
    else if c = '.' ∧ rest.headD ' ' = '.' ∧ (rest.tail = [] ∨ rest.tail.headD ' ' = '/') then
      cleanLoop rest.tail (dotdotStep st)
    else
      cleanLoop ((c :: rest).dropWhile (fun x => x ≠ '/'))
        (appendComp st ((c :: rest).takeWhile (fun x => x ≠ '/')))
termination_by p _ => p.length
decreasing_by
  · simp only [List.length_cons]
    omega
  · simp only [List.length_cons]
    omega
  · have h : rest.tail.length ≤ rest.length := by cases rest <;> simp
    simp only [List.length_cons]
    omega
  · rename_i hs h1 h2
    have h : ((c :: rest).dropWhile (fun x => x ≠ '/')).length ≤ rest.length := by
      rw [List.dropWhile_cons_of_pos (by simpa using hs)]
      exact dropWhile_length_le _ rest
    simp only [List.length_cons]
    omega

/-- Go `path/filepath.Clean` on unix. -/
def pathClean (p : List Char) : List Char :=
  if p = [] then ['.']
  else
    let rooted := p.headD ' ' = '/'
    let st0 : CS := if rooted then ⟨['/'], 1, true⟩ else ⟨[], 0, false⟩
    let stF := cleanLoop (if rooted then p.tail else p) st0
    if stF.out = [] then ['.'] else stF.out

/-- Go `path/filepath.Base` on unix: strip trailing slashes, then keep
everything after the last slash. -/
def filepathBase (p : List Char) : List Char :=
  if p = [] then ['.']
  else
    let p1 := (p.reverse.dropWhile (fun x => x = '/')).reverse
    if p1 = [] then ['/']
    else (p1.reverse.takeWhile (fun x => x ≠ '/')).reverse

/-- Go `path/filepath.Dir` on unix: `Clean` of everything up to and including
the last slash (`Clean("")` when there is none). -/
def filepathDir (p : List Char) : List Char :=
  pathClean ((p.reverse.dropWhile (fun x => x ≠ '/')).reverse)

/-- Go `path/filepath.Join` for two elements on unix: skip empty elements,
join with `/`, `Clean` the result. -/
def filepathJoin (d n : List Char) : List Char :=
  if d ≠ [] then pathClean (d ++ '/' :: n)
  else if n ≠ [] then pathClean n
  else []

/-- Go `path.Base` (same behaviour as `filepath.Base` on unix); used by
`pruneOldBackups` on remote listing paths. -/
def pathBase (p : List Char) : List Char :=
  if p = [] then ['.']
  else
    let p1 := (p.reverse.dropWhile (fun x => x = '/')).reverse
    if p1 = [] then ['/']
    else (p1.reverse.takeWhile (fun x => x ≠ '/')).reverse

/-! ## Data model (Config from main.go, rcloneFile from backup.go) -/

/-- `Config` (main.go): the tool's configuration. -/
structure Config where
  gitLabContainerName : List Char
  rakeCommand : List Char
  backupDir : List Char
  backupPattern : List Char
  maxAge : Int
  rcloneRemotes : List (List Char)
  rcloneConfig : List Char
  zipPassword : List Char
  discordWebhookURL : List Char
  numBackupsToKeep : Int
  cronSchedule : List Char
deriving DecidableEq, Repr

/-- One entry of the backup directory as seen by `findLatestBackup`:
its base name and the result of `os.Stat` (`some modTime`, or `none` when
the file is not statable). -/
structure FileEnt where
  name : List Char
  stat : Option Int
deriving DecidableEq, Repr

/-- The error outcomes of `findLatestBackup`. -/
inductive LocateErr
  | globBad
  | notFound
  | noAccessible
  | tooOld (age maxAge : Int)
deriving DecidableEq, Repr

/-- `rcloneFile` (backup.go): one record of `rclone lsjson` output. -/
structure RFile where
  path : List Char
  name : List Char
  size : Int
  modTime : Int
  isDir : Bool
deriving DecidableEq, Repr

/-! ## findLatestBackup (backup.go) -/

/-- The per-entry matching step of `filepath.Glob`: Go's `glob` reads the
directory entries and keeps the names for which `Match(pattern, name)` is
true, aborting with `ErrBadPattern` when `Match` errors. -/
def globFilter (bpattern : List Char) : List FileEnt → Except Unit (List FileEnt)
  | [] => .ok []
  | e :: es =>
    match goMatch bpattern e.name with
    | .error err => .error err
    | .ok b =>
      match globFilter bpattern es with
      | .error err => .error err
      | .ok rest => .ok (if b then e :: rest else rest)

/-- Insertion step of the modelled `sort.Slice(..., less)` where
`less i j = key j < key i` (Go `ModTime.After`, i.e. descending). -/
def insertByDesc {α : Type} (key : α → Int) (x : α) : List α → List α
  | [] => [x]
  | y :: ys => if key y < key x then x :: y :: ys else y :: insertByDesc key x ys

/-- The modelled `sort.Slice` with the descending-by-key comparator used in
`findLatestBackup` and `pruneOldBackups` (any sort with this comparator
yields a permutation that is non-increasing in `key`; ties are broken
arbitrarily in Go, deterministically here). -/
def sortByDesc {α : Type} (key : α → Int) : List α → List α
  | [] => []
  | x :: xs => insertByDesc key x (sortByDesc key xs)

/-- `findLatestBackup` (backup.go): glob the backup directory, drop entries
that cannot be stat'ed, sort by modification time (newest first), verify the
newest is at most `MaxAge` old.  `entries` is the directory listing and
`now` the current time. -/
def findLatestBackup (cfg : Config) (entries : List FileEnt) (now : Int) :
    Except LocateErr (List Char) :=
  match globFilter cfg.backupPattern entries with
  | .error _ => .error .globBad
  | .ok ms =>
    if ms = [] then .error .notFound
    else
      let files := ms.filterMap
        (fun e => e.stat.map (fun t => (filepathJoin cfg.backupDir e.name, t)))
      match sortByDesc (fun f => f.2) files with
      | [] => .error .noAccessible
      | latest :: _ =>
        let age := now - latest.2
        if cfg.maxAge < age then .error (.tooOld age cfg.maxAge)
        else .ok latest.1

/-! ## createPasswordZip (backup.go) -/

/-- The literal `".zip"` appended to the backup's base name. -/
def zipExt : List Char := ['.', 'z', 'i', 'p']

/-- Outcomes of the filesystem/zip-library calls inside `createPasswordZip`:
`os.Create`, `os.Open` of the source, `w.Encrypt`, `io.Copy`, and the final
`os.Stat` of the produced file (`some size` when it exists). -/
structure ZipEnv where
  createOk : Bool
  openSrcOk : Bool
  encryptOk : Bool
  copyOk : Bool
  statSize : Option Int
deriving DecidableEq, Repr

/-- The error exits of `createPasswordZip`. -/
inductive ZipErr
  | createFailed
  | openFailed
  | encryptFailed
  | copyFailed
  | statFailed
deriving DecidableEq, Repr

/-- `createPasswordZip` (backup.go): writes `Base(backupFile) + ".zip"` next
to the source, then checks with `os.Stat` that the output was created.
Note the Go code logs `info.Size()` but never tests it. -/
def createPasswordZip (backupFile password : List Char) (env : ZipEnv) :
    Except ZipErr (List Char) :=
  let baseName := filepathBase backupFile
  let zipName := baseName ++ zipExt
  let zipPath := filepathJoin (filepathDir backupFile) zipName
  if !env.createOk then .error .createFailed
  else if !env.openSrcOk then .error .openFailed
  else if !env.encryptOk then .error .encryptFailed
  else if !env.copyOk then .error .copyFailed
  else
    match env.statSize with
    | none => .error .statFailed
    | some _ => .ok zipPath

/-! ## uploadToRemotes (backup.go) -/

/-- `uploadToRemotes` (backup.go): runs `rclone copyto` once per remote, in
order; a failure sets `lastErr` and the loop continues with the next remote;
the function returns an error iff `lastErr != nil`, i.e. iff at least one
upload failed.  `attempts` pairs each remote with whether its upload
succeeded. -/
def uploadToRemotes (attempts : List (List Char × Bool)) : Option Unit :=
  attempts.foldl (fun lastErr a => if a.2 then lastErr else some ()) none

/-! ## pruneOldBackups (backup.go) -/

/-- The error exits of `pruneOldBackups`. -/
inductive PruneErr
  | listFailed
  | parseFailed
  | badPattern
deriving DecidableEq, Repr

/-- The filter loop of `pruneOldBackups`: keep non-directory entries whose
base name matches the backup pattern or the pattern with `".zip"` appended;
a bad base pattern aborts with an error, a bad zip pattern is only logged. -/
def filterBackups (bpattern : List Char) : List RFile → Except Unit (List RFile)
  | [] => .ok []
  | f :: fs =>
    if f.isDir then filterBackups bpattern fs
    else
      match goMatch bpattern (pathBase f.path) with
      | .error e => .error e
      | .ok matched =>
        let matchedZip :=
          match goMatch (bpattern ++ zipExt) (pathBase f.path) with
          | .error _ => false
          | .ok b => b
        match filterBackups bpattern fs with
        | .error e => .error e
        | .ok rest => .ok (if matched || matchedZip then f :: rest else rest)

/-- The deletion loop of `pruneOldBackups`: every file in `toDelete` is
attempted with `rclone deletefile`; a failure is logged and the loop
continues.  Returns the attempted deletions and the logged failures. -/
def deleteLoop (delFails : List Char → Bool) : List RFile → List RFile × List (List Char)
  | [] => ([], [])
  | f :: fs =>
    let rest := deleteLoop delFails fs
    (f :: rest.1, (if delFails f.path then [f.path] else []) ++ rest.2)

/-- Outcomes of the rclone calls made by `pruneOldBackups` against one
remote: the `lsjson` listing (or its failure) and which `deletefile` calls
fail. -/
structure PruneEnv where
  listing : Except PruneErr (List RFile)
  delFails : List Char → Bool

/-- `pruneOldBackups` (backup.go): no-op when `NumBackupsToKeep <= 0`; list
the remote, filter to backup files, and when more than `NumBackupsToKeep`
remain, delete everything beyond the newest `NumBackupsToKeep` (sorted by
modification time descending).  Returns the attempted deletions and the
logged per-file deletion failures; the function itself returns `nil` (here
`.ok`) even when individual deletions fail. -/
def pruneOldBackups (cfg : Config) (penv : PruneEnv) :
    Except PruneErr (List RFile × List (List Char)) :=
  if cfg.numBackupsToKeep ≤ 0 then .ok ([], [])
  else
    match penv.listing with
    | .error e => .error e
    | .ok files =>
      match filterBackups cfg.backupPattern files with
      | .error _ => .error .badPattern
      | .ok backups =>
        if (backups.length : Int) ≤ cfg.numBackupsToKeep then .ok ([], [])
        else
          let sorted := sortByDesc (fun f => f.modTime) backups
          let toDelete := sorted.drop cfg.numBackupsToKeep.toNat
          .ok (deleteLoop penv.delFails toDelete)

/-! ## sendDiscordNotification (notifications.go) and runBackup (backup.go) -/

/-- One webhook notification: the success flag, the message (error text or
joined warnings), and the reported file. -/
structure NotifyEvent where
  success : Bool
  message : List Char
  file : List Char
deriving DecidableEq, Repr

/-- `sendDiscordNotification` (notifications.go): posts nothing when no
webhook URL is configured, otherwise posts exactly one event; HTTP errors
are logged and never propagated. -/
def sendDiscordNotification (cfg : Config) (success : Bool) (message : List Char)
    (backupFile : List Char) : List NotifyEvent :=
  if cfg.discordWebhookURL = [] then []
  else [{ success := success, message := message, file := backupFile }]

/-- `strings.Join(warnings, "\n")`. -/
def joinLines : List (List Char) → List Char
  | [] => []
  | [w] => w
  | w :: ws => w ++ '\n' :: joinLines ws

/-- Rendered text of a `PruneErr` (stands in for Go's `%v` of the error). -/
def pruneErrText : PruneErr → List Char
  | .listFailed => ("rclone lsjson failed").data
  | .parseFailed => ("failed to parse rclone lsjson output").data
  | .badPattern => ("invalid backup pattern").data

/-- `fmt.Sprintf("Failed to prune %s: %v", remote, err)` (backup.go line 79). -/
def pruneWarnMsg (remote : List Char) (e : PruneErr) : List Char :=
  ("Failed to prune ").data ++ remote ++ (": ").data ++ pruneErrText e

/-- The fatal error of a run, wrapping the failing stage's error. -/
inductive RunErr
  | createFailed
  | findFailed (e : LocateErr)
  | zipFailed (e : ZipErr)
  | uploadFailed
deriving DecidableEq, Repr

/-- Rendered text of a `RunErr` (stands in for the wrapped `err.Error()`). -/
def runErrText : RunErr → List Char
  | .createFailed => ("failed to create GitLab backup").data
  | .findFailed _ => ("failed to find latest backup").data
  | .zipFailed _ => ("failed to create password zip").data
  | .uploadFailed => ("failed to upload backup").data

/-- The external-world outcomes one `runBackup` call observes: whether the
docker-exec backup command failed, the backup directory listing and current
time, the zip-stage outcomes, the per-remote upload outcomes (in remote
order), and the per-remote retention outcomes. -/
structure Env where
  createErr : Bool
  entries : List FileEnt
  now : Int
  zipEnv : ZipEnv
  uploadOk : List Bool
  pruneEnvs : List PruneEnv

/-- Step 4 of `runBackup`: run retention per remote, collecting a warning
message for every remote whose `pruneOldBackups` returned an error. -/
def pruneWarnings (cfg : Config) (penvs : List PruneEnv) : List (List Char) :=
  (cfg.rcloneRemotes.zip penvs).filterMap
    (fun rp =>
      match pruneOldBackups cfg rp.2 with
      | .error e => some (pruneWarnMsg rp.1 e)
      | .ok _ => none)

/-- `runBackup` (backup.go): the five pipeline steps.  Returns the run's
error (`none` = success) and the notification events emitted. -/
def runBackup (cfg : Config) (env : Env) : Option RunErr × List NotifyEvent :=
  if env.createErr then
    (some .createFailed,
      sendDiscordNotification cfg false (runErrText .createFailed) [])
  else
    match findLatestBackup cfg env.entries env.now with
    | .error e =>
      (some (.findFailed e),
        sendDiscordNotification cfg false (runErrText (.findFailed e)) [])
    | .ok backupFile =>
      match (if cfg.zipPassword = [] then .ok backupFile
             else createPasswordZip backupFile cfg.zipPassword env.zipEnv :
             Except ZipErr (List Char)) with
      | .error e =>
        (some (.zipFailed e),
          sendDiscordNotification cfg false (runErrText (.zipFailed e)) backupFile)
      | .ok uploadFile =>
        match uploadToRemotes (cfg.rcloneRemotes.zip env.uploadOk) with
        | some _ =>
          (some .uploadFailed,
            sendDiscordNotification cfg false (runErrText .uploadFailed) uploadFile)
        | none =>
          let warnings := pruneWarnings cfg env.pruneEnvs
          (none, sendDiscordNotification cfg true (joinLines warnings) uploadFile)

/-! ## Lemmas about the modelled sort -/

theorem insertByDesc_perm {α : Type} (key : α → Int) (x : α) (l : List α) :
    List.Perm (insertByDesc key x l) (x :: l) := by
  induction l with
  | nil => exact List.Perm.refl _
  | cons y ys ih =>
    rw [insertByDesc]
    split
    · exact List.Perm.refl _
    · exact List.Perm.trans (List.Perm.cons y ih) (List.Perm.swap x y ys)

theorem sortByDesc_perm {α : Type} (key : α → Int) (l : List α) :
    List.Perm (sortByDesc key l) l := by
  induction l with
  | nil => exact List.Perm.refl _
  | cons x xs ih =>
    rw [sortByDesc]
    exact List.Perm.trans (insertByDesc_perm key x (sortByDesc key xs)) (List.Perm.cons x ih)

theorem insertByDesc_pairwise {α : Type} (key : α → Int) (x : α) (l : List α)
    (h : List.Pairwise (fun a b => key b ≤ key a) l) :
    List.Pairwise (fun a b => key b ≤ key a) (insertByDesc key x l) := by
  induction l with
  | nil => simp [insertByDesc]
  | cons y ys ih =>
    rw [insertByDesc]
    rw [List.pairwise_cons] at h
    split
    · rename_i hlt
      rw [List.pairwise_cons]
      refine ⟨?_, List.pairwise_cons.mpr h⟩
      intro b hb
      rcases List.mem_cons.mp hb with rfl | hbys
      · omega
      · have := h.1 b hbys
        omega
    · rename_i hge
      rw [List.pairwise_cons]
      refine ⟨?_, ih h.2⟩
      intro b hb
      have hmem := (insertByDesc_perm key x ys).mem_iff.mp hb
      rcases List.mem_cons.mp hmem with rfl | hbys
      · omega
      · exact h.1 b hbys

theorem sortByDesc_pairwise {α : Type} (key : α → Int) (l : List α) :
    List.Pairwise (fun a b => key b ≤ key a) (sortByDesc key l) := by
  induction l with
  | nil => simp [sortByDesc]
  | cons x xs ih =>
    rw [sortByDesc]
    exact insertByDesc_pairwise key x _ ih

theorem sortByDesc_head_max {α : Type} (key : α → Int) (l : List α) (x : α) (xs : List α)
    (hs : sortByDesc key l = x :: xs) (y : α) (hy : y ∈ l) : key y ≤ key x := by
  have hyin : y ∈ x :: xs := by
    rw [← hs]
    exact (sortByDesc_perm key l).symm.subset hy
  rcases List.mem_cons.mp hyin with rfl | hyxs
  · exact le_refl _
  · have hpw := sortByDesc_pairwise key l
    rw [hs, List.pairwise_cons] at hpw
    exact hpw.1 y hyxs

theorem sortByDesc_mem {α : Type} (key : α → Int) (l : List α) (x : α) (xs : List α)
    (hs : sortByDesc key l = x :: xs) : x ∈ l := by
  have : x ∈ sortByDesc key l := by
    rw [hs]
    exact List.mem_cons_self x xs
  exact (sortByDesc_perm key l).subset this

theorem pairwise_take_drop {α : Type} (r : α → α → Prop) (l : List α) (n : Nat)
    (h : List.Pairwise r l) : ∀ a ∈ l.take n, ∀ b ∈ l.drop n, r a b := by
  have hsplit := List.take_append_drop n l
  rw [← hsplit] at h
  rw [List.pairwise_append] at h
  exact h.2.2

/-! ## Helper facts about uploadToRemotes -/

theorem uploadToRemotes_foldl_none (l : List (List Char × Bool)) :
    ∀ acc : Option Unit,
      l.foldl (fun lastErr a => if a.2 then lastErr else some ()) acc = none ↔
        (acc = none ∧ ∀ a ∈ l, a.2 = true) := by
  induction l with
  | nil =>
    intro acc
    simp
  | cons a l ih =>
    intro acc
    rw [List.foldl_cons]
    by_cases ha : a.2
    · rw [if_pos ha, ih]
      simp [ha]
    · rw [if_neg ha, ih]
      simp only [List.mem_cons]
      constructor
      · rintro ⟨h, -⟩
        exact absurd h (by simp)
      · rintro ⟨-, hall⟩
        exact absurd (hall a (Or.inl rfl)) (by simpa using ha)

theorem uploadToRemotes_none_iff (l : List (List Char × Bool)) :
    uploadToRemotes l = none ↔ ∀ a ∈ l, a.2 = true := by
  rw [uploadToRemotes, uploadToRemotes_foldl_none]
  simp

/-- C1 (counterexample): with two destinations where the first upload succeeds
and the second fails, the run is reported as failed (`uploadFailed`), with a
failure notification — not as a success with warnings as the claim states. -/
theorem claim1_counterexample :
    (runBackup
      { gitLabContainerName := [], rakeCommand := [], backupDir := ['d'],
        backupPattern := ['a'], maxAge := 10, rcloneRemotes := [['r'], ['s']],
        rcloneConfig := [], zipPassword := [], discordWebhookURL := ['w'],
        numBackupsToKeep := 2, cronSchedule := [] }
      { createErr := false, entries := [{ name := ['a'], stat := some 0 }], now := 3,
        zipEnv := { createOk := true, openSrcOk := true, encryptOk := true,
                    copyOk := true, statSize := some 5 },
        uploadOk := [true, false], pruneEnvs := [] }).1 = some RunErr.uploadFailed ∧
    (runBackup
      { gitLabContainerName := [], rakeCommand := [], backupDir := ['d'],
        backupPattern := ['a'], maxAge := 10, rcloneRemotes := [['r'], ['s']],
        rcloneConfig := [], zipPassword := [], discordWebhookURL := ['w'],
        numBackupsToKeep := 2, cronSchedule := [] }
      { createErr := false, entries := [{ name := ['a'], stat := some 0 }], now := 3,
        zipEnv := { createOk := true, openSrcOk := true, encryptOk := true,
                    copyOk := true, statSize := some 5 },
        uploadOk := [true, false], pruneEnvs := [] }).2 =
      [{ success := false, message := runErrText RunErr.uploadFailed,
         file := ['d', '/', 'a'] }] := by
  constructor
  · simp [runBackup, findLatestBackup, globFilter, goMatch, starLoop, scanChunk, scanStars,
      scanBody, matchChunk, matchChunkGo_cons, matchChunkGo_nil, parseRanges_eq, getEsc,
      sortByDesc, insertByDesc, filepathJoin, filepathDir, filepathBase, pathClean, cleanLoop,
      dotdotStep, appendComp, popW, uploadToRemotes, sendDiscordNotification]
  · simp [runBackup, findLatestBackup, globFilter, goMatch, starLoop, scanChunk, scanStars,
      scanBody, matchChunk, matchChunkGo_cons, matchChunkGo_nil, parseRanges_eq, getEsc,
      sortByDesc, insertByDesc, filepathJoin, filepathDir, filepathBase, pathClean, cleanLoop,
      dotdotStep, appendComp, popW, uploadToRemotes, sendDiscordNotification]

/-- C1 (amended): once a run reaches the replication stage, the run is
reported as success iff the upload succeeded to every configured destination;
any upload failure (even to a strict subset) makes the whole run fail with
`uploadFailed`. -/
theorem claim1_amended (cfg : Config) (env : Env) (bf uf : List Char)
    (h1 : env.createErr = false)
    (h2 : findLatestBackup cfg env.entries env.now = .ok bf)
    (h3 : (if cfg.zipPassword = [] then Except.ok bf
           else createPasswordZip bf cfg.zipPassword env.zipEnv) = Except.ok uf) :
    (runBackup cfg env).1 =
      if (cfg.rcloneRemotes.zip env.uploadOk).all (fun a => a.2) then none
      else some RunErr.uploadFailed := by
  rw [runBackup]
  rw [if_neg (by simp [h1])]
  rw [h2]
  simp only
  rw [h3]
  simp only
  cases hu : uploadToRemotes (cfg.rcloneRemotes.zip env.uploadOk) with
  | none =>
    have hall := (uploadToRemotes_none_iff _).mp hu
    rw [if_pos (List.all_eq_true.mpr (fun a ha => hall a ha))]
  | some u =>
    rw [if_neg]
    intro hall
    have : uploadToRemotes (cfg.rcloneRemotes.zip env.uploadOk) = none :=
      (uploadToRemotes_none_iff _).mpr (fun a ha => List.all_eq_true.mp hall a ha)
    rw [hu] at this
    exact absurd this (by simp)

theorem claim1_witness :
    (runBackup
      { gitLabContainerName := [], rakeCommand := [], backupDir := ['d'],
        backupPattern := ['a'], maxAge := 10, rcloneRemotes := [['r'], ['s']],
        rcloneConfig := [], zipPassword := [], discordWebhookURL := ['w'],
        numBackupsToKeep := 2, cronSchedule := [] }
      { createErr := false, entries := [{ name := ['a'], stat := some 0 }], now := 3,
        zipEnv := { createOk := true, openSrcOk := true, encryptOk := true,
                    copyOk := true, statSize := some 5 },
        uploadOk := [true, false], pruneEnvs := [] }).1 =
      if (([['r'], ['s']] : List (List Char)).zip [true, false]).all (fun a => a.2) then none
      else some RunErr.uploadFailed :=
  claim1_amended _ _ (filepathJoin ['d'] ['a']) (filepathJoin ['d'] ['a']) rfl
    (by simp [findLatestBackup, globFilter, goMatch, starLoop, scanChunk, scanStars,
      scanBody, matchChunk, matchChunkGo_cons, matchChunkGo_nil, parseRanges_eq, getEsc,
      sortByDesc, insertByDesc])
    (by rfl)

/-- C4 (counterexample): with every call succeeding and the produced file
existing with size 0, `createPasswordZip` reports success — an existing but
empty output is reported as successful encryption, contradicting the claim. -/
theorem claim4_counterexample :
    createPasswordZip ['b'] ['p']
        { createOk := true, openSrcOk := true, encryptOk := true, copyOk := true,
          statSize := some 0 } =
      .ok (filepathJoin (filepathDir ['b']) (filepathBase ['b'] ++ zipExt)) ∧
    ({ createOk := true, openSrcOk := true, encryptOk := true, copyOk := true,
       statSize := some 0 } : ZipEnv).statSize = some 0 := by
  constructor
  · rfl
  · rfl

/-- C4 (amended): `createPasswordZip` returns success only after verifying
(via `os.Stat`) that the output file exists: a missing output is never
reported as success.  Emptiness is not verified: any stat'able size,
including 0, yields success. -/
theorem claim4_amended (backupFile password : List Char) (env : ZipEnv) :
    (env.statSize = none → ∀ p, createPasswordZip backupFile password env ≠ .ok p) ∧
    (∀ sz : Int, env.createOk = true → env.openSrcOk = true → env.encryptOk = true →
      env.copyOk = true → env.statSize = some sz →
      createPasswordZip backupFile password env =
        .ok (filepathJoin (filepathDir backupFile) (filepathBase backupFile ++ zipExt))) := by
  constructor
  · intro hnone p
    rw [createPasswordZip]
    split
    · simp
    · split
      · simp
      · split
        · simp
        · split
          · simp
          · rw [hnone]
            simp
  · intro sz h1 h2 h3 h4 h5
    rw [createPasswordZip]
    rw [h1, h2, h3, h4, h5]
    rfl

theorem claim4_witness :
    createPasswordZip ['b'] ['p']
        { createOk := true, openSrcOk := true, encryptOk := true, copyOk := true,
          statSize := some 7 } =
      .ok (filepathJoin (filepathDir ['b']) (filepathBase ['b'] ++ zipExt)) :=
  (claim4_amended ['b'] ['p']
    { createOk := true, openSrcOk := true, encryptOk := true, copyOk := true,
      statSize := some 7 }).2 7 rfl rfl rfl rfl rfl

theorem deleteLoop_attempts_all (df : List Char → Bool) (l : List RFile) :
    (deleteLoop df l).1 = l := by
  induction l with
  | nil => rfl
  | cons f fs ih =>
    rw [deleteLoop]
    simp only [ih]

/-- C6: once the run reaches the retention stage (steps 1–3 succeeded),
retention failures never mark the run failed: the result is success and the
single success notification carries the per-remote retention errors only as
joined warning text; moreover every deletion in a prune's delete list is
attempted regardless of which individual deletions fail. -/
theorem claim6_retention_never_fatal (cfg : Config) (env : Env) (bf uf : List Char)
    (h1 : env.createErr = false)
    (h2 : findLatestBackup cfg env.entries env.now = .ok bf)
    (h3 : (if cfg.zipPassword = [] then Except.ok bf
           else createPasswordZip bf cfg.zipPassword env.zipEnv) = Except.ok uf)
    (h4 : uploadToRemotes (cfg.rcloneRemotes.zip env.uploadOk) = none) :
    (runBackup cfg env).1 = none ∧
    (runBackup cfg env).2 =
      sendDiscordNotification cfg true (joinLines (pruneWarnings cfg env.pruneEnvs)) uf ∧
    (∀ (df : List Char → Bool) (l : List RFile), (deleteLoop df l).1 = l) := by
  have hrun : runBackup cfg env =
      (none, sendDiscordNotification cfg true (joinLines (pruneWarnings cfg env.pruneEnvs)) uf) := by
    rw [runBackup]
    rw [if_neg (by simp [h1])]
    rw [h2]
    simp only
    rw [h3]
    simp only
    rw [h4]
  refine ⟨by rw [hrun], by rw [hrun], fun df l => deleteLoop_attempts_all df l⟩

theorem claim6_witness :
    (runBackup
      { gitLabContainerName := [], rakeCommand := [], backupDir := ['d'],
        backupPattern := ['a'], maxAge := 10, rcloneRemotes := [['r']],
        rcloneConfig := [], zipPassword := [], discordWebhookURL := ['w'],
        numBackupsToKeep := 1, cronSchedule := [] }
      { createErr := false, entries := [{ name := ['a'], stat := some 0 }], now := 3,
        zipEnv := { createOk := true, openSrcOk := true, encryptOk := true,
                    copyOk := true, statSize := some 5 },
        uploadOk := [true],
        pruneEnvs := [{ listing := .error .listFailed, delFails := fun _ => false }] }).1 =
      none :=
  (claim6_retention_never_fatal _ _ (filepathJoin ['d'] ['a']) (filepathJoin ['d'] ['a'])
    rfl
    (by simp [findLatestBackup, globFilter, goMatch, starLoop, scanChunk, scanStars,
      scanBody, matchChunk, matchChunkGo_cons, matchChunkGo_nil, parseRanges_eq, getEsc,
      sortByDesc, insertByDesc])
    (by rfl)
    (by rfl)).1

/-- C8: whenever a webhook URL is configured, every `runBackup` exit path
emits exactly one notification event, whose success flag is true iff the run
finished without a fatal error. -/
theorem claim8_exactly_one_notification (cfg : Config) (env : Env)
    (h : cfg.discordWebhookURL ≠ []) :
    ∃ ev : NotifyEvent, (runBackup cfg env).2 = [ev] ∧
      (ev.success = true ↔ (runBackup cfg env).1 = none) := by
  have hs : ∀ (s : Bool) (m f : List Char),
      sendDiscordNotification cfg s m f = [{ success := s, message := m, file := f }] := by
    intro s m f
    simp [sendDiscordNotification, h]
  rw [runBackup]
  split
  · exact ⟨_, hs false _ _, by simp⟩
  · split
    · exact ⟨_, hs false _ _, by simp⟩
    · split
      · exact ⟨_, hs false _ _, by simp⟩
      · split
        · exact ⟨_, hs false _ _, by simp⟩
        · exact ⟨_, hs true _ _, by simp⟩

theorem claim8_witness :
    ∃ ev : NotifyEvent,
      (runBackup
        { gitLabContainerName := [], rakeCommand := [], backupDir := ['d'],
          backupPattern := ['a'], maxAge := 10, rcloneRemotes := [['r']],
          rcloneConfig := [], zipPassword := [], discordWebhookURL := ['w'],
          numBackupsToKeep := 0, cronSchedule := [] }
        { createErr := true, entries := [], now := 0,
          zipEnv := { createOk := true, openSrcOk := true, encryptOk := true,
                      copyOk := true, statSize := some 5 },
          uploadOk := [], pruneEnvs := [] }).2 = [ev] ∧
      (ev.success = true ↔
        (runBackup
          { gitLabContainerName := [], rakeCommand := [], backupDir := ['d'],
            backupPattern := ['a'], maxAge := 10, rcloneRemotes := [['r']],
            rcloneConfig := [], zipPassword := [], discordWebhookURL := ['w'],
            numBackupsToKeep := 0, cronSchedule := [] }
          { createErr := true, entries := [], now := 0,
            zipEnv := { createOk := true, openSrcOk := true, encryptOk := true,
                        copyOk := true, statSize := some 5 },
            uploadOk := [], pruneEnvs := [] }).1 = none) :=
  claim8_exactly_one_notification _ _ (by simp)

/-! ## findLatestBackup: selection of the newest statable match -/

theorem findLatestBackup_spec (cfg : Config) (entries : List FileEnt) (now : Int)
    (ms : List FileEnt) (files : List (List Char × Int))
    (hg : globFilter cfg.backupPattern entries = .ok ms)
    (hms : ms ≠ [])
    (hf : ms.filterMap
        (fun e => e.stat.map (fun t => (filepathJoin cfg.backupDir e.name, t))) = files)
    (hfne : files ≠ []) :
    ∃ p, p ∈ files ∧ (∀ q ∈ files, q.2 ≤ p.2) ∧
      findLatestBackup cfg entries now =
        (if cfg.maxAge < now - p.2 then .error (.tooOld (now - p.2) cfg.maxAge)
         else .ok p.1) := by
  rw [findLatestBackup, hg]
  simp only
  rw [if_neg hms, hf]
  cases hsort : sortByDesc (fun f => f.2) files with
  | nil =>
    have hperm := sortByDesc_perm (fun f : List Char × Int => f.2) files
    rw [hsort] at hperm
    have := hperm.length_eq
    simp only [List.length_nil] at this
    exact absurd (List.length_eq_zero.mp this.symm) hfne
  | cons x xs =>
    refine ⟨x, sortByDesc_mem _ _ _ _ hsort, fun q hq => sortByDesc_head_max _ _ _ _ hsort q hq, ?_⟩
    simp only

/-- C2 (counterexample): a directory with exactly one statable file matching
the pattern, whose age (100) exceeds `maxAge` (0): `findLatestBackup` fails
with a too-old error instead of returning that file, so "at least one
statable match implies the locator returns the max-modtime match" is false
as stated (the age validation is part of the same function). -/
theorem claim2_counterexample :
    findLatestBackup
      { gitLabContainerName := [], rakeCommand := [], backupDir := ['d'],
        backupPattern := ['a'], maxAge := 0, rcloneRemotes := [['r']],
        rcloneConfig := [], zipPassword := [], discordWebhookURL := [],
        numBackupsToKeep := 0, cronSchedule := [] }
      [{ name := ['a'], stat := some 0 }] 100 =
      .error (.tooOld 100 0) := by
  simp [findLatestBackup, globFilter, goMatch, starLoop, scanChunk, scanStars,
    scanBody, matchChunk, matchChunkGo_cons, matchChunkGo_nil, parseRanges_eq, getEsc,
    sortByDesc, insertByDesc]

/-- C2 (amended): when zero directory entries match the glob pattern the
locator fails with the not-found error; when matches exist but none are
statable it fails with the no-accessible-files error; when at least one
statable match exists it selects a statable match with the maximum
modification time and returns it — provided its age `now - modTime` is
within `maxAge`, otherwise it fails with the too-old error. -/
theorem claim2_locator_selects_newest (cfg : Config) (entries : List FileEnt) (now : Int)
    (ms : List FileEnt) (files : List (List Char × Int))
    (hg : globFilter cfg.backupPattern entries = .ok ms)
    (hf : ms.filterMap
        (fun e => e.stat.map (fun t => (filepathJoin cfg.backupDir e.name, t))) = files) :
    (ms = [] → findLatestBackup cfg entries now = .error .notFound) ∧
    (ms ≠ [] → files = [] → findLatestBackup cfg entries now = .error .noAccessible) ∧
    (ms ≠ [] → files ≠ [] →
      ∃ p, p ∈ files ∧ (∀ q ∈ files, q.2 ≤ p.2) ∧
        findLatestBackup cfg entries now =
          (if cfg.maxAge < now - p.2 then .error (.tooOld (now - p.2) cfg.maxAge)
           else .ok p.1)) := by
  refine ⟨?_, ?_, ?_⟩
  · intro hms
    rw [findLatestBackup, hg]
    simp only
    rw [if_pos hms]
  · intro hms hfe
    rw [findLatestBackup, hg]
    simp only
    rw [if_neg hms, hf, hfe]
    simp [sortByDesc]
  · intro hms hfne
    exact findLatestBackup_spec cfg entries now ms files hg hms hf hfne

theorem claim2_witness :
    ∃ p, p ∈ [((filepathJoin ['d'] ['a'] : List Char), (2 : Int)),
              ((filepathJoin ['d'] ['b'] : List Char), (5 : Int))] ∧
      (∀ q ∈ [((filepathJoin ['d'] ['a'] : List Char), (2 : Int)),
              ((filepathJoin ['d'] ['b'] : List Char), (5 : Int))], q.2 ≤ p.2) ∧
      findLatestBackup
        { gitLabContainerName := [], rakeCommand := [], backupDir := ['d'],
          backupPattern := ['?'], maxAge := 10, rcloneRemotes := [['r']],
          rcloneConfig := [], zipPassword := [], discordWebhookURL := [],
          numBackupsToKeep := 0, cronSchedule := [] }
        [{ name := ['a'], stat := some 2 }, { name := ['b'], stat := some 5 }] 6 =
        (if (10 : Int) < 6 - p.2 then .error (.tooOld (6 - p.2) 10) else .ok p.1) :=
  (claim2_locator_selects_newest _
    [{ name := ['a'], stat := some 2 }, { name := ['b'], stat := some 5 }] 6
    [{ name := ['a'], stat := some 2 }, { name := ['b'], stat := some 5 }] _
    (by simp [globFilter, goMatch, starLoop, scanChunk, scanStars,
      scanBody, matchChunk, matchChunkGo_cons, matchChunkGo_nil, parseRanges_eq, getEsc])
    (by simp)).2.2 (by simp) (by simp)

/-- C5: with at least one statable match, the locator picks the entry with
the maximum modification time; if its age `now - modTime` exceeds `maxAge`
the locator fails with the too-old error carrying exactly that age and the
configured maximum (even when the file is the sole candidate), and if the
age is within `maxAge` the locator succeeds with that file. -/
theorem claim5_age_validation (cfg : Config) (entries : List FileEnt) (now : Int)
    (ms : List FileEnt) (files : List (List Char × Int))
    (hg : globFilter cfg.backupPattern entries = .ok ms)
    (hms : ms ≠ [])
    (hf : ms.filterMap
        (fun e => e.stat.map (fun t => (filepathJoin cfg.backupDir e.name, t))) = files)
    (hfne : files ≠ []) :
    ∃ p, p ∈ files ∧ (∀ q ∈ files, q.2 ≤ p.2) ∧
      (cfg.maxAge < now - p.2 →
        findLatestBackup cfg entries now = .error (.tooOld (now - p.2) cfg.maxAge)) ∧
      (now - p.2 ≤ cfg.maxAge →
        findLatestBackup cfg entries now = .ok p.1) := by
  obtain ⟨p, hmem, hmax, heq⟩ := findLatestBackup_spec cfg entries now ms files hg hms hf hfne
  refine ⟨p, hmem, hmax, ?_, ?_⟩
  · intro hold
    rw [heq, if_pos hold]
  · intro hyoung
    rw [heq, if_neg (by omega)]

theorem claim5_witness :
    ∃ p, p ∈ [((filepathJoin ['d'] ['a'] : List Char), (2 : Int))] ∧
      (∀ q ∈ [((filepathJoin ['d'] ['a'] : List Char), (2 : Int))], q.2 ≤ p.2) ∧
      ((3 : Int) < 100 - p.2 →
        findLatestBackup
          { gitLabContainerName := [], rakeCommand := [], backupDir := ['d'],
            backupPattern := ['a'], maxAge := 3, rcloneRemotes := [['r']],
            rcloneConfig := [], zipPassword := [], discordWebhookURL := [],
            numBackupsToKeep := 0, cronSchedule := [] }
          [{ name := ['a'], stat := some 2 }] 100 = .error (.tooOld (100 - p.2) 3)) ∧
      (100 - p.2 ≤ (3 : Int) →
        findLatestBackup
          { gitLabContainerName := [], rakeCommand := [], backupDir := ['d'],
            backupPattern := ['a'], maxAge := 3, rcloneRemotes := [['r']],
            rcloneConfig := [], zipPassword := [], discordWebhookURL := [],
            numBackupsToKeep := 0, cronSchedule := [] }
          [{ name := ['a'], stat := some 2 }] 100 = .ok p.1) :=
  claim5_age_validation
    { gitLabContainerName := [], rakeCommand := [], backupDir := ['d'],
      backupPattern := ['a'], maxAge := 3, rcloneRemotes := [['r']],
      rcloneConfig := [], zipPassword := [], discordWebhookURL := [],
      numBackupsToKeep := 0, cronSchedule := [] }
    [{ name := ['a'], stat := some 2 }] 100
    [{ name := ['a'], stat := some 2 }]
    [((filepathJoin ['d'] ['a'] : List Char), (2 : Int))]
    (by simp [globFilter, goMatch, starLoop, scanChunk, scanStars,
      scanBody, matchChunk, matchChunkGo_cons, matchChunkGo_nil, parseRanges_eq, getEsc])
    (by simp)
    (by simp)
    (by simp)

/-! ## filterBackups characterisation -/

/-- The boolean retention filter: not a directory, and the base name matches
the pattern or the pattern with `".zip"` appended (a zip-pattern error counts
as no match, mirroring `pruneOldBackups`). -/
def keepPred (p : List Char) (f : RFile) : Bool :=
  !f.isDir &&
    ((match goMatch p (pathBase f.path) with
      | .error _ => false
      | .ok b => b) ||
     (match goMatch (p ++ zipExt) (pathBase f.path) with
      | .error _ => false
      | .ok b => b))

/-- Matching `f`'s base name against the base pattern does not error (only
relevant for non-directories; directories are skipped before matching). -/
def matchOk (p : List Char) (f : RFile) : Prop :=
  f.isDir = false → goMatch p (pathBase f.path) ≠ .error ()

theorem filterBackups_ok_of_matchOk (p : List Char) (l : List RFile)
    (h : ∀ f ∈ l, matchOk p f) :
    filterBackups p l = .ok (l.filter (keepPred p)) := by
  induction l with
  | nil => rfl
  | cons f fs ih =>
    have hf := h f (List.mem_cons_self f fs)
    have hfs := fun g hg => h g (List.mem_cons_of_mem f hg)
    rw [filterBackups]
    by_cases hdir : f.isDir
    · rw [if_pos hdir, ih hfs, List.filter_cons]
      have : keepPred p f = false := by
        simp [keepPred, hdir]
      rw [this]
      simp
    · rw [if_neg hdir]
      cases hm : goMatch p (pathBase f.path) with
      | error e =>
        cases e
        exact absurd hm (hf (by simpa using hdir))
      | ok b =>
        simp only
        rw [ih hfs]
        simp only
        rw [List.filter_cons]
        have : keepPred p f =
            (b || (match goMatch (p ++ zipExt) (pathBase f.path) with
                   | .error _ => false
                   | .ok mz => mz)) := by
          simp [keepPred, hdir, hm]
        rw [this]
  
theorem filterBackups_ok_matchOk (p : List Char) (l : List RFile) (bs : List RFile)
    (h : filterBackups p l = .ok bs) : ∀ f ∈ l, matchOk p f := by
  induction l generalizing bs with
  | nil => simp
  | cons f fs ih =>
    rw [filterBackups] at h
    intro g hg
    by_cases hdir : f.isDir
    · rw [if_pos hdir] at h
      rcases List.mem_cons.mp hg with rfl | hgfs
      · intro hgd
        rw [hdir] at hgd
        exact absurd hgd (by simp)
      · exact ih bs h g hgfs
    · rw [if_neg hdir] at h
      cases hm : goMatch p (pathBase f.path) with
      | error e =>
        rw [hm] at h
        exact absurd h (by simp)
      | ok b =>
        rw [hm] at h
        simp only at h
        rcases List.mem_cons.mp hg with rfl | hgfs
        · intro hgd
          rw [hm]
          simp
        · cases hfb : filterBackups p fs with
          | error e =>
            rw [hfb] at h
            exact absurd h (by simp)
          | ok rest => exact ih rest hfb g hgfs

/-- C3: retention with keep-count `K = NumBackupsToKeep` over a listing whose
matching backups number `M` attempts to delete exactly `max(0, M−K)` objects
(as natural-number subtraction `M - K`), always the oldest by modification
time (every deleted object is no newer than every kept one), and deletes
nothing when `K ≤ 0` or `M ≤ K`. -/
theorem claim3_retention_counts (cfg : Config) (penv : PruneEnv) (files bs : List RFile)
    (hl : penv.listing = .ok files)
    (hfb : filterBackups cfg.backupPattern files = .ok bs) :
    (cfg.numBackupsToKeep ≤ 0 → pruneOldBackups cfg penv = .ok ([], [])) ∧
    (0 < cfg.numBackupsToKeep → (bs.length : Int) ≤ cfg.numBackupsToKeep →
      pruneOldBackups cfg penv = .ok ([], [])) ∧
    (0 < cfg.numBackupsToKeep → cfg.numBackupsToKeep < (bs.length : Int) →
      ∃ ws,
        pruneOldBackups cfg penv =
          .ok ((sortByDesc (fun f => f.modTime) bs).drop cfg.numBackupsToKeep.toNat, ws) ∧
        ((sortByDesc (fun f => f.modTime) bs).drop cfg.numBackupsToKeep.toNat).length =
          bs.length - cfg.numBackupsToKeep.toNat ∧
        (∀ d ∈ (sortByDesc (fun f => f.modTime) bs).drop cfg.numBackupsToKeep.toNat,
         ∀ g ∈ (sortByDesc (fun f => f.modTime) bs).take cfg.numBackupsToKeep.toNat,
           d.modTime ≤ g.modTime)) := by
  refine ⟨?_, ?_, ?_⟩
  · intro hk
    rw [pruneOldBackups, if_pos hk]
  · intro hk hm
    rw [pruneOldBackups, if_neg (by omega), hl]
    simp only
    rw [hfb]
    simp only
    rw [if_pos hm]
  · intro hk hm
    rw [pruneOldBackups, if_neg (by omega), hl]
    simp only
    rw [hfb]
    simp only
    rw [if_neg (by omega)]
    refine ⟨(deleteLoop penv.delFails
        ((sortByDesc (fun f => f.modTime) bs).drop cfg.numBackupsToKeep.toNat)).2, ?_, ?_, ?_⟩
    · have h1 := deleteLoop_attempts_all penv.delFails
        ((sortByDesc (fun f => f.modTime) bs).drop cfg.numBackupsToKeep.toNat)
      congr 1
      exact Prod.ext h1 rfl
    · have hlen : (sortByDesc (fun f : RFile => f.modTime) bs).length = bs.length :=
        (sortByDesc_perm (fun f : RFile => f.modTime) bs).length_eq
      rw [List.length_drop, hlen]
    · intro d hd g hg
      exact pairwise_take_drop (fun a b => b.modTime ≤ a.modTime) _
        cfg.numBackupsToKeep.toNat
        (sortByDesc_pairwise (fun f : RFile => f.modTime) bs) g hg d hd

theorem filter_diff_length (pd : RFile → Bool) (files del bs : List RFile)
    (hbs : files.filter pd = bs)
    (hsub : (del : Multiset RFile) ≤ (bs : Multiset RFile))
    (hdelp : ∀ f ∈ del, pd f = true) :
    ((files.diff del).filter pd).length = bs.length - del.length := by
  have hfn : (fun a => decide (pd a = true)) = pd := by
    funext a
    simp
  have e1 : (((files.diff del).filter pd : List RFile) : Multiset RFile) =
      Multiset.filter (fun a => pd a = true)
        ((files.diff del : List RFile) : Multiset RFile) := by
    rw [Multiset.filter_coe, hfn]
  have e2 : ((files.diff del : List RFile) : Multiset RFile) =
      (files : Multiset RFile) - (del : Multiset RFile) := (Multiset.coe_sub files del).symm
  have e4 : Multiset.filter (fun a => pd a = true) (files : Multiset RFile) =
      (bs : Multiset RFile) := by
    rw [Multiset.filter_coe, hfn, hbs]
  have e5 : Multiset.filter (fun a => pd a = true) (del : Multiset RFile) =
      (del : Multiset RFile) :=
    Multiset.filter_eq_self.mpr (by
      intro a ha
      exact hdelp a (by simpa using ha))
  calc ((files.diff del).filter pd).length
      = Multiset.card (((files.diff del).filter pd : List RFile) : Multiset RFile) :=
        (Multiset.coe_card _).symm
    _ = Multiset.card ((bs : Multiset RFile) - (del : Multiset RFile)) := by
        rw [e1, e2, Multiset.filter_sub, e4, e5]
    _ = Multiset.card (bs : Multiset RFile) - Multiset.card (del : Multiset RFile) :=
        Multiset.card_sub hsub
    _ = bs.length - del.length := by rw [Multiset.coe_card, Multiset.coe_card]

/-- C7: running retention twice in a row against the same destination with no
new uploads in between — the second listing is the first minus the objects the
first run deleted (all its deletions succeeded) — deletes nothing on the
second run. -/
theorem claim7_retention_idempotent (cfg : Config) (penv penv2 : PruneEnv)
    (files del : List RFile) (ws : List (List Char))
    (hl : penv.listing = .ok files)
    (h1 : pruneOldBackups cfg penv = .ok (del, ws))
    (h2 : penv2.listing = .ok (files.diff del)) :
    pruneOldBackups cfg penv2 = .ok ([], []) := by
  by_cases hk : cfg.numBackupsToKeep ≤ 0
  · rw [pruneOldBackups, if_pos hk]
  · rw [pruneOldBackups, if_neg hk, hl] at h1
    simp only at h1
    cases hfb : filterBackups cfg.backupPattern files with
    | error e =>
      rw [hfb] at h1
      exact absurd h1 (by simp)
    | ok bs =>
      rw [hfb] at h1
      simp only at h1
      have hmo := filterBackups_ok_matchOk cfg.backupPattern files bs hfb
      have hbs : files.filter (keepPred cfg.backupPattern) = bs := by
        have h3 := filterBackups_ok_of_matchOk cfg.backupPattern files hmo
        rw [hfb] at h3
        simpa using h3.symm
      have hmo2 : ∀ f ∈ files.diff del, matchOk cfg.backupPattern f :=
        fun f hf => hmo f (List.diff_subset files del hf)
      by_cases hm : (bs.length : Int) ≤ cfg.numBackupsToKeep
      · rw [if_pos hm] at h1
        simp only [Except.ok.injEq, Prod.mk.injEq] at h1
        obtain ⟨hdel, -⟩ := h1
        rw [pruneOldBackups, if_neg hk, h2, ← hdel, List.diff_nil]
        simp only
        rw [hfb]
        simp only
        rw [if_pos hm]
      · rw [if_neg hm] at h1
        simp only [Except.ok.injEq] at h1
        have hdel : del =
            (sortByDesc (fun f => f.modTime) bs).drop cfg.numBackupsToKeep.toNat := by
          have h4 := congrArg Prod.fst h1
          rw [deleteLoop_attempts_all] at h4
          exact h4.symm
        have hperm := sortByDesc_perm (fun f : RFile => f.modTime) bs
        have hsortlen : (sortByDesc (fun f : RFile => f.modTime) bs).length = bs.length :=
          hperm.length_eq
        have hsub : (del : Multiset RFile) ≤ (bs : Multiset RFile) := by
          rw [hdel]
          calc (((sortByDesc (fun f : RFile => f.modTime) bs).drop
                cfg.numBackupsToKeep.toNat : List RFile) : Multiset RFile)
              ≤ ((sortByDesc (fun f : RFile => f.modTime) bs : List RFile) : Multiset RFile) :=
                Multiset.coe_le.mpr (List.drop_sublist _ _).subperm
            _ = (bs : Multiset RFile) := Multiset.coe_eq_coe.mpr hperm
        have hdelp : ∀ f ∈ del, keepPred cfg.backupPattern f = true := by
          intro f hf
          have hfbs : f ∈ bs := by
            have : f ∈ sortByDesc (fun f : RFile => f.modTime) bs := by
              rw [hdel] at hf
              exact List.mem_of_mem_drop hf
            exact hperm.subset this
          rw [← hbs] at hfbs
          exact List.of_mem_filter hfbs
        have hdellen : del.length = bs.length - cfg.numBackupsToKeep.toNat := by
          rw [hdel, List.length_drop, hsortlen]
        have hcount := filter_diff_length (keepPred cfg.backupPattern) files del bs hbs
          hsub hdelp
        rw [hdellen] at hcount
        have hkeepInt : (cfg.numBackupsToKeep.toNat : Int) = cfg.numBackupsToKeep :=
          Int.toNat_of_nonneg (by omega)
        have hcard : (((files.diff del).filter (keepPred cfg.backupPattern)).length : Int) ≤
            cfg.numBackupsToKeep := by
          rw [hcount]
          have : bs.length - (bs.length - cfg.numBackupsToKeep.toNat) ≤
              cfg.numBackupsToKeep.toNat := by omega
          omega
        rw [pruneOldBackups, if_neg hk, h2]
        simp only
        rw [filterBackups_ok_of_matchOk cfg.backupPattern (files.diff del) hmo2]
        simp only
        rw [if_pos hcard]

theorem claim3_witness :
    ∃ ws : List (List Char),
      pruneOldBackups
        { gitLabContainerName := [], rakeCommand := [], backupDir := ['d'],
          backupPattern := ['?'], maxAge := 10, rcloneRemotes := [['r']],
          rcloneConfig := [], zipPassword := [], discordWebhookURL := [],
          numBackupsToKeep := 1, cronSchedule := [] }
        { listing := .ok
            [{ path := ['a'], name := ['a'], size := 0, modTime := 1, isDir := false },
             { path := ['b'], name := ['b'], size := 0, modTime := 3, isDir := false },
             { path := ['c'], name := ['c'], size := 0, modTime := 2, isDir := false }],
          delFails := fun _ => false } =
        .ok ((sortByDesc (fun f => f.modTime)
          ([{ path := ['a'], name := ['a'], size := 0, modTime := 1, isDir := false },
            { path := ['b'], name := ['b'], size := 0, modTime := 3, isDir := false },
            { path := ['c'], name := ['c'], size := 0, modTime := 2, isDir := false }] : List RFile)).drop
            (1 : Int).toNat, ws) ∧
      ((sortByDesc (fun f => f.modTime)
          ([{ path := ['a'], name := ['a'], size := 0, modTime := 1, isDir := false },
            { path := ['b'], name := ['b'], size := 0, modTime := 3, isDir := false },
            { path := ['c'], name := ['c'], size := 0, modTime := 2, isDir := false }] : List RFile)).drop
            (1 : Int).toNat).length =
        ([{ path := ['a'], name := ['a'], size := 0, modTime := 1, isDir := false },
          { path := ['b'], name := ['b'], size := 0, modTime := 3, isDir := false },
          { path := ['c'], name := ['c'], size := 0, modTime := 2, isDir := false }] :
            List RFile).length - (1 : Int).toNat ∧
      (∀ d ∈ (sortByDesc (fun f => f.modTime)
          ([{ path := ['a'], name := ['a'], size := 0, modTime := 1, isDir := false },
            { path := ['b'], name := ['b'], size := 0, modTime := 3, isDir := false },
            { path := ['c'], name := ['c'], size := 0, modTime := 2, isDir := false }] : List RFile)).drop
            (1 : Int).toNat,
       ∀ g ∈ (sortByDesc (fun f => f.modTime)
          ([{ path := ['a'], name := ['a'], size := 0, modTime := 1, isDir := false },
            { path := ['b'], name := ['b'], size := 0, modTime := 3, isDir := false },
            { path := ['c'], name := ['c'], size := 0, modTime := 2, isDir := false }] : List RFile)).take
            (1 : Int).toNat,
         d.modTime ≤ g.modTime) :=
  (claim3_retention_counts
    { gitLabContainerName := [], rakeCommand := [], backupDir := ['d'],
      backupPattern := ['?'], maxAge := 10, rcloneRemotes := [['r']],
      rcloneConfig := [], zipPassword := [], discordWebhookURL := [],
      numBackupsToKeep := 1, cronSchedule := [] }
    { listing := .ok
        [{ path := ['a'], name := ['a'], size := 0, modTime := 1, isDir := false },
         { path := ['b'], name := ['b'], size := 0, modTime := 3, isDir := false },
         { path := ['c'], name := ['c'], size := 0, modTime := 2, isDir := false }],
      delFails := fun _ => false }
    [{ path := ['a'], name := ['a'], size := 0, modTime := 1, isDir := false },
     { path := ['b'], name := ['b'], size := 0, modTime := 3, isDir := false },
     { path := ['c'], name := ['c'], size := 0, modTime := 2, isDir := false }]
    [{ path := ['a'], name := ['a'], size := 0, modTime := 1, isDir := false },
     { path := ['b'], name := ['b'], size := 0, modTime := 3, isDir := false },
     { path := ['c'], name := ['c'], size := 0, modTime := 2, isDir := false }]
    rfl
    (by simp [filterBackups, pathBase, goMatch, starLoop, scanChunk, scanStars, scanBody,
      matchChunk, matchChunkGo_cons, matchChunkGo_nil, parseRanges_eq, getEsc, zipExt])).2.2
    (by norm_num) (by norm_num)

theorem claim7_witness :
    pruneOldBackups
      { gitLabContainerName := [], rakeCommand := [], backupDir := ['d'],
        backupPattern := ['?'], maxAge := 10, rcloneRemotes := [['r']],
        rcloneConfig := [], zipPassword := [], discordWebhookURL := [],
        numBackupsToKeep := 1, cronSchedule := [] }
      { listing := .ok
          ([{ path := ['a'], name := ['a'], size := 0, modTime := 1, isDir := false },
            { path := ['b'], name := ['b'], size := 0, modTime := 3, isDir := false },
            { path := ['c'], name := ['c'], size := 0, modTime := 2, isDir := false }].diff
            [{ path := ['c'], name := ['c'], size := 0, modTime := 2, isDir := false },
             { path := ['a'], name := ['a'], size := 0, modTime := 1, isDir := false }]),
        delFails := fun _ => false } = .ok ([], []) :=
  claim7_retention_idempotent
    { gitLabContainerName := [], rakeCommand := [], backupDir := ['d'],
      backupPattern := ['?'], maxAge := 10, rcloneRemotes := [['r']],
      rcloneConfig := [], zipPassword := [], discordWebhookURL := [],
      numBackupsToKeep := 1, cronSchedule := [] }
    { listing := .ok
        [{ path := ['a'], name := ['a'], size := 0, modTime := 1, isDir := false },
         { path := ['b'], name := ['b'], size := 0, modTime := 3, isDir := false },
         { path := ['c'], name := ['c'], size := 0, modTime := 2, isDir := false }],
      delFails := fun _ => false }
    { listing := .ok
        ([{ path := ['a'], name := ['a'], size := 0, modTime := 1, isDir := false },
          { path := ['b'], name := ['b'], size := 0, modTime := 3, isDir := false },
          { path := ['c'], name := ['c'], size := 0, modTime := 2, isDir := false }].diff
          [{ path := ['c'], name := ['c'], size := 0, modTime := 2, isDir := false },
           { path := ['a'], name := ['a'], size := 0, modTime := 1, isDir := false }]),
      delFails := fun _ => false }
    [{ path := ['a'], name := ['a'], size := 0, modTime := 1, isDir := false },
     { path := ['b'], name := ['b'], size := 0, modTime := 3, isDir := false },
     { path := ['c'], name := ['c'], size := 0, modTime := 2, isDir := false }]
    [{ path := ['c'], name := ['c'], size := 0, modTime := 2, isDir := false },
     { path := ['a'], name := ['a'], size := 0, modTime := 1, isDir := false }]
    []
    rfl
    (by simp [pruneOldBackups, filterBackups, pathBase, goMatch, starLoop, scanChunk,
      scanStars, scanBody, matchChunk, matchChunkGo_cons, matchChunkGo_nil, parseRanges_eq,
      getEsc, zipExt, sortByDesc, insertByDesc, deleteLoop])
    rfl

/-! ## matchChunk lemmas for the `pattern ++ ".zip"` suffix property -/

/-- `matchChunkGo` in failed mode: the input string is never inspected. -/
theorem matchChunkGo_cons_failed (c : Char) (cs s : List Char) :
    matchChunkGo (c :: cs) s true =
      (if c = '[' then
         match parseRanges (Char.ofNat 0) (if cs.headD ' ' = '^' then cs.tail else cs)
             false 0 with
         | .error e => .error e
         | .ok (_, cs2) => matchChunkGo cs2 s true
       else if c = '?' then matchChunkGo cs s true
       else if c = '\\' then
         match cs with
         | [] => .error ()
         | _ :: ds => matchChunkGo ds s true
       else matchChunkGo cs s true) := by
  rw [matchChunkGo_cons]
  simp only [Bool.true_or, List.isEmpty_nil, if_pos]

theorem matchChunkGo_empty_s_failed (c : Char) (cs s : List Char) (hs : s = []) :
    matchChunkGo (c :: cs) s false = matchChunkGo (c :: cs) s true := by
  subst hs
  rw [matchChunkGo_cons, matchChunkGo_cons]
  simp

theorem matchChunkGo_failed_irrel_aux : ∀ (k : Nat) (c : List Char), c.length ≤ k →
    ∀ (s : List Char), matchChunkGo c s true = matchChunkGo c [] true := by
  intro k
  induction k with
  | zero =>
    intro c hk s
    have hnil : c = [] := List.length_eq_zero.mp (Nat.le_zero.mp hk)
    subst hnil
    rw [matchChunkGo_nil, matchChunkGo_nil]
    simp
  | succ k ih =>
    intro c hk s
    match c with
    | [] =>
      rw [matchChunkGo_nil, matchChunkGo_nil]
      simp
    | a :: cs =>
      rw [matchChunkGo_cons_failed, matchChunkGo_cons_failed]
      by_cases h1 : a = '['
      · rw [if_pos h1, if_pos h1]
        cases hp : parseRanges (Char.ofNat 0) (if cs.headD ' ' = '^' then cs.tail else cs)
            false 0 with
        | error e => rfl
        | ok pr =>
          obtain ⟨m, cs2⟩ := pr
          simp only
          have hlen : cs2.length ≤ k := by
            have := parseRanges_length hp
            have h2 : (if cs.headD ' ' = '^' then cs.tail else cs).length ≤ cs.length := by
              split
              · cases cs <;> simp
              · exact le_refl _
            simp only [List.length_cons] at hk
            omega
          exact ih cs2 hlen s
      · rw [if_neg h1, if_neg h1]
        by_cases h2 : a = '?'
        · rw [if_pos h2, if_pos h2]
          exact ih cs (by simp only [List.length_cons] at hk; omega) s
        · rw [if_neg h2, if_neg h2]
          by_cases h3 : a = '\\'
          · rw [if_pos h3, if_pos h3]
            match cs with
            | [] => rfl
            | d :: ds =>
              simp only
              exact ih ds (by simp only [List.length_cons] at hk; omega) s
          · rw [if_neg h3, if_neg h3]
            exact ih cs (by simp only [List.length_cons] at hk; omega) s

theorem matchChunkGo_failed_irrel (c s : List Char) :
    matchChunkGo c s true = matchChunkGo c [] true :=
  matchChunkGo_failed_irrel_aux c.length c (le_refl _) s

theorem matchChunkGo_failed_not_some_aux : ∀ (k : Nat) (c : List Char), c.length ≤ k →
    ∀ (s t : List Char), matchChunkGo c s true ≠ .ok (some t) := by
  intro k
  induction k with
  | zero =>
    intro c hk s t
    have hnil : c = [] := List.length_eq_zero.mp (Nat.le_zero.mp hk)
    subst hnil
    rw [matchChunkGo_nil]
    simp
  | succ k ih =>
    intro c hk s t
    match c with
    | [] =>
      rw [matchChunkGo_nil]
      simp
    | a :: cs =>
      rw [matchChunkGo_cons_failed]
      by_cases h1 : a = '['
      · rw [if_pos h1]
        cases hp : parseRanges (Char.ofNat 0) (if cs.headD ' ' = '^' then cs.tail else cs)
            false 0 with
        | error e => simp
        | ok pr =>
          obtain ⟨m, cs2⟩ := pr
          simp only
          have hlen : cs2.length ≤ k := by
            have := parseRanges_length hp
            have h2 : (if cs.headD ' ' = '^' then cs.tail else cs).length ≤ cs.length := by
              split
              · cases cs <;> simp
              · exact le_refl _
            simp only [List.length_cons] at hk
            omega
          exact ih cs2 hlen s t
      · rw [if_neg h1]
        by_cases h2 : a = '?'
        · rw [if_pos h2]
          exact ih cs (by simp only [List.length_cons] at hk; omega) s t
        · rw [if_neg h2]
          by_cases h3 : a = '\\'
          · rw [if_pos h3]
            match cs with
            | [] => simp
            | d :: ds =>
              simp only
              exact ih ds (by simp only [List.length_cons] at hk; omega) s t
          · rw [if_neg h3]
            exact ih cs (by simp only [List.length_cons] at hk; omega) s t

theorem matchChunkGo_failed_not_some (c s t : List Char) :
    matchChunkGo c s true ≠ .ok (some t) :=
  matchChunkGo_failed_not_some_aux c.length c (le_refl _) s t

/-- A chunk of plain literal characters (no class, wildcard or escape). -/
def allLit (q : List Char) : Prop :=
  ∀ c ∈ q, c ≠ '[' ∧ c ≠ '?' ∧ c ≠ '\\'

theorem allLit_noError (q : List Char) (hq : allLit q) :
    ∀ (s : List Char) (f : Bool), matchChunkGo q s f ≠ .error () := by
  induction q with
  | nil =>
    intro s f
    rw [matchChunkGo_nil]
    simp
  | cons c cs ih =>
    intro s f
    have hc := hq c (List.mem_cons_self c cs)
    have hcs : allLit cs := fun d hd => hq d (List.mem_cons_of_mem c hd)
    rw [matchChunkGo_cons]
    simp only
    rw [if_neg hc.1, if_neg hc.2.1, if_neg hc.2.2]
    split
    · exact ih hcs s true
    · exact ih hcs s.tail _

theorem allLit_consume (q : List Char) (hq : allLit q) :
    ∀ (s : List Char) (f : Bool) (r : List Char),
      matchChunkGo q s f = .ok (some r) → s.length = r.length + q.length := by
  induction q with
  | nil =>
    intro s f r h
    rw [matchChunkGo_nil] at h
    split at h
    · exact absurd h (by simp)
    · simp only [Except.ok.injEq, Option.some.injEq] at h
      subst h
      simp
  | cons c cs ih =>
    intro s f r h
    have hc := hq c (List.mem_cons_self c cs)
    have hcs : allLit cs := fun d hd => hq d (List.mem_cons_of_mem c hd)
    rw [matchChunkGo_cons] at h
    simp only at h
    rw [if_neg hc.1, if_neg hc.2.1, if_neg hc.2.2] at h
    split at h
    · exact absurd h (matchChunkGo_failed_not_some cs s r)
    · rename_i hfail
      cases s with
      | nil => simp at hfail
      | cons a s1 =>
        have := ih hcs s1 _ r (by simpa using h)
        simp only [List.length_cons]
        omega

theorem allLit_selfPrefix (q : List Char) (hq : allLit q) :
    ∀ u : List Char, matchChunkGo q (q ++ u) false = .ok (some u) := by
  induction q with
  | nil =>
    intro u
    rw [matchChunkGo_nil]
    rfl
  | cons c cs ih =>
    intro u
    have hc := hq c (List.mem_cons_self c cs)
    have hcs : allLit cs := fun d hd => hq d (List.mem_cons_of_mem c hd)
    rw [matchChunkGo_cons]
    simp only [List.cons_append, List.isEmpty_cons, Bool.false_or]
    rw [if_neg hc.1, if_neg hc.2.1, if_neg hc.2.2]
    simp only [if_neg (by simp : ¬(false = true)), List.tail_cons, List.headD_cons,
      bne_self_eq_false]
    exact ih hcs u

theorem matchChunkGo_append_some_aux : ∀ (k : Nat) (c : List Char), c.length ≤ k →
    ∀ (s t u : List Char), matchChunkGo c s false = .ok (some t) →
      matchChunkGo c (s ++ u) false = .ok (some (t ++ u)) := by
  intro k
  induction k with
  | zero =>
    intro c hk s t u h
    have hnil : c = [] := List.length_eq_zero.mp (Nat.le_zero.mp hk)
    subst hnil
    rw [matchChunkGo_nil] at h ⊢
    simp only [if_neg (by simp : ¬(false = true)), Except.ok.injEq, Option.some.injEq] at h ⊢
    rw [h]
  | succ n ih =>
    intro c hk s t u h
    match c with
    | [] =>
      rw [matchChunkGo_nil] at h ⊢
      simp only [if_neg (by simp : ¬(false = true)), Except.ok.injEq, Option.some.injEq] at h ⊢
      rw [h]
    | c :: cs =>
      have hcs : cs.length ≤ n := by
        simp only [List.length_cons] at hk
        omega
      rw [matchChunkGo_cons] at h ⊢
      cases s with
      | nil =>
        simp only [List.isEmpty_nil, Bool.or_true, if_true, Bool.true_or] at h
        exfalso
        by_cases h1 : c = '['
        · rw [if_pos h1] at h
          split at h
          · exact Except.noConfusion h
          · exact matchChunkGo_failed_not_some _ _ _ h
        · rw [if_neg h1] at h
          by_cases h2 : c = '?'
          · rw [if_pos h2] at h
            exact matchChunkGo_failed_not_some _ _ _ h
          · rw [if_neg h2] at h
            by_cases h3 : c = '\\'
            · rw [if_pos h3] at h
              cases cs with
              | nil => exact Except.noConfusion h
              | cons d ds => exact matchChunkGo_failed_not_some _ _ _ h
            · rw [if_neg h3] at h
              exact matchChunkGo_failed_not_some _ _ _ h
      | cons a s1 =>
        simp only [List.isEmpty_cons, Bool.or_false, List.cons_append, List.tail_cons,
          List.headD_cons, Bool.false_eq_true, if_false] at h ⊢
        by_cases h1 : c = '['
        · rw [if_pos h1] at h ⊢
          cases hp : parseRanges a (if cs.headD ' ' = '^' then cs.tail else cs) false 0 with
          | error e => rw [hp] at h; exact Except.noConfusion h
          | ok pr =>
            obtain ⟨m, cs2⟩ := pr
            rw [hp] at h
            have h2 : cs2.length ≤ n := by
              have hlt := parseRanges_length hp
              split at hlt
              · simp only [List.length_tail] at hlt
                omega
              · omega
            have hh : matchChunkGo cs2 s1 (false || (m == (cs.headD ' ' == '^'))) =
                .ok (some t) := h
            show matchChunkGo cs2 (s1 ++ u) (false || (m == (cs.headD ' ' == '^'))) =
              .ok (some (t ++ u))
            simp only [Bool.false_or] at hh ⊢
            cases hm : (m == (cs.headD ' ' == '^')) with
            | true =>
              rw [hm] at hh
              exact absurd hh (matchChunkGo_failed_not_some _ _ _)
            | false =>
              rw [hm] at hh
              exact ih cs2 h2 s1 t u hh
        · rw [if_neg h1] at h ⊢
          by_cases h2 : c = '?'
          · rw [if_pos h2] at h ⊢
            cases hm : (a == '/') with
            | true =>
              rw [hm] at h
              exact absurd h (matchChunkGo_failed_not_some _ _ _)
            | false =>
              rw [hm] at h
              exact ih cs hcs s1 t u h
          · rw [if_neg h2] at h ⊢
            by_cases h3 : c = '\\'
            · rw [if_pos h3] at h ⊢
              cases cs with
              | nil => exact Except.noConfusion h
              | cons d ds =>
                have hh : matchChunkGo ds s1 (d != a) = .ok (some t) := h
                show matchChunkGo ds (s1 ++ u) (d != a) = .ok (some (t ++ u))
                have hds : ds.length ≤ n := by
                  simp only [List.length_cons] at hcs
                  omega
                cases hm : (d != a) with
                | true =>
                  rw [hm] at hh
                  exact absurd hh (matchChunkGo_failed_not_some _ _ _)
                | false =>
                  rw [hm] at hh
                  exact ih ds hds s1 t u hh
            · rw [if_neg h3] at h ⊢
              cases hm : (c != a) with
              | true =>
                rw [hm] at h
                exact absurd h (matchChunkGo_failed_not_some _ _ _)
              | false =>
                rw [hm] at h
                exact ih cs hcs s1 t u h

theorem matchChunkGo_append_some {c s t : List Char} (u : List Char)
    (h : matchChunkGo c s false = .ok (some t)) :
    matchChunkGo c (s ++ u) false = .ok (some (t ++ u)) :=
  matchChunkGo_append_some_aux c.length c (le_refl _) s t u h

theorem getEsc_append {ch : List Char} {r : Char} {t : List Char} (q : List Char)
    (h : getEsc ch = .ok (r, t)) : getEsc (ch ++ q) = .ok (r, t ++ q) := by
  match ch with
  | [] => simp [getEsc] at h
  | c :: cs =>
    simp only [getEsc, List.cons_append] at h ⊢
    split at h
    · exact absurd h (by simp)
    · rename_i h1
      rw [if_neg h1]
      split at h
      · rename_i h2
        rw [if_pos h2]
        match cs, h with
        | [], h => exact absurd h (by simp)
        | d :: ds, h =>
          simp only [List.cons_append] at h ⊢
          split at h
          · exact absurd h (by simp)
          · rename_i h3
            simp only [Except.ok.injEq, Prod.mk.injEq] at h
            obtain ⟨hr, ht⟩ := h
            subst hr ht
            rw [if_neg (by simp only [List.isEmpty_eq_true] at h3 ⊢; simp [h3])]
      · rename_i h2
        rw [if_neg h2]
        split at h
        · exact absurd h (by simp)
        · rename_i h3
          simp only [Except.ok.injEq, Prod.mk.injEq] at h
          obtain ⟨hr, ht⟩ := h
          subst hr ht
          rw [if_neg (by simp only [List.isEmpty_eq_true] at h3 ⊢; simp [h3])]

theorem parseRanges_append_aux : ∀ (k : Nat) (ch : List Char), ch.length ≤ k →
    ∀ {r : Char} {a : Bool} {n : Nat} {m : Bool} {rest : List Char} (q : List Char),
    parseRanges r ch a n = .ok (m, rest) →
    parseRanges r (ch ++ q) a n = .ok (m, rest ++ q) := by
  intro k
  induction k with
  | zero =>
    intro ch hk r a n m rest q h
    have hnil : ch = [] := List.length_eq_zero.mp (Nat.le_zero.mp hk)
    subst hnil
    rw [parseRanges_eq] at h
    split at h
    · simp_all
    · cases hlo : getEsc [] with
      | error e => rw [hlo] at h; exact absurd h (by simp)
      | ok pr => exact absurd hlo (by simp [getEsc])
  | succ k ih =>
    intro ch hk r a n m rest q h
    cases ch with
    | nil =>
      rw [parseRanges_eq] at h
      split at h
      · simp_all
      · cases hlo : getEsc [] with
        | error e => rw [hlo] at h; exact absurd h (by simp)
        | ok pr => exact absurd hlo (by simp [getEsc])
    | cons c ch0 =>
      rw [parseRanges_eq] at h
      rw [parseRanges_eq]
      simp only [List.cons_append, List.headD_cons] at h ⊢
      split at h
      · rename_i hg
        rw [if_pos ⟨hg.1, by simp, hg.2.2⟩]
        simp only [Except.ok.injEq, Prod.mk.injEq] at h ⊢
        exact ⟨h.1, by rw [← h.2]; simp⟩
      · rename_i hg
        rw [if_neg (by
          intro hcon
          exact hg ⟨hcon.1, by simp, hcon.2.2⟩)]
        cases hlo : getEsc (c :: ch0) with
        | error e => rw [hlo] at h; exact absurd h (by simp)
        | ok pr =>
          obtain ⟨lo, ch1⟩ := pr
          rw [hlo] at h
          have hlo2 := getEsc_append q hlo
          rw [List.cons_append] at hlo2
          rw [hlo2]
          simp only at h ⊢
          cases ch1 with
          | nil =>
            simp only [List.headD_nil] at h
            rw [if_neg (by simp)] at h
            simp only at h
            rw [parseRanges_eq] at h
            simp only [List.headD_nil] at h
            rw [if_neg (by simp)] at h
            cases hlo2 : getEsc [] with
            | error e => rw [hlo2] at h; exact absurd h (by simp)
            | ok pr => exact absurd hlo2 (by simp [getEsc])
          | cons c1 ch1t =>
            have hl1 := getEsc_length hlo
            simp only [List.cons_append, List.headD_cons, List.tail_cons] at h ⊢
            by_cases hd : c1 = '-'
            · rw [if_pos hd] at h ⊢
              cases hhi : getEsc ch1t with
              | error e => rw [hhi] at h; exact absurd h (by simp)
              | ok pr =>
                obtain ⟨hi, ch2⟩ := pr
                rw [hhi] at h
                rw [getEsc_append q hhi]
                simp only at h ⊢
                have hl2 := getEsc_length hhi
                exact ih ch2 (by simp only [List.length_cons] at hk hl1; omega) q h
            · rw [if_neg hd] at h ⊢
              simp only at h ⊢
              exact ih (c1 :: ch1t) (by simp only [List.length_cons] at hk hl1 ⊢; omega) q h

theorem parseRanges_append {ch : List Char} {r : Char} {a : Bool} {n : Nat} {m : Bool}
    {rest : List Char} (q : List Char) (h : parseRanges r ch a n = .ok (m, rest)) :
    parseRanges r (ch ++ q) a n = .ok (m, rest ++ q) :=
  parseRanges_append_aux ch.length ch (le_refl _) q h

theorem parseRanges_shape_aux : ∀ (k : Nat) (ch : List Char), ch.length ≤ k →
    ∀ (n : Nat) (r : Char) (a : Bool) (r2 : Char) (a2 : Bool),
    (∃ e, parseRanges r ch a n = .error e ∧ parseRanges r2 ch a2 n = .error e) ∨
    (∃ m m2 rest, parseRanges r ch a n = .ok (m, rest) ∧
      parseRanges r2 ch a2 n = .ok (m2, rest)) := by
  intro k
  induction k with
  | zero =>
    intro ch hk n r a r2 a2
    have hnil : ch = [] := List.length_eq_zero.mp (Nat.le_zero.mp hk)
    subst hnil
    left
    refine ⟨(), ?_, ?_⟩ <;>
      (rw [parseRanges_eq]; rw [if_neg (by simp)]; simp [getEsc])
  | succ k ih =>
    intro ch hk n r a r2 a2
    cases ch with
    | nil =>
      left
      refine ⟨(), ?_, ?_⟩ <;>
        (rw [parseRanges_eq]; rw [if_neg (by simp)]; simp [getEsc])
    | cons c ch0 =>
      rw [parseRanges_eq r (c :: ch0) a n]
      rw [parseRanges_eq r2 (c :: ch0) a2 n]
      by_cases hg : c = ']' ∧ (c :: ch0 : List Char) ≠ [] ∧ 0 < n
      · simp only [List.headD_cons]
        rw [if_pos hg, if_pos hg]
        right
        exact ⟨a, a2, ch0, by simp, by simp⟩
      · simp only [List.headD_cons]
        rw [if_neg hg, if_neg hg]
        cases hlo : getEsc (c :: ch0) with
        | error e =>
          left
          exact ⟨e, rfl, rfl⟩
        | ok pr =>
          obtain ⟨lo, ch1⟩ := pr
          have hl1 := getEsc_length hlo
          simp only
          cases hhi : (if ch1.headD ' ' = '-' then getEsc ch1.tail else
              Except.ok (lo, ch1)) with
          | error e =>
            left
            exact ⟨e, rfl, rfl⟩
          | ok pr =>
            obtain ⟨hi, ch2⟩ := pr
            have hl2 : ch2.length < (c :: ch0).length := by
              split at hhi
              · have := getEsc_length hhi
                have h3 : ch1.tail.length ≤ ch1.length := by cases ch1 <;> simp
                omega
              · simp only [Except.ok.injEq, Prod.mk.injEq] at hhi
                obtain ⟨-, h3⟩ := hhi
                subst h3
                omega
            simp only
            exact ih ch2 (by simp only [List.length_cons] at hk hl2; omega) (n + 1) r _ r2 _

theorem matchChunkGo_error_irrel_aux : ∀ (k : Nat) (c : List Char), c.length ≤ k →
    ∀ (s : List Char) (f : Bool), matchChunkGo c s f = .error () →
    ∀ (s2 : List Char) (f2 : Bool), matchChunkGo c s2 f2 = .error () := by
  intro k
  induction k with
  | zero =>
    intro c hk s f h s2 f2
    have hnil : c = [] := List.length_eq_zero.mp (Nat.le_zero.mp hk)
    subst hnil
    rw [matchChunkGo_nil] at h
    exact absurd h (by simp)
  | succ n ih =>
    intro c hk s f h s2 f2
    cases c with
    | nil =>
      rw [matchChunkGo_nil] at h
      exact absurd h (by simp)
    | cons c cs =>
      have hcs : cs.length ≤ n := by
        simp only [List.length_cons] at hk
        omega
      rw [matchChunkGo_cons] at h ⊢
      simp only at h ⊢
      by_cases h1 : c = '['
      · rw [if_pos h1] at h ⊢
        rcases parseRanges_shape_aux cs.length
            (if cs.headD ' ' = '^' then cs.tail else cs)
            (by split <;> (cases cs <;> simp)) 0
            (if (f || s.isEmpty) = true then Char.ofNat 0 else s.headD (Char.ofNat 0)) false
            (if (f2 || s2.isEmpty) = true then Char.ofNat 0 else s2.headD (Char.ofNat 0)) false
          with ⟨e, he1, he2⟩ | ⟨m, m2, rest, ho1, ho2⟩
        · rw [he2]
        · rw [ho1] at h
          rw [ho2]
          have hrest : rest.length ≤ n := by
            have := parseRanges_length ho1
            have h3 : (if cs.headD ' ' = '^' then cs.tail else cs).length ≤ cs.length := by
              split
              · cases cs <;> simp
              · exact le_refl _
            omega
          exact ih rest hrest _ _ h _ _
      · rw [if_neg h1] at h ⊢
        by_cases h2 : c = '?'
        · rw [if_pos h2] at h ⊢
          split at h <;> split <;> exact ih cs hcs _ _ h _ _
        · rw [if_neg h2] at h ⊢
          by_cases h3 : c = '\\'
          · rw [if_pos h3] at h ⊢
            cases cs with
            | nil => rfl
            | cons d ds =>
              have hds : ds.length ≤ n := by
                simp only [List.length_cons] at hcs
                omega
              have hh : (if (f || s.isEmpty) = true then matchChunkGo ds s true
                  else matchChunkGo ds s.tail (d != s.headD ' ')) = .error () := h
              show (if (f2 || s2.isEmpty) = true then matchChunkGo ds s2 true
                  else matchChunkGo ds s2.tail (d != s2.headD ' ')) = .error ()
              split at hh <;> split <;> exact ih ds hds _ _ hh _ _
          · rw [if_neg h3] at h ⊢
            split at h <;> split <;> exact ih cs hcs _ _ h _ _

theorem matchChunkGo_error_irrel {c s : List Char} {f : Bool}
    (h : matchChunkGo c s f = .error ()) (s2 : List Char) (f2 : Bool) :
    matchChunkGo c s2 f2 = .error () :=
  matchChunkGo_error_irrel_aux c.length c (le_refl _) s f h s2 f2

theorem matchChunkGo_append_noError_aux : ∀ (k : Nat) (c : List Char), c.length ≤ k →
    ∀ (q : List Char), allLit q → matchChunkGo c [] true ≠ .error () →
    matchChunkGo (c ++ q) [] true ≠ .error () := by
  intro k
  induction k with
  | zero =>
    intro c hk q hq h
    have hnil : c = [] := List.length_eq_zero.mp (Nat.le_zero.mp hk)
    subst hnil
    exact allLit_noError q hq [] true
  | succ n ih =>
    intro c hk q hq h
    cases c with
    | nil => exact allLit_noError q hq [] true
    | cons c cs =>
      have hcs : cs.length ≤ n := by
        simp only [List.length_cons] at hk
        omega
      rw [List.cons_append]
      rw [matchChunkGo_cons_failed] at h ⊢
      by_cases h1 : c = '['
      · rw [if_pos h1] at h ⊢
        cases cs with
        | nil =>
          exfalso
          apply h
          simp only [List.headD_nil]
          rw [if_neg (by simp)]
          rw [parseRanges_eq]
          rw [if_neg (by simp)]
          simp [getEsc]
        | cons e cs1 =>
          simp only [List.cons_append, List.headD_cons] at h ⊢
          cases hp : parseRanges (Char.ofNat 0) (if e = '^' then cs1 else e :: cs1) false 0 with
          | error em =>
            exfalso
            apply h
            rw [show (if e = '^' then (e :: cs1 : List Char).tail else e :: cs1) =
              (if e = '^' then cs1 else e :: cs1) by split <;> rfl, hp]
          | ok pr =>
            obtain ⟨m, rest⟩ := pr
            rw [show (if e = '^' then (e :: cs1 : List Char).tail else e :: cs1) =
              (if e = '^' then cs1 else e :: cs1) by split <;> rfl, hp] at h
            have happ := parseRanges_append q hp
            rw [show (if e = '^' then (e :: (cs1 ++ q) : List Char).tail
                else e :: (cs1 ++ q)) =
              (if e = '^' then cs1 else e :: cs1) ++ q by split <;> simp, happ]
            have hrest : rest.length ≤ n := by
              have hlt := parseRanges_length hp
              have h3 : (if e = '^' then cs1 else e :: cs1).length ≤ cs1.length + 1 := by
                split <;> simp
              simp only [List.length_cons] at hcs
              omega
            exact ih rest hrest q hq h
      · rw [if_neg h1] at h ⊢
        by_cases h2 : c = '?'
        · rw [if_pos h2] at h ⊢
          exact ih cs hcs q hq h
        · rw [if_neg h2] at h ⊢
          by_cases h3 : c = '\\'
          · rw [if_pos h3] at h ⊢
            cases cs with
            | nil => exact absurd rfl h
            | cons d ds =>
              simp only [List.cons_append] at h ⊢
              exact ih ds (by simp only [List.length_cons] at hcs; omega) q hq h
          · rw [if_neg h3] at h ⊢
            exact ih cs hcs q hq h

theorem matchChunkGo_append_noError {c : List Char} {s : List Char} {f : Bool}
    (h : matchChunkGo c s f ≠ .error ()) {q : List Char} (hq : allLit q)
    (s2 : List Char) (f2 : Bool) : matchChunkGo (c ++ q) s2 f2 ≠ .error () := by
  intro hcon
  have h0 : matchChunkGo c [] true ≠ .error () := by
    intro hc0
    exact h (matchChunkGo_error_irrel hc0 s f)
  exact matchChunkGo_append_noError_aux c.length c (le_refl _) q hq h0
    (matchChunkGo_error_irrel hcon [] true)

theorem matchChunkGo_compose_aux : ∀ (k : Nat) (c1 : List Char), c1.length ≤ k →
    ∀ (c2 s t : List Char), matchChunkGo c1 s false = .ok (some t) →
      matchChunkGo (c1 ++ c2) s false = matchChunkGo c2 t false := by
  intro k
  induction k with
  | zero =>
    intro c1 hk c2 s t h
    have hnil : c1 = [] := List.length_eq_zero.mp (Nat.le_zero.mp hk)
    subst hnil
    rw [matchChunkGo_nil] at h
    simp only [if_neg (by simp : ¬(false = true)), Except.ok.injEq, Option.some.injEq] at h
    subst h
    rfl
  | succ n ih =>
    intro c1 hk c2 s t h
    cases c1 with
    | nil =>
      rw [matchChunkGo_nil] at h
      simp only [if_neg (by simp : ¬(false = true)), Except.ok.injEq, Option.some.injEq] at h
      subst h
      rfl
    | cons c cs =>
      have hcs : cs.length ≤ n := by
        simp only [List.length_cons] at hk
        omega
      rw [List.cons_append]
      rw [matchChunkGo_cons] at h ⊢
      cases s with
      | nil =>
        exfalso
        simp only [List.isEmpty_nil, Bool.or_true, if_true, Bool.true_or] at h
        by_cases h1 : c = '['
        · rw [if_pos h1] at h
          split at h
          · exact Except.noConfusion h
          · exact matchChunkGo_failed_not_some _ _ _ h
        · rw [if_neg h1] at h
          by_cases h2 : c = '?'
          · rw [if_pos h2] at h
            exact matchChunkGo_failed_not_some _ _ _ h
          · rw [if_neg h2] at h
            by_cases h3 : c = '\\'
            · rw [if_pos h3] at h
              cases cs with
              | nil => exact Except.noConfusion h
              | cons d ds => exact matchChunkGo_failed_not_some _ _ _ h
            · rw [if_neg h3] at h
              exact matchChunkGo_failed_not_some _ _ _ h
      | cons a s1 =>
        simp only [List.isEmpty_cons, Bool.or_false, List.cons_append, List.tail_cons,
          List.headD_cons, Bool.false_eq_true, if_false] at h ⊢
        by_cases h1 : c = '['
        · rw [if_pos h1] at h ⊢
          cases hp : parseRanges a (if cs.headD ' ' = '^' then cs.tail else cs) false 0 with
          | error e => rw [hp] at h; exact Except.noConfusion h
          | ok pr =>
            obtain ⟨m, cs2⟩ := pr
            rw [hp] at h
            have h2 : cs2.length ≤ n := by
              have hlt := parseRanges_length hp
              split at hlt
              · simp only [List.length_tail] at hlt
                omega
              · omega
            have hcs2 : (if (cs ++ c2).headD ' ' = '^' then (cs ++ c2).tail else cs ++ c2) =
                (if cs.headD ' ' = '^' then cs.tail else cs) ++ c2 := by
              cases cs with
              | nil =>
                exfalso
                rw [show (if ([] : List Char).headD ' ' = '^' then ([] : List Char).tail
                    else ([] : List Char)) = ([] : List Char) by simp] at hp
                rw [parseRanges_eq] at hp
                rw [if_neg (by simp)] at hp
                simp [getEsc] at hp
              | cons e cs1 =>
                simp only [List.cons_append, List.headD_cons, List.tail_cons]
                split <;> simp
            rw [hcs2, parseRanges_append c2 hp]
            have hh : matchChunkGo cs2 s1 (false || (m == (cs.headD ' ' == '^'))) =
                .ok (some t) := h
            show matchChunkGo (cs2 ++ c2) s1
                (false || (m == ((cs ++ c2).headD ' ' == '^'))) = matchChunkGo c2 t false
            have hhead : ((cs ++ c2).headD ' ' == '^') = (cs.headD ' ' == '^') := by
              cases cs with
              | nil =>
                exfalso
                rw [show (if ([] : List Char).headD ' ' = '^' then ([] : List Char).tail
                    else ([] : List Char)) = ([] : List Char) by simp] at hp
                rw [parseRanges_eq] at hp
                rw [if_neg (by simp)] at hp
                simp [getEsc] at hp
              | cons e cs1 => simp
            rw [hhead]
            simp only [Bool.false_or] at hh ⊢
            cases hm : (m == (cs.headD ' ' == '^')) with
            | true =>
              rw [hm] at hh
              exact absurd hh (matchChunkGo_failed_not_some _ _ _)
            | false =>
              rw [hm] at hh
              exact ih cs2 h2 c2 s1 t hh
        · rw [if_neg h1] at h ⊢
          by_cases h2 : c = '?'
          · rw [if_pos h2] at h ⊢
            cases hm : (a == '/') with
            | true =>
              rw [hm] at h
              exact absurd h (matchChunkGo_failed_not_some _ _ _)
            | false =>
              rw [hm] at h
              exact ih cs hcs c2 s1 t h
          · rw [if_neg h2] at h ⊢
            by_cases h3 : c = '\\'
            · rw [if_pos h3] at h ⊢
              cases cs with
              | nil => exact Except.noConfusion h
              | cons d ds =>
                have hh : matchChunkGo ds s1 (d != a) = .ok (some t) := h
                show matchChunkGo (ds ++ c2) s1 (d != a) = matchChunkGo c2 t false
                have hds : ds.length ≤ n := by
                  simp only [List.length_cons] at hcs
                  omega
                cases hm : (d != a) with
                | true =>
                  rw [hm] at hh
                  exact absurd hh (matchChunkGo_failed_not_some _ _ _)
                | false =>
                  rw [hm] at hh
                  exact ih ds hds c2 s1 t hh
            · rw [if_neg h3] at h ⊢
              cases hm : (c != a) with
              | true =>
                rw [hm] at h
                exact absurd h (matchChunkGo_failed_not_some _ _ _)
              | false =>
                rw [hm] at h
                exact ih cs hcs c2 s1 t h

theorem matchChunkGo_compose {c1 c2 s t : List Char}
    (h : matchChunkGo c1 s false = .ok (some t)) :
    matchChunkGo (c1 ++ c2) s false = matchChunkGo c2 t false :=
  matchChunkGo_compose_aux c1.length c1 (le_refl _) c2 s t h

theorem matchChunkGo_append_none_aux : ∀ (k : Nat) (c : List Char), c.length ≤ k →
    ∀ (s s2 t2 u : List Char), matchChunkGo c s false = .ok none →
      matchChunkGo c s2 false = .ok (some t2) → s2.length ≤ s.length →
      matchChunkGo c (s ++ u) false = .ok none := by
  intro k
  induction k with
  | zero =>
    intro c hk s s2 t2 u h h2 hl
    have hnil : c = [] := List.length_eq_zero.mp (Nat.le_zero.mp hk)
    subst hnil
    rw [matchChunkGo_nil] at h
    exact absurd h (by simp)
  | succ n ih =>
    intro c hk s s2 t2 u h h2 hl
    cases c with
    | nil =>
      rw [matchChunkGo_nil] at h
      exact absurd h (by simp)
    | cons c cs =>
      have hcs : cs.length ≤ n := by
        simp only [List.length_cons] at hk
        omega
      have hs2ne : s2 ≠ [] := by
        intro hcon
        subst hcon
        rw [matchChunkGo_cons] at h2
        simp only [List.isEmpty_nil, Bool.or_true, if_true, Bool.true_or] at h2
        by_cases h1 : c = '['
        · rw [if_pos h1] at h2
          split at h2
          · exact Except.noConfusion h2
          · exact matchChunkGo_failed_not_some _ _ _ h2
        · rw [if_neg h1] at h2
          by_cases hq : c = '?'
          · rw [if_pos hq] at h2
            exact matchChunkGo_failed_not_some _ _ _ h2
          · rw [if_neg hq] at h2
            by_cases h3 : c = '\\'
            · rw [if_pos h3] at h2
              cases cs with
              | nil => exact Except.noConfusion h2
              | cons d ds => exact matchChunkGo_failed_not_some _ _ _ h2
            · rw [if_neg h3] at h2
              exact matchChunkGo_failed_not_some _ _ _ h2
      match s, s2, hs2ne, hl with
      | [], [], hne, _ => exact absurd rfl hne
      | [], a2 :: s21, _, hl => exact absurd hl (by simp)
      | a :: s1, a2 :: s21, _, hl =>
        have hl1 : s21.length ≤ s1.length := by
          simp only [List.length_cons] at hl
          omega
        rw [matchChunkGo_cons] at h h2 ⊢
        simp only [List.isEmpty_cons, Bool.or_false, List.cons_append, List.tail_cons,
          List.headD_cons, Bool.false_eq_true, if_false] at h h2 ⊢
        by_cases h1 : c = '['
        · rw [if_pos h1] at h h2 ⊢
          cases hp : parseRanges a (if cs.headD ' ' = '^' then cs.tail else cs) false 0 with
          | error e => rw [hp] at h; exact Except.noConfusion h
          | ok pr =>
            obtain ⟨m, cs2⟩ := pr
            rw [hp] at h
            have hsz : cs2.length ≤ n := by
              have hlt := parseRanges_length hp
              split at hlt
              · simp only [List.length_tail] at hlt
                omega
              · omega
            have hh : matchChunkGo cs2 s1 (false || (m == (cs.headD ' ' == '^'))) =
                .ok none := h
            show matchChunkGo cs2 (s1 ++ u) (false || (m == (cs.headD ' ' == '^'))) =
              .ok none
            simp only [Bool.false_or] at hh ⊢
            cases hm : (m == (cs.headD ' ' == '^')) with
            | true =>
              rw [hm] at hh
              rw [matchChunkGo_failed_irrel cs2 (s1 ++ u)]
              rw [matchChunkGo_failed_irrel cs2 s1] at hh
              exact hh
            | false =>
              rw [hm] at hh
              rcases parseRanges_shape_aux
                  (if cs.headD ' ' = '^' then cs.tail else cs).length
                  (if cs.headD ' ' = '^' then cs.tail else cs)
                  (le_refl _) 0 a2 false a false
                with ⟨e, he1, he2⟩ | ⟨m2, m2b, rest2, ho1, ho2⟩
              · rw [he2] at hp
                exact Except.noConfusion hp
              · rw [ho2] at hp
                simp only [Except.ok.injEq, Prod.mk.injEq] at hp
                obtain ⟨hm2b, hrest⟩ := hp
                rw [hrest] at ho1
                rw [ho1] at h2
                have hh2 : matchChunkGo cs2 s21 (false || (m2 == (cs.headD ' ' == '^'))) =
                    .ok (some t2) := h2
                simp only [Bool.false_or] at hh2
                cases hm2 : (m2 == (cs.headD ' ' == '^')) with
                | true =>
                  rw [hm2] at hh2
                  exact absurd hh2 (matchChunkGo_failed_not_some _ _ _)
                | false =>
                  rw [hm2] at hh2
                  exact ih cs2 hsz s1 s21 t2 u hh hh2 hl1
        · rw [if_neg h1] at h h2 ⊢
          by_cases hq : c = '?'
          · rw [if_pos hq] at h h2 ⊢
            cases hm : (a == '/') with
            | true =>
              rw [hm] at h
              rw [matchChunkGo_failed_irrel cs (s1 ++ u)]
              rw [matchChunkGo_failed_irrel cs s1] at h
              exact h
            | false =>
              rw [hm] at h
              cases hm2 : (a2 == '/') with
              | true =>
                rw [hm2] at h2
                exact absurd h2 (matchChunkGo_failed_not_some _ _ _)
              | false =>
                rw [hm2] at h2
                exact ih cs hcs s1 s21 t2 u h h2 hl1
          · rw [if_neg hq] at h h2 ⊢
            by_cases h3 : c = '\\'
            · rw [if_pos h3] at h h2 ⊢
              cases cs with
              | nil => exact Except.noConfusion h
              | cons d ds =>
                have hds : ds.length ≤ n := by
                  simp only [List.length_cons] at hcs
                  omega
                have hh : matchChunkGo ds s1 (d != a) = .ok none := h
                have hh2 : matchChunkGo ds s21 (d != a2) = .ok (some t2) := h2
                show matchChunkGo ds (s1 ++ u) (d != a) = .ok none
                cases hm : (d != a) with
                | true =>
                  rw [hm] at hh
                  rw [matchChunkGo_failed_irrel ds (s1 ++ u)]
                  rw [matchChunkGo_failed_irrel ds s1] at hh
                  exact hh
                | false =>
                  rw [hm] at hh
                  cases hm2 : (d != a2) with
                  | true =>
                    rw [hm2] at hh2
                    exact absurd hh2 (matchChunkGo_failed_not_some _ _ _)
                  | false =>
                    rw [hm2] at hh2
                    exact ih ds hds s1 s21 t2 u hh hh2 hl1
            · rw [if_neg h3] at h h2 ⊢
              cases hm : (c != a) with
              | true =>
                rw [hm] at h
                rw [matchChunkGo_failed_irrel cs (s1 ++ u)]
                rw [matchChunkGo_failed_irrel cs s1] at h
                exact h
              | false =>
                rw [hm] at h
                cases hm2 : (c != a2) with
                | true =>
                  rw [hm2] at h2
                  exact absurd h2 (matchChunkGo_failed_not_some _ _ _)
                | false =>
                  rw [hm2] at h2
                  exact ih cs hcs s1 s21 t2 u h h2 hl1

theorem matchChunkGo_append_none {c s s2 t2 : List Char} (u : List Char)
    (h : matchChunkGo c s false = .ok none)
    (h2 : matchChunkGo c s2 false = .ok (some t2)) (hl : s2.length ≤ s.length) :
    matchChunkGo c (s ++ u) false = .ok none :=
  matchChunkGo_append_none_aux c.length c (le_refl _) s s2 t2 u h h2 hl

/-! ## Appending a literal suffix to the pattern: `scanChunk` composition -/

theorem scanStars_cons (c : Char) (l : List Char) :
    scanStars (c :: l) = if c = '*' then (true, (scanStars l).2) else (false, c :: l) := rfl

theorem scanStars_append_ne (p q : List Char) (h : (scanStars p).2 ≠ []) :
    scanStars (p ++ q) = ((scanStars p).1, (scanStars p).2 ++ q) := by
  induction p with
  | nil => exact absurd rfl h
  | cons c cs ih =>
    by_cases hc : c = '*'
    · simp only [List.cons_append, scanStars_cons, if_pos hc] at h ⊢
      simp [ih h]
    · simp only [List.cons_append, scanStars_cons, if_neg hc] at h ⊢

theorem scanStars_append_nil (p q : List Char) (h : (scanStars p).2 = [])
    (hq : q.headD ' ' ≠ '*') : scanStars (p ++ q) = (!p.isEmpty, q) := by
  induction p with
  | nil =>
    simp only [List.nil_append, List.isEmpty_nil, Bool.not_true]
    cases q with
    | nil => rfl
    | cons x xs =>
      simp only [List.headD_cons] at hq
      simp [scanStars_cons, hq]
  | cons c cs ih =>
    by_cases hc : c = '*'
    · simp only [List.cons_append, scanStars_cons, if_pos hc] at h ⊢
      simp [ih h]
    · simp only [scanStars_cons, if_neg hc] at h
      simp at h

theorem scanStars_head (p : List Char) :
    (scanStars p).2 = [] ∨ (scanStars p).2.headD ' ' ≠ '*' := by
  induction p with
  | nil => exact Or.inl rfl
  | cons c cs ih =>
    simp only [scanStars_cons]
    by_cases hc : c = '*'
    · rw [if_pos hc]
      exact ih
    · rw [if_neg hc]
      exact Or.inr (by simpa using hc)

theorem scanBody_cons (ir : Bool) (c : Char) (cs : List Char) :
    scanBody ir (c :: cs) =
      (if c = '\\' then
         match cs with
         | [] => ([c], [])
         | d :: ds => (c :: d :: (scanBody ir ds).1, (scanBody ir ds).2)
       else if c = '[' then (c :: (scanBody true cs).1, (scanBody true cs).2)
       else if c = ']' then (c :: (scanBody false cs).1, (scanBody false cs).2)
       else if c = '*' then
         if ir then (c :: (scanBody ir cs).1, (scanBody ir cs).2) else ([], c :: cs)
       else (c :: (scanBody ir cs).1, (scanBody ir cs).2)) := by
  rw [scanBody.eq_def]

theorem scanBody_append_ne : ∀ (k : Nat) (b : List Char), b.length ≤ k →
    ∀ (ir : Bool) (q : List Char), (scanBody ir b).2 ≠ [] →
    scanBody ir (b ++ q) = ((scanBody ir b).1, (scanBody ir b).2 ++ q) := by
  intro k
  induction k with
  | zero =>
    intro b hk ir q h
    have hnil : b = [] := List.length_eq_zero.mp (Nat.le_zero.mp hk)
    subst hnil
    exact absurd rfl h
  | succ n ih =>
    intro b hk ir q h
    cases b with
    | nil => exact absurd rfl h
    | cons c cs =>
      have hcs : cs.length ≤ n := by
        simp only [List.length_cons] at hk
        omega
      rw [List.cons_append]
      rw [scanBody_cons] at h
      rw [scanBody_cons]
      rw [scanBody_cons ir c cs]
      by_cases h1 : c = '\\'
      · subst h1
        cases cs with
        | nil => exact absurd rfl h
        | cons d ds =>
          have hh : (scanBody ir ds).2 ≠ [] := h
          have hds := ih ds (by simp only [List.length_cons] at hcs; omega) ir q hh
          show ('\\' :: d :: (scanBody ir (ds ++ q)).1, (scanBody ir (ds ++ q)).2) =
            ('\\' :: d :: (scanBody ir ds).1, (scanBody ir ds).2 ++ q)
          rw [hds]
      · by_cases h2 : c = '['
        · subst h2
          have hh : (scanBody true cs).2 ≠ [] := h
          have hcs2 := ih cs hcs true q hh
          show ('[' :: (scanBody true (cs ++ q)).1, (scanBody true (cs ++ q)).2) =
            ('[' :: (scanBody true cs).1, (scanBody true cs).2 ++ q)
          rw [hcs2]
        · by_cases h3 : c = ']'
          · subst h3
            have hh : (scanBody false cs).2 ≠ [] := h
            have hcs2 := ih cs hcs false q hh
            show (']' :: (scanBody false (cs ++ q)).1, (scanBody false (cs ++ q)).2) =
              (']' :: (scanBody false cs).1, (scanBody false cs).2 ++ q)
            rw [hcs2]
          · by_cases h4 : c = '*'
            · subst h4
              cases ir with
              | true =>
                have hh : (scanBody true cs).2 ≠ [] := h
                have hcs2 := ih cs hcs true q hh
                show ('*' :: (scanBody true (cs ++ q)).1, (scanBody true (cs ++ q)).2) =
                  ('*' :: (scanBody true cs).1, (scanBody true cs).2 ++ q)
                rw [hcs2]
              | false => rfl
            · simp only [if_neg h1, if_neg h2, if_neg h3, if_neg h4] at h ⊢
              rw [ih cs hcs ir q h]

theorem scanBody_zip (ir : Bool) : scanBody ir zipExt = (zipExt, []) := by
  cases ir <;> rfl

theorem scanBody_append_zip : ∀ (k : Nat) (b : List Char), b.length ≤ k →
    ∀ (ir : Bool), (scanBody ir b).2 = [] →
    scanBody ir (b ++ zipExt) = (b ++ zipExt, []) := by
  intro k
  induction k with
  | zero =>
    intro b hk ir h
    have hnil : b = [] := List.length_eq_zero.mp (Nat.le_zero.mp hk)
    subst hnil
    exact scanBody_zip ir
  | succ n ih =>
    intro b hk ir h
    cases b with
    | nil => exact scanBody_zip ir
    | cons c cs =>
      have hcs : cs.length ≤ n := by
        simp only [List.length_cons] at hk
        omega
      rw [List.cons_append]
      rw [scanBody_cons] at h
      rw [scanBody_cons]
      by_cases h1 : c = '\\'
      · subst h1
        cases cs with
        | nil =>
          show ('\\' :: '.' :: (scanBody ir ['z', 'i', 'p']).1,
            (scanBody ir ['z', 'i', 'p']).2) = ('\\' :: zipExt, [])
          cases ir <;> rfl
        | cons d ds =>
          have hh : (scanBody ir ds).2 = [] := h
          have hds := ih ds (by simp only [List.length_cons] at hcs; omega) ir hh
          show ('\\' :: d :: (scanBody ir (ds ++ zipExt)).1, (scanBody ir (ds ++ zipExt)).2) =
            ('\\' :: d :: (ds ++ zipExt), [])
          rw [hds]
      · by_cases h2 : c = '['
        · subst h2
          have hh : (scanBody true cs).2 = [] := h
          have hcs2 := ih cs hcs true hh
          show ('[' :: (scanBody true (cs ++ zipExt)).1, (scanBody true (cs ++ zipExt)).2) =
            ('[' :: (cs ++ zipExt), [])
          rw [hcs2]
        · by_cases h3 : c = ']'
          · subst h3
            have hh : (scanBody false cs).2 = [] := h
            have hcs2 := ih cs hcs false hh
            show (']' :: (scanBody false (cs ++ zipExt)).1,
                (scanBody false (cs ++ zipExt)).2) = (']' :: (cs ++ zipExt), [])
            rw [hcs2]
          · by_cases h4 : c = '*'
            · subst h4
              cases ir with
              | true =>
                have hh : (scanBody true cs).2 = [] := h
                have hcs2 := ih cs hcs true hh
                show ('*' :: (scanBody true (cs ++ zipExt)).1,
                    (scanBody true (cs ++ zipExt)).2) = ('*' :: (cs ++ zipExt), [])
                rw [hcs2]
              | false =>
                exfalso
                have hh : ('*' :: cs : List Char) = [] := h
                exact List.noConfusion hh
            · simp only [if_neg h1, if_neg h2, if_neg h3, if_neg h4] at h ⊢
              rw [ih cs hcs ir h]

theorem scanStars_all_star (p : List Char) (hne : p ≠ [])
    (h : (scanStars p).2 = []) : (scanStars p).1 = true := by
  cases p with
  | nil => exact absurd rfl hne
  | cons c cs =>
    rw [scanStars_cons] at h ⊢
    by_cases hc : c = '*'
    · rw [if_pos hc]
    · rw [if_neg hc] at h
      exact absurd h (by simp)

theorem scanChunk_chunk_nil (p : List Char) (h : (scanChunk p).2.1 = []) :
    (scanStars p).2 = [] ∧ (scanChunk p).2.2 = [] := by
  have hsp : (scanStars p).2 = [] := by
    rcases scanStars_head p with hn | hh
    · exact hn
    · rcases scanBody_chunk_nil (scanStars p).2 h with hn | hstar
      · exact hn
      · exact absurd hstar hh
  refine ⟨hsp, ?_⟩
  simp only [scanChunk, hsp]
  rfl

theorem scanChunk_append_ne (p q : List Char) (h : (scanChunk p).2.2 ≠ []) :
    scanChunk (p ++ q) =
      ((scanChunk p).1, (scanChunk p).2.1, (scanChunk p).2.2 ++ q) := by
  have hsp : (scanStars p).2 ≠ [] := by
    intro hcon
    apply h
    simp only [scanChunk, hcon]
    rfl
  have hss := scanStars_append_ne p q hsp
  have hsb := scanBody_append_ne (scanStars p).2.length (scanStars p).2 (le_refl _)
    false q (by simpa only [scanChunk] using h)
  simp only [scanChunk, hss, hsb]

theorem scanChunk_append_zip_chunk (p : List Char) (hr : (scanChunk p).2.2 = [])
    (hc : (scanChunk p).2.1 ≠ []) :
    scanChunk (p ++ zipExt) = ((scanChunk p).1, (scanChunk p).2.1 ++ zipExt, []) := by
  have hsp : (scanStars p).2 ≠ [] := by
    intro hcon
    apply hc
    simp only [scanChunk, hcon]
    rfl
  have hchunk : (scanChunk p).2.1 = (scanStars p).2 := by
    have := scanBody_append_eq false (scanStars p).2
    have hr2 : (scanBody false (scanStars p).2).2 = [] := by
      simpa only [scanChunk] using hr
    rw [hr2, List.append_nil] at this
    simpa only [scanChunk] using this
  have hss := scanStars_append_ne p zipExt hsp
  have hsb := scanBody_append_zip (scanStars p).2.length (scanStars p).2 (le_refl _)
    false (by simpa only [scanChunk] using hr)
  simp only [scanChunk] at hchunk
  simp only [scanChunk, hss, hsb, hchunk]

theorem scanChunk_append_zip_allstars (p : List Char) (h : (scanStars p).2 = []) :
    scanChunk (p ++ zipExt) = (!p.isEmpty, zipExt, []) := by
  have hss := scanStars_append_nil p zipExt h (by simp [zipExt])
  simp only [scanChunk, hss]
  rw [scanBody_zip]

theorem goMatch_nil (name : List Char) : goMatch [] name = .ok name.isEmpty := by
  rw [goMatch]

theorem goMatch_cons (p : Char) (ps name : List Char) :
    goMatch (p :: ps) name =
      (if (scanChunk (p :: ps)).1 = true ∧ (scanChunk (p :: ps)).2.1 = [] then
        .ok (!(name.contains '/'))
      else
        match matchChunk (scanChunk (p :: ps)).2.1 name with
        | .error e => .error e
        | .ok (some t) =>
          if t = [] ∨ (scanChunk (p :: ps)).2.2 ≠ [] then goMatch (scanChunk (p :: ps)).2.2 t
          else if (scanChunk (p :: ps)).1 then
            starLoop (scanChunk (p :: ps)).2.1 (scanChunk (p :: ps)).2.2 name
          else .ok false
        | .ok none =>
          if (scanChunk (p :: ps)).1 then
            starLoop (scanChunk (p :: ps)).2.1 (scanChunk (p :: ps)).2.2 name
          else .ok false) := by
  rw [goMatch]

theorem starLoop_nil (chunk rest : List Char) : starLoop chunk rest [] = .ok false := by
  rw [starLoop]

theorem starLoop_cons (chunk rest : List Char) (c : Char) (name1 : List Char) :
    starLoop chunk rest (c :: name1) =
      (if c = '/' then .ok false
       else
        match matchChunk chunk name1 with
        | .error e => .error e
        | .ok (some t) =>
          if rest = [] ∧ t ≠ [] then starLoop chunk rest name1
          else goMatch rest t
        | .ok none => starLoop chunk rest name1) := by
  rw [starLoop]

theorem allLit_zipExt : allLit zipExt := by
  intro c hc
  fin_cases hc <;> refine ⟨by decide, by decide, by decide⟩

theorem matchChunk_zip_self : matchChunk zipExt zipExt = .ok (some []) := by
  have := allLit_selfPrefix zipExt allLit_zipExt []
  rw [List.append_nil] at this
  simpa [matchChunk] using this

theorem starLoop_ok_exists : ∀ (s chunk rest : List Char), rest ≠ [] →
    starLoop chunk rest s = .ok true →
    ∃ s1 t, s1.length < s.length ∧ matchChunk chunk s1 = .ok (some t) ∧
      goMatch rest t = .ok true := by
  intro s
  induction s with
  | nil =>
    intro chunk rest hne h
    rw [starLoop_nil] at h
    exact absurd h (by simp)
  | cons c s1 ih =>
    intro chunk rest hne h
    rw [starLoop_cons] at h
    split at h
    · exact absurd h (by simp)
    · cases hm : matchChunk chunk s1 with
      | error e =>
        rw [hm] at h
        exact absurd h (by simp)
      | ok o =>
        cases o with
        | none =>
          rw [hm] at h
          obtain ⟨s2, t, hlen, hmc, hgm⟩ := ih chunk rest hne h
          exact ⟨s2, t, by simp only [List.length_cons]; omega, hmc, hgm⟩
        | some t =>
          rw [hm] at h
          simp only at h
          rw [if_neg (by simp [hne])] at h
          exact ⟨s1, t, by simp, hm, h⟩

theorem starLoop_zip_tail : ∀ (s : List Char), s ≠ [] → s.contains '/' = false →
    starLoop zipExt [] (s ++ zipExt) = .ok true := by
  intro s
  induction s with
  | nil => intro h _; exact absurd rfl h
  | cons x s1 ih =>
    intro _ hsl
    simp only [List.contains_cons, Bool.or_eq_false_iff, beq_eq_false_iff_ne] at hsl
    obtain ⟨hx, hs1⟩ := hsl
    rw [List.cons_append, starLoop_cons]
    rw [if_neg (by simpa using hx.symm)]
    cases hs1nil : s1.isEmpty with
    | true =>
      have : s1 = [] := by simpa using hs1nil
      subst this
      simp only [List.nil_append]
      rw [matchChunk_zip_self]
      simp only []
      rw [if_neg (by simp)]
      rw [goMatch_nil]
      rfl
    | false =>
      have hne : s1 ≠ [] := by simpa using hs1nil
      cases hm : matchChunk zipExt (s1 ++ zipExt) with
      | error e =>
        exfalso
        have := allLit_noError zipExt allLit_zipExt (s1 ++ zipExt) false
        simp only [matchChunk] at hm
        cases e
        exact this hm
      | ok o =>
        cases o with
        | none =>
          exact ih hne hs1
        | some t =>
          simp only []
          have hlen : t.length = s1.length := by
            have hc2 := allLit_consume zipExt allLit_zipExt (s1 ++ zipExt) false t
              (by simpa [matchChunk] using hm)
            simp only [List.length_append] at hc2
            omega
          have htne : t ≠ [] := by
            intro hcon
            subst hcon
            simp only [List.length_nil] at hlen
            exact hne (List.length_eq_zero.mp hlen.symm)
          rw [if_pos (by exact ⟨trivial, htne⟩)]
          exact ih hne hs1

theorem matchChunk_append_some {c s t : List Char} (u : List Char)
    (h : matchChunk c s = .ok (some t)) : matchChunk c (s ++ u) = .ok (some (t ++ u)) :=
  matchChunkGo_append_some u h

theorem matchChunk_compose {c1 c2 s t : List Char}
    (h : matchChunk c1 s = .ok (some t)) : matchChunk (c1 ++ c2) s = matchChunk c2 t :=
  matchChunkGo_compose h

theorem matchChunk_append_none {c s s2 t2 : List Char} (u : List Char)
    (h : matchChunk c s = .ok none) (h2 : matchChunk c s2 = .ok (some t2))
    (hl : s2.length ≤ s.length) : matchChunk c (s ++ u) = .ok none :=
  matchChunkGo_append_none u h h2 hl

theorem matchChunk_zip_noError (s : List Char) : matchChunk zipExt s ≠ .error () :=
  allLit_noError zipExt allLit_zipExt s false

theorem matchChunk_zip_length {s t : List Char} (h : matchChunk zipExt s = .ok (some t)) :
    s.length = t.length + zipExt.length :=
  allLit_consume zipExt allLit_zipExt s false t h

theorem matchChunk_noError_append {c s : List Char} (h : matchChunk c s ≠ .error ())
    {q : List Char} (hq : allLit q) (s2 : List Char) :
    matchChunk (c ++ q) s2 ≠ .error () :=
  matchChunkGo_append_noError h hq s2 false

theorem goMatch_nil_nil : goMatch [] [] = .ok true := by
  rw [goMatch_nil]
  rfl

theorem goMatch_zip_zip : goMatch zipExt zipExt = .ok true := by
  have hsc : scanChunk zipExt = (false, zipExt, []) := by
    simp [scanChunk, scanStars_cons, zipExt, scanBody_cons]
    exact ⟨rfl, rfl⟩
  rw [show (zipExt : List Char) = '.' :: ['z', 'i', 'p'] from rfl, goMatch_cons]
  rw [show ('.' :: ['z', 'i', 'p'] : List Char) = zipExt from rfl, hsc]
  simp only []
  rw [if_neg (by simp [zipExt])]
  rw [matchChunk_zip_self]
  simp only []
  rw [if_pos (Or.inl trivial)]
  exact goMatch_nil_nil

theorem goMatch_zip_aux : ∀ N : Nat,
    (∀ p s : List Char, p.length + s.length ≤ N → goMatch p s = .ok true →
      goMatch (p ++ zipExt) (s ++ zipExt) = .ok true) ∧
    (∀ chunk rest s : List Char, chunk.length + rest.length + s.length ≤ N → rest ≠ [] →
      starLoop chunk rest s = .ok true →
      starLoop chunk (rest ++ zipExt) (s ++ zipExt) = .ok true) ∧
    (∀ chunk s : List Char, chunk.length + s.length ≤ N →
      starLoop chunk [] s = .ok true →
      starLoop (chunk ++ zipExt) [] (s ++ zipExt) = .ok true) := by
  intro N
  induction N using Nat.strong_induction_on with
  | _ N ih =>
  refine ⟨?_, ?_, ?_⟩
  · -- goMatch part
    intro p s hN h
    cases p with
    | nil =>
      rw [goMatch_nil] at h
      have hs : s = [] := by simpa using h
      subst hs
      exact goMatch_zip_zip
    | cons p0 ps =>
      rw [goMatch_cons] at h
      by_cases hsc : (scanChunk (p0 :: ps)).1 = true ∧ (scanChunk (p0 :: ps)).2.1 = []
      · rw [if_pos hsc] at h
        have hsl : s.contains '/' = false := by simpa using h
        obtain ⟨hsp, hrest⟩ := scanChunk_chunk_nil (p0 :: ps) hsc.2
        rw [List.cons_append, goMatch_cons]
        have hap := scanChunk_append_zip_allstars (p0 :: ps) hsp
        rw [List.cons_append] at hap
        simp only [hap, List.isEmpty_cons, Bool.not_false]
        rw [if_neg (by simp [zipExt])]
        cases hs : s.isEmpty with
        | true =>
          have hs0 : s = [] := by simpa using hs
          subst hs0
          simp only [List.nil_append]
          rw [matchChunk_zip_self]
          simp only []
          rw [if_pos (Or.inl trivial)]
          exact goMatch_nil_nil
        | false =>
          have hsne : s ≠ [] := by simpa using hs
          cases hm2 : matchChunk zipExt (s ++ zipExt) with
          | error e =>
            exfalso
            cases e
            exact matchChunk_zip_noError (s ++ zipExt) hm2
          | ok o =>
            cases o with
            | some t =>
              simp only []
              have hlen := matchChunk_zip_length hm2
              have htne : t ≠ [] := by
                intro hcon
                subst hcon
                simp only [List.length_append, List.length_nil] at hlen
                exact hsne (List.length_eq_zero.mp (by omega))
              rw [if_neg (by simp [htne])]
              rw [if_pos trivial]
              exact starLoop_zip_tail s hsne hsl
            | none =>
              simp only []
              rw [if_pos trivial]
              exact starLoop_zip_tail s hsne hsl
      · rw [if_neg hsc] at h
        cases hm : matchChunk (scanChunk (p0 :: ps)).2.1 s with
        | error e =>
          rw [hm] at h
          exact absurd h (by simp)
        | ok o =>
          cases o with
          | some t =>
            rw [hm] at h
            have hh : (if t = [] ∨ (scanChunk (p0 :: ps)).2.2 ≠ [] then
                goMatch (scanChunk (p0 :: ps)).2.2 t
              else if (scanChunk (p0 :: ps)).1 then
                starLoop (scanChunk (p0 :: ps)).2.1 (scanChunk (p0 :: ps)).2.2 s
              else .ok false) = .ok true := h
            by_cases hr : (scanChunk (p0 :: ps)).2.2 = []
            · by_cases ht : t = []
              · subst ht
                have hcne : (scanChunk (p0 :: ps)).2.1 ≠ [] := by
                  intro hcon
                  apply hsc
                  refine ⟨?_, hcon⟩
                  obtain ⟨hsp2, -⟩ := scanChunk_chunk_nil _ hcon
                  have := scanStars_all_star (p0 :: ps) (by simp) hsp2
                  simpa [scanChunk] using this
                have hap := scanChunk_append_zip_chunk (p0 :: ps) hr hcne
                rw [List.cons_append] at hap
                rw [List.cons_append, goMatch_cons]
                simp only [hap]
                rw [if_neg (by simp [zipExt])]
                have hm1 := matchChunk_append_some zipExt hm
                have hcomp : matchChunk ((scanChunk (p0 :: ps)).2.1 ++ zipExt)
                    (s ++ zipExt) = matchChunk zipExt ([] ++ zipExt) :=
                  matchChunk_compose hm1
                rw [List.nil_append, matchChunk_zip_self] at hcomp
                rw [hcomp]
                simp only []
                rw [if_pos (Or.inl trivial)]
                exact goMatch_nil_nil
              · rw [if_neg (by simp [ht, hr])] at hh
                cases hstar : (scanChunk (p0 :: ps)).1 with
                | false =>
                  rw [hstar] at hh
                  exact absurd hh (by simp)
                | true =>
                  rw [hstar] at hh
                  rw [if_pos rfl] at hh
                  rw [hr] at hh
                  have hcne : (scanChunk (p0 :: ps)).2.1 ≠ [] :=
                    fun hcon => hsc ⟨hstar, hcon⟩
                  have hap := scanChunk_append_zip_chunk (p0 :: ps) hr hcne
                  rw [List.cons_append] at hap
                  rw [List.cons_append, goMatch_cons]
                  simp only [hap, hstar]
                  rw [if_neg (by simp [zipExt])]
                  have hm1 := matchChunk_append_some zipExt hm
                  have hcomp : matchChunk ((scanChunk (p0 :: ps)).2.1 ++ zipExt)
                      (s ++ zipExt) = matchChunk zipExt (t ++ zipExt) :=
                    matchChunk_compose hm1
                  rw [hcomp]
                  have hmeas : (scanChunk (p0 :: ps)).2.1.length + s.length < N := by
                    have := scanChunk_star_parts_lt p0 ps hstar
                    rw [hr] at this
                    simp only [List.length_nil, List.length_cons] at this hN ⊢
                    omega
                  cases hm3 : matchChunk zipExt (t ++ zipExt) with
                  | error e =>
                    exfalso
                    cases e
                    exact matchChunk_zip_noError (t ++ zipExt) hm3
                  | ok o2 =>
                    cases o2 with
                    | some t2 =>
                      simp only []
                      have hlen2 := matchChunk_zip_length hm3
                      have ht2ne : t2 ≠ [] := by
                        intro hcon
                        subst hcon
                        simp only [List.length_append, List.length_nil] at hlen2
                        exact ht (List.length_eq_zero.mp (by omega))
                      rw [if_neg (by simp [ht2ne])]
                      rw [if_pos trivial]
                      exact (ih _ hmeas).2.2 _ _ (le_refl _) hh
                    | none =>
                      simp only []
                      rw [if_pos trivial]
                      exact (ih _ hmeas).2.2 _ _ (le_refl _) hh
            · rw [if_pos (Or.inr hr)] at hh
              have hap := scanChunk_append_ne (p0 :: ps) zipExt hr
              rw [List.cons_append] at hap
              rw [List.cons_append, goMatch_cons]
              simp only [hap]
              rw [if_neg (by
                intro hcon
                exact hr (scanChunk_chunk_nil _ hcon.2).2)]
              rw [matchChunk_append_some zipExt hm]
              simp only []
              rw [if_pos (Or.inr (by simp [zipExt]))]
              have hmeas : (scanChunk (p0 :: ps)).2.2.length + t.length < N := by
                have h1 := (scanChunk_rest_lt p0 ps hsc).1
                have h2 := matchChunk_some_length hm
                simp only [List.length_cons] at h1 hN
                omega
              exact (ih _ hmeas).1 _ _ (le_refl _) hh
          | none =>
            rw [hm] at h
            have hh : (if (scanChunk (p0 :: ps)).1 then
                starLoop (scanChunk (p0 :: ps)).2.1 (scanChunk (p0 :: ps)).2.2 s
              else .ok false) = .ok true := h
            cases hstar : (scanChunk (p0 :: ps)).1 with
            | false =>
              rw [hstar] at hh
              exact absurd hh (by simp)
            | true =>
              rw [hstar] at hh
              rw [if_pos rfl] at hh
              have hcne : (scanChunk (p0 :: ps)).2.1 ≠ [] :=
                fun hcon => hsc ⟨hstar, hcon⟩
              by_cases hr : (scanChunk (p0 :: ps)).2.2 = []
              · rw [hr] at hh
                have hap := scanChunk_append_zip_chunk (p0 :: ps) hr hcne
                rw [List.cons_append] at hap
                rw [List.cons_append, goMatch_cons]
                simp only [hap, hstar]
                rw [if_neg (by simp [zipExt])]
                have hmeas : (scanChunk (p0 :: ps)).2.1.length + s.length < N := by
                  have := scanChunk_star_parts_lt p0 ps hstar
                  rw [hr] at this
                  simp only [List.length_nil, List.length_cons] at this hN ⊢
                  omega
                cases hm2 : matchChunk ((scanChunk (p0 :: ps)).2.1 ++ zipExt)
                    (s ++ zipExt) with
                | error e =>
                  exfalso
                  cases e
                  exact matchChunk_noError_append (by rw [hm]; simp) allLit_zipExt
                    (s ++ zipExt) hm2
                | ok o2 =>
                  cases o2 with
                  | some t2 =>
                    by_cases ht2 : t2 = []
                    · simp only []
                      rw [if_pos (Or.inl ht2)]
                      subst ht2
                      exact goMatch_nil_nil
                    · simp only []
                      rw [if_neg (by simp [ht2])]
                      rw [if_pos trivial]
                      exact (ih _ hmeas).2.2 _ _ (le_refl _) hh
                  | none =>
                    simp only []
                    rw [if_pos trivial]
                    exact (ih _ hmeas).2.2 _ _ (le_refl _) hh
              · have hap := scanChunk_append_ne (p0 :: ps) zipExt hr
                rw [List.cons_append] at hap
                rw [List.cons_append, goMatch_cons]
                simp only [hap, hstar]
                rw [if_neg (by
                  intro hcon
                  exact hr (scanChunk_chunk_nil _ hcon.2).2)]
                obtain ⟨s1, t1, hlen1, hmc1, -⟩ :=
                  starLoop_ok_exists s (scanChunk (p0 :: ps)).2.1
                    (scanChunk (p0 :: ps)).2.2 hr hh
                have hnone := matchChunk_append_none zipExt hm hmc1 (by omega)
                rw [hnone]
                simp only []
                rw [if_pos trivial]
                have hmeas : (scanChunk (p0 :: ps)).2.1.length +
                    (scanChunk (p0 :: ps)).2.2.length + s.length < N := by
                  have := scanChunk_star_parts_lt p0 ps hstar
                  simp only [List.length_cons] at this hN
                  omega
                exact (ih _ hmeas).2.1 _ _ _ (le_refl _) hr hh
  · -- starLoop with nonempty rest
    intro chunk rest s hN hrne h
    cases s with
    | nil =>
      rw [starLoop_nil] at h
      exact absurd h (by simp)
    | cons c name1 =>
      rw [starLoop_cons] at h
      rw [List.cons_append, starLoop_cons]
      split at h
      · exact absurd h (by simp)
      · rename_i hc
        rw [if_neg hc]
        cases hm : matchChunk chunk name1 with
        | error e =>
          rw [hm] at h
          exact absurd h (by simp)
        | ok o =>
          cases o with
          | some t =>
            rw [hm] at h
            have hh : (if rest = [] ∧ t ≠ [] then starLoop chunk rest name1
                else goMatch rest t) = .ok true := h
            rw [if_neg (fun hco => hrne hco.1)] at hh
            rw [matchChunk_append_some zipExt hm]
            simp only []
            rw [if_neg (by
              intro hco
              exact absurd hco.1 (by simp [zipExt]))]
            have hmeas : rest.length + t.length < N := by
              have h2 := matchChunk_some_length hm
              simp only [List.length_cons] at hN
              omega
            exact (ih _ hmeas).1 _ _ (le_refl _) hh
          | none =>
            rw [hm] at h
            have hh : starLoop chunk rest name1 = .ok true := h
            obtain ⟨s1, t1, hlen1, hmc1, -⟩ :=
              starLoop_ok_exists name1 chunk rest hrne hh
            have hnone := matchChunk_append_none zipExt hm hmc1 (by omega)
            rw [hnone]
            have hmeas : chunk.length + rest.length + name1.length < N := by
              simp only [List.length_cons] at hN
              omega
            exact (ih _ hmeas).2.1 _ _ _ (le_refl _) hrne hh
  · -- starLoop with empty rest
    intro chunk s hN h
    cases s with
    | nil =>
      rw [starLoop_nil] at h
      exact absurd h (by simp)
    | cons c name1 =>
      rw [starLoop_cons] at h
      rw [List.cons_append, starLoop_cons]
      split at h
      · exact absurd h (by simp)
      · rename_i hc
        rw [if_neg hc]
        have hmeas : (chunk ++ zipExt).length + name1.length < N + zipExt.length := by
          simp only [List.length_append, List.length_cons] at hN ⊢
          omega
        cases hm : matchChunk chunk name1 with
        | error e =>
          rw [hm] at h
          exact absurd h (by simp)
        | ok o =>
          cases o with
          | some t =>
            rw [hm] at h
            have hh : (if ([] : List Char) = [] ∧ t ≠ [] then starLoop chunk [] name1
                else goMatch [] t) = .ok true := h
            by_cases ht : t = []
            · rw [if_neg (by simp [ht])] at hh
              subst ht
              have hcomp : matchChunk (chunk ++ zipExt) (name1 ++ zipExt) =
                  matchChunk zipExt ([] ++ zipExt) :=
                matchChunk_compose (matchChunk_append_some zipExt hm)
              rw [List.nil_append, matchChunk_zip_self] at hcomp
              rw [hcomp]
              simp only []
              rw [if_neg (by simp)]
              exact goMatch_nil_nil
            · rw [if_pos ⟨rfl, ht⟩] at hh
              have hcomp : matchChunk (chunk ++ zipExt) (name1 ++ zipExt) =
                  matchChunk zipExt (t ++ zipExt) :=
                matchChunk_compose (matchChunk_append_some zipExt hm)
              rw [hcomp]
              have hmeas2 : chunk.length + name1.length < N := by
                simp only [List.length_cons] at hN
                omega
              cases hm3 : matchChunk zipExt (t ++ zipExt) with
              | error e =>
                exfalso
                cases e
                exact matchChunk_zip_noError (t ++ zipExt) hm3
              | ok o2 =>
                cases o2 with
                | some t2 =>
                  simp only []
                  have hlen2 := matchChunk_zip_length hm3
                  have ht2ne : t2 ≠ [] := by
                    intro hcon
                    subst hcon
                    simp only [List.length_append, List.length_nil] at hlen2
                    exact ht (List.length_eq_zero.mp (by omega))
                  rw [if_pos ⟨trivial, ht2ne⟩]
                  exact (ih _ hmeas2).2.2 _ _ (le_refl _) hh
                | none =>
                  exact (ih _ hmeas2).2.2 _ _ (le_refl _) hh
          | none =>
            rw [hm] at h
            have hh : starLoop chunk [] name1 = .ok true := h
            have hmeas2 : chunk.length + name1.length < N := by
              simp only [List.length_cons] at hN
              omega
            cases hm2 : matchChunk (chunk ++ zipExt) (name1 ++ zipExt) with
            | error e =>
              exfalso
              cases e
              exact matchChunk_noError_append (by rw [hm]; simp) allLit_zipExt
                (name1 ++ zipExt) hm2
            | ok o2 =>
              cases o2 with
              | some t2 =>
                by_cases ht2 : t2 = []
                · simp only []
                  rw [if_neg (by simp [ht2])]
                  subst ht2
                  exact goMatch_nil_nil
                · simp only []
                  rw [if_pos ⟨trivial, ht2⟩]
                  exact (ih _ hmeas2).2.2 _ _ (le_refl _) hh
              | none =>
                exact (ih _ hmeas2).2.2 _ _ (le_refl _) hh

theorem goMatch_zip_suffix {p s : List Char} (h : goMatch p s = .ok true) :
    goMatch (p ++ zipExt) (s ++ zipExt) = .ok true :=
  (goMatch_zip_aux (p.length + s.length)).1 p s (le_refl _) h

/-! ## `Clean` normal forms: the output of `pathClean` is a sequence of
regular components (with a leading `/` or leading `..`s), and appending
`/name` to such a form and cleaning again only appends the component. -/

/-- A regular path component: nonempty, no separator, not `.` or `..`. -/
def RegComp (c : List Char) : Prop :=
  c ≠ [] ∧ '/' ∉ c ∧ c ≠ ['.'] ∧ c ≠ ['.', '.']

/-- `..` as a component. -/
def dd : List Char := ['.', '.']

/-- Components joined by `/` (no leading or trailing separator). -/
def joinComps : List (List Char) → List Char
  | [] => []
  | [c] => c
  | c :: cs => c ++ '/' :: joinComps cs

theorem joinComps_cons (c : List Char) (cs : List (List Char)) (h : cs ≠ []) :
    joinComps (c :: cs) = c ++ '/' :: joinComps cs := by
  cases cs with
  | nil => exact absurd rfl h
  | cons d ds => rfl

theorem joinComps_append (A B : List (List Char)) (hA : A ≠ []) (hB : B ≠ []) :
    joinComps (A ++ B) = joinComps A ++ '/' :: joinComps B := by
  induction A with
  | nil => exact absurd rfl hA
  | cons a A1 ih =>
    cases hA1 : A1 with
    | nil =>
      subst hA1
      rw [List.cons_append, List.nil_append, joinComps_cons a B hB]
      rfl
    | cons x xs =>
      subst hA1
      rw [List.cons_append, joinComps_cons a ((x :: xs) ++ B) (by simp),
        joinComps_cons a (x :: xs) (by simp), ih (by simp)]
      simp

theorem joinComps_ne_nil (l : List (List Char)) (hl : ∀ x ∈ l, x ≠ []) (h : l ≠ []) :
    joinComps l ≠ [] := by
  cases l with
  | nil => exact absurd rfl h
  | cons c cs =>
    cases cs with
    | nil => exact hl c (by simp)
    | cons d ds =>
      rw [joinComps_cons c (d :: ds) (by simp)]
      intro hcon
      rcases List.append_eq_nil.mp hcon with ⟨-, h2⟩
      exact List.noConfusion h2

/-- Length bookmark for the leading `..` run: `ddLen m` is the length of
`joinComps (replicate m dd)` (the value Go's `dotdot` takes). -/
def ddLen : Nat → Nat
  | 0 => 0
  | m + 1 => 3 * m + 2

theorem joinComps_replicate_dd (m : Nat) :
    (joinComps (List.replicate m dd)).length = ddLen m := by
  induction m with
  | zero => rfl
  | succ k ih =>
    cases k with
    | zero => rfl
    | succ k2 =>
      rw [show List.replicate (k2 + 1 + 1) dd = [dd] ++ List.replicate (k2 + 1) dd by rfl]
      rw [joinComps_append [dd] (List.replicate (k2 + 1) dd) (by simp) (by simp)]
      simp only [List.length_append, List.length_cons] at ih ⊢
      rw [show (joinComps [dd]).length = 2 from rfl]
      simp only [ih]
      simp [ddLen]
      ring

/-- Clean-loop state for a rooted path whose output holds `comps`. -/
def stR (comps : List (List Char)) : CS :=
  ⟨'/' :: joinComps comps, 1, true⟩

/-- Clean-loop state for an unrooted path: `m` leading `..` components
followed by `comps`. -/
def stU (m : Nat) (comps : List (List Char)) : CS :=
  ⟨joinComps (List.replicate m dd ++ comps), ddLen m, false⟩

theorem appendComp_stR (comps : List (List Char)) (hc : ∀ x ∈ comps, x ≠ [])
    (c : List Char) : appendComp (stR comps) c = stR (comps ++ [c]) := by
  cases hcs : comps with
  | nil =>
    simp only [appendComp, stR]
    rfl
  | cons a l =>
    have hne : joinComps (a :: l) ≠ [] :=
      joinComps_ne_nil (a :: l) (by rw [← hcs]; exact hc) (by simp)
    simp only [appendComp, stR]
    rw [if_pos (by simp [hne])]
    rw [joinComps_append (a :: l) [c] (by simp) (by simp)]
    simp [joinComps]

theorem joinComps_rep_nil_iff (m : Nat) (comps : List (List Char))
    (hc : ∀ x ∈ comps, x ≠ []) :
    joinComps (List.replicate m dd ++ comps) = [] ↔ m = 0 ∧ comps = [] := by
  constructor
  · intro h
    by_cases hm : m = 0
    · subst hm
      simp only [List.replicate, List.nil_append] at h
      constructor
      · rfl
      · by_contra hcon
        exact joinComps_ne_nil comps hc hcon h
    · exfalso
      have hrc : ∀ x ∈ List.replicate m dd ++ comps, x ≠ [] := by
        intro x hx
        rcases List.mem_append.mp hx with h1 | h2
        · rw [List.eq_of_mem_replicate h1]
          simp [dd]
        · exact hc x h2
      exact joinComps_ne_nil _ hrc (by simp [hm]) h
  · rintro ⟨hm, hcp⟩
    subst hm hcp
    rfl

theorem appendComp_stU (m : Nat) (comps : List (List Char)) (hc : ∀ x ∈ comps, x ≠ [])
    (c : List Char) : appendComp (stU m comps) c = stU m (comps ++ [c]) := by
  by_cases h0 : m = 0 ∧ comps = []
  · obtain ⟨hm, hcp⟩ := h0
    subst hm hcp
    simp only [appendComp, stU]
    rw [if_neg (by simp [joinComps])]
    rfl
  · have hne : joinComps (List.replicate m dd ++ comps) ≠ [] := by
      intro hcon
      exact h0 ((joinComps_rep_nil_iff m comps hc).mp hcon)
    simp only [appendComp, stU]
    rw [if_pos (by simp [hne])]
    have hAne : List.replicate m dd ++ comps ≠ [] := by
      intro hcon
      exact hne (by rw [hcon]; rfl)
    rw [show List.replicate m dd ++ (comps ++ [c]) =
      (List.replicate m dd ++ comps) ++ [c] by simp]
    rw [joinComps_append (List.replicate m dd ++ comps) [c] hAne (by simp)]
    simp [joinComps]

theorem getD_notmem (c : List Char) (hc : '/' ∉ c) (n : Nat) : c.getD n ' ' ≠ '/' := by
  by_cases hn : n < c.length
  · rw [List.getD_eq_getElem c ' ' hn]
    intro hcon
    exact hc (hcon ▸ List.getElem_mem hn)
  · rw [List.getD_eq_default c ' ' (by omega)]
    simp

theorem popW_base (base c : List Char) (dotdot : Nat) (hd : dotdot ≤ base.length)
    (hc : '/' ∉ c) : ∀ k, popW (base ++ '/' :: c) dotdot (base.length + k) = base.length := by
  intro k
  induction k with
  | zero =>
    rw [Nat.add_zero]
    cases hb : base.length with
    | zero => rfl
    | succ n =>
      rw [popW]
      rw [if_neg ?_]
      · intro hcon
        apply hcon.2
        have hidx : (n + 1 : Nat) = base.length := hb.symm
        rw [hidx, List.getD_append_right base ('/' :: c) ' ' base.length (le_refl _)]
        simp
  | succ k ih =>
    rw [show base.length + (k + 1) = (base.length + k) + 1 by omega]
    rw [popW]
    rw [if_pos ?_]
    · exact ih
    · refine ⟨by omega, ?_⟩
      rw [List.getD_append_right base ('/' :: c) ' ' (base.length + k + 1) (by omega)]
      rw [show base.length + k + 1 - base.length = k + 1 by omega]
      simp only [List.getD_cons_succ]
      exact getD_notmem c hc k

theorem popW_zero (c : List Char) (hc : '/' ∉ c) : ∀ k, popW c 0 k = 0 := by
  intro k
  induction k with
  | zero => rfl
  | succ k ih =>
    rw [popW]
    rw [if_pos ⟨by omega, getD_notmem c hc (k + 1)⟩]
    exact ih

theorem popW_rooted_single (c : List Char) (hc : '/' ∉ c) :
    ∀ k, 1 ≤ k → popW ('/' :: c) 1 k = 1 := by
  intro k
  induction k with
  | zero =>
    intro h
    exact absurd h (by omega)
  | succ k ih =>
    intro _
    cases k with
    | zero =>
      rw [popW]
      rw [if_neg (fun hcon => absurd hcon.1 (by omega))]
    | succ k2 =>
      rw [popW]
      rw [if_pos ⟨by omega, by
        simp only [List.getD_cons_succ]
        exact getD_notmem c hc (k2 + 1)⟩]
      exact ih (by omega)

theorem ddLen_le (m : Nat) (l : List (List Char)) :
    ddLen m ≤ (joinComps (List.replicate m dd ++ l)).length := by
  cases hl : l with
  | nil =>
    rw [List.append_nil, joinComps_replicate_dd]
  | cons a l2 =>
    cases hm : m with
    | zero => simp [ddLen]
    | succ m2 =>
      rw [joinComps_append (List.replicate (m2 + 1) dd) (a :: l2) (by simp) (by simp)]
      rw [← joinComps_replicate_dd (m2 + 1)]
      simp

theorem dotdotStep_stR_nil : dotdotStep (stR []) = stR [] := by
  simp only [dotdotStep, stR, joinComps]
  rw [if_neg (by simp)]
  rw [if_neg (by simp)]

theorem dotdotStep_stR_pop (l : List (List Char)) (c : List Char)
    (hcne : c ≠ []) (hc : '/' ∉ c) :
    dotdotStep (stR (l ++ [c])) = stR l := by
  cases l with
  | nil =>
    have hout : (stR ([] ++ [c])).out = '/' :: c := rfl
    simp only [dotdotStep, stR]
    rw [if_pos (by
      simp only [List.nil_append]
      show 1 < ('/' :: joinComps [c]).length
      have : joinComps [c] = c := rfl
      rw [this]
      simp only [List.length_cons]
      cases c with
      | nil => exact absurd rfl hcne
      | cons x xs => simp)]
    simp only [List.nil_append]
    have hjc : joinComps [c] = c := rfl
    rw [hjc]
    have hlen : ('/' :: c).length - 1 = c.length := by simp
    rw [hlen]
    rw [popW_rooted_single c hc c.length (by
      cases c with
      | nil => exact absurd rfl hcne
      | cons x xs => simp)]
    have : ('/' :: c).take 1 = ['/'] := by
      cases c <;> rfl
    rw [this]
    rfl
  | cons a l2 =>
    simp only [dotdotStep, stR]
    rw [joinComps_append (a :: l2) [c] (by simp) (by simp)]
    have hjc : joinComps [c] = c := rfl
    rw [hjc]
    have hshape : ('/' :: (joinComps (a :: l2) ++ '/' :: c)) =
        ('/' :: joinComps (a :: l2)) ++ '/' :: c := by simp
    rw [hshape]
    rw [if_pos (by
      simp only [List.length_append, List.length_cons]
      omega)]
    have hlen : (('/' :: joinComps (a :: l2)) ++ '/' :: c).length - 1 =
        ('/' :: joinComps (a :: l2)).length + c.length := by
      simp only [List.length_append, List.length_cons]
      omega
    rw [hlen]
    rw [popW_base ('/' :: joinComps (a :: l2)) c 1 (by simp) hc c.length]
    rw [List.take_left]

theorem dotdotStep_stU_nil (m : Nat) : dotdotStep (stU m []) = stU (m + 1) [] := by
  simp only [dotdotStep, stU, List.append_nil]
  rw [if_neg (by rw [joinComps_replicate_dd]; omega)]
  rw [if_pos (by simp)]
  cases m with
  | zero =>
    simp only [List.replicate, joinComps]
    rw [if_neg (by simp)]
    rfl
  | succ m2 =>
    rw [if_pos (by
      rw [joinComps_replicate_dd]
      simp [ddLen])]
    have hshape : joinComps (List.replicate (m2 + 1) dd) ++ ['/'] ++ ['.', '.'] =
        joinComps (List.replicate (m2 + 1 + 1) dd) := by
      rw [show List.replicate (m2 + 1 + 1) dd = List.replicate (m2 + 1) dd ++ [dd] from
        List.replicate_succ' (m2 + 1) dd ▸ rfl]
      rw [joinComps_append (List.replicate (m2 + 1) dd) [dd] (by simp) (by simp)]
      have : joinComps [dd] = dd := rfl
      rw [this]
      simp [dd]
    rw [hshape]
    have hl2 : (joinComps (List.replicate (m2 + 1 + 1) dd)).length = ddLen (m2 + 1 + 1) :=
      joinComps_replicate_dd _
    rw [hl2]

theorem dotdotStep_stU_pop (m : Nat) (l : List (List Char)) (c : List Char)
    (hcne : c ≠ []) (hc : '/' ∉ c) :
    dotdotStep (stU m (l ++ [c])) = stU m l := by
  by_cases h0 : m = 0 ∧ l = []
  · obtain ⟨hm, hl⟩ := h0
    subst hm hl
    simp only [dotdotStep, stU, List.replicate, List.nil_append]
    have hjc : joinComps [c] = c := rfl
    rw [hjc]
    rw [if_pos (by
      show ddLen 0 < c.length
      cases c with
      | nil => exact absurd rfl hcne
      | cons x xs => simp [ddLen])]
    rw [show ddLen 0 = 0 from rfl, popW_zero c hc]
    simp [joinComps]
  · have hleft : List.replicate m dd ++ l ≠ [] := by
      intro hcon
      rcases List.append_eq_nil.mp hcon with ⟨h1, h2⟩
      exact h0 ⟨by simpa using h1, h2⟩
    simp only [dotdotStep, stU]
    rw [show List.replicate m dd ++ (l ++ [c]) = (List.replicate m dd ++ l) ++ [c] by simp]
    rw [joinComps_append (List.replicate m dd ++ l) [c] hleft (by simp)]
    have hjc : joinComps [c] = c := rfl
    rw [hjc]
    rw [if_pos (by
      have := ddLen_le m l
      simp only [List.length_append, List.length_cons]
      cases c with
      | nil => exact absurd rfl hcne
      | cons x xs =>
        simp only [List.length_cons]
        omega)]
    have hlen : (joinComps (List.replicate m dd ++ l) ++ '/' :: c).length - 1 =
        (joinComps (List.replicate m dd ++ l)).length + c.length := by
      simp only [List.length_append, List.length_cons]
      omega
    rw [hlen]
    rw [popW_base (joinComps (List.replicate m dd ++ l)) c (ddLen m) (ddLen_le m l) hc
      c.length]
    rw [List.take_left]

theorem cleanLoop_nil (st : CS) : cleanLoop [] st = st := by
  rw [cleanLoop]

theorem cleanLoop_cons (c : Char) (rest : List Char) (st : CS) :
    cleanLoop (c :: rest) st =
      (if c = '/' then cleanLoop rest st
       else if c = '.' ∧ (rest = [] ∨ rest.headD ' ' = '/') then cleanLoop rest st
       else if c = '.' ∧ rest.headD ' ' = '.' ∧
           (rest.tail = [] ∨ rest.tail.headD ' ' = '/') then
         cleanLoop rest.tail (dotdotStep st)
       else
         cleanLoop ((c :: rest).dropWhile (fun x => x ≠ '/'))
           (appendComp st ((c :: rest).takeWhile (fun x => x ≠ '/')))) := by
  rw [cleanLoop]

theorem takeWhile_noslash (w : List Char) (hw : '/' ∉ w) :
    w.takeWhile (fun x => x ≠ '/') = w := by
  induction w with
  | nil => rfl
  | cons a l ih =>
    rw [List.takeWhile_cons]
    rw [if_pos (by
      simp only [List.mem_cons] at hw
      simp only [ne_eq, decide_eq_true_eq]
      exact fun h => hw (Or.inl h.symm))]
    rw [ih (fun h => hw (List.mem_cons_of_mem a h))]

theorem dropWhile_noslash (w : List Char) (hw : '/' ∉ w) :
    w.dropWhile (fun x => x ≠ '/') = [] := by
  induction w with
  | nil => rfl
  | cons a l ih =>
    rw [List.dropWhile_cons]
    rw [if_pos (by
      simp only [List.mem_cons] at hw
      simp only [ne_eq, decide_eq_true_eq]
      exact fun h => hw (Or.inl h.symm))]
    exact ih (fun h => hw (List.mem_cons_of_mem a h))

theorem takeWhile_noslash_append (w r : List Char) (hw : '/' ∉ w) :
    (w ++ '/' :: r).takeWhile (fun x => x ≠ '/') = w := by
  induction w with
  | nil =>
    rw [List.nil_append, List.takeWhile_cons]
    rw [if_neg (by simp)]
  | cons a l ih =>
    rw [List.cons_append, List.takeWhile_cons]
    rw [if_pos (by
      simp only [List.mem_cons] at hw
      simp only [ne_eq, decide_eq_true_eq]
      exact fun h => hw (Or.inl h.symm))]
    rw [ih (fun h => hw (List.mem_cons_of_mem a h))]

theorem dropWhile_noslash_append (w r : List Char) (hw : '/' ∉ w) :
    (w ++ '/' :: r).dropWhile (fun x => x ≠ '/') = '/' :: r := by
  induction w with
  | nil =>
    rw [List.nil_append, List.dropWhile_cons]
    rw [if_neg (by simp)]
  | cons a l ih =>
    rw [List.cons_append, List.dropWhile_cons]
    rw [if_pos (by
      simp only [List.mem_cons] at hw
      simp only [ne_eq, decide_eq_true_eq]
      exact fun h => hw (Or.inl h.symm))]
    exact ih (fun h => hw (List.mem_cons_of_mem a h))

theorem cleanLoop_comp_step (c S : List Char) (st : CS) (hreg : RegComp c)
    (hS : S = [] ∨ S.headD ' ' = '/') :
    cleanLoop (c ++ S) st = cleanLoop S (appendComp st c) := by
  obtain ⟨hcne, hcsl, hcd, hcdd⟩ := hreg
  cases c with
  | nil => exact absurd rfl hcne
  | cons x xs =>
    have hx : ¬x = '/' := fun h => hcsl (by rw [h]; simp)
    have hg2 : ¬(x = '.' ∧ (xs ++ S = [] ∨ (xs ++ S).headD ' ' = '/')) := by
      rintro ⟨hxd, hor⟩
      subst hxd
      cases xs with
      | nil =>
        exact hcd rfl
      | cons y ys =>
        have hy : y ≠ '/' := fun h => hcsl (by rw [h]; simp)
        rcases hor with h1 | h2
        · simp at h1
        · rw [List.cons_append, List.headD_cons] at h2
          exact hy h2
    have hg3 : ¬(x = '.' ∧ (xs ++ S).headD ' ' = '.' ∧
        ((xs ++ S).tail = [] ∨ ((xs ++ S).tail).headD ' ' = '/')) := by
      rintro ⟨hxd, hy, hor⟩
      subst hxd
      cases xs with
      | nil =>
        rw [List.nil_append] at hy
        rcases hS with h1 | h2
        · subst h1
          simp at hy
        · exact absurd (hy.symm.trans h2) (by decide)
      | cons y ys =>
        rw [List.cons_append, List.headD_cons] at hy
        subst hy
        cases ys with
        | nil => exact hcdd rfl
        | cons z zs =>
          have hz : z ≠ '/' := fun h => hcsl (by rw [h]; simp)
          rw [List.cons_append, List.tail_cons] at hor
          rcases hor with h1 | h2
          · simp at h1
          · rw [List.cons_append, List.headD_cons] at h2
            exact hz h2
    rw [List.cons_append, cleanLoop_cons]
    rw [if_neg hx, if_neg hg2, if_neg hg3]
    rcases hS with h1 | h2
    · subst h1
      rw [show (x :: (xs ++ ([] : List Char))) = x :: xs by simp]
      rw [takeWhile_noslash (x :: xs) hcsl, dropWhile_noslash (x :: xs) hcsl]
    · cases S with
      | nil => exact absurd h2 (by decide)
      | cons s0 S2 =>
        rw [List.headD_cons] at h2
        subst h2
        rw [show (x :: (xs ++ '/' :: S2)) = (x :: xs) ++ '/' :: S2 by simp]
        rw [takeWhile_noslash_append (x :: xs) S2 hcsl,
          dropWhile_noslash_append (x :: xs) S2 hcsl]

theorem cleanLoop_replay : ∀ (comps : List (List Char)) (st : CS) (suffix : List Char),
    (∀ x ∈ comps, RegComp x) → (suffix = [] ∨ suffix.headD ' ' = '/') →
    cleanLoop (joinComps comps ++ suffix) st =
      cleanLoop suffix (List.foldl appendComp st comps) := by
  intro comps
  induction comps with
  | nil =>
    intro st suffix _ _
    rfl
  | cons c comps1 ih =>
    intro st suffix hreg hS
    have hc := hreg c (by simp)
    cases hc1 : comps1 with
    | nil =>
      rw [show joinComps [c] = c from rfl]
      exact cleanLoop_comp_step c suffix st hc hS
    | cons d ds =>
      subst hc1
      rw [joinComps_cons c (d :: ds) (by simp)]
      rw [show (c ++ '/' :: joinComps (d :: ds)) ++ suffix =
        c ++ ('/' :: (joinComps (d :: ds) ++ suffix)) by simp]
      rw [cleanLoop_comp_step c ('/' :: (joinComps (d :: ds) ++ suffix)) st hc
        (Or.inr (by simp))]
      rw [cleanLoop_cons]
      rw [if_pos rfl]
      rw [ih (appendComp st c) suffix
        (fun y hy => hreg y (List.mem_cons_of_mem c hy)) hS]
      rfl

theorem cleanLoop_dd_replay : ∀ (m : Nat) (st : CS) (suffix : List Char),
    (suffix = [] ∨ suffix.headD ' ' = '/') →
    cleanLoop (joinComps (List.replicate m dd) ++ suffix) st =
      cleanLoop suffix (dotdotStep^[m] st) := by
  intro m
  induction m with
  | zero =>
    intro st suffix _
    rfl
  | succ k ih =>
    intro st suffix hS
    cases k with
    | zero =>
      rw [show joinComps (List.replicate 1 dd) = ['.', '.'] from rfl]
      rw [show (['.', '.'] : List Char) ++ suffix = '.' :: '.' :: suffix by simp]
      rw [cleanLoop_cons]
      rw [if_neg (by decide)]
      rw [if_neg (by simp)]
      rw [if_pos ⟨rfl, rfl, hS⟩]
      rw [List.tail_cons, Function.iterate_one]
    | succ k2 =>
      rw [show List.replicate (k2 + 1 + 1) dd = dd :: List.replicate (k2 + 1) dd from rfl]
      rw [joinComps_cons dd (List.replicate (k2 + 1) dd) (by simp)]
      rw [show (dd ++ '/' :: joinComps (List.replicate (k2 + 1) dd)) ++ suffix =
        '.' :: '.' :: '/' :: (joinComps (List.replicate (k2 + 1) dd) ++ suffix) by
          simp [dd]]
      rw [cleanLoop_cons]
      rw [if_neg (by decide)]
      rw [if_neg (by simp)]
      rw [if_pos ⟨rfl, rfl, Or.inr (by simp)⟩]
      rw [List.tail_cons]
      rw [cleanLoop_cons]
      rw [if_pos rfl]
      rw [ih (dotdotStep st) suffix hS]
      simp only [Function.iterate_succ_apply]

theorem foldl_appendComp_stR : ∀ (comps cs0 : List (List Char)),
    (∀ x ∈ cs0, x ≠ []) → (∀ x ∈ comps, x ≠ []) →
    List.foldl appendComp (stR cs0) comps = stR (cs0 ++ comps) := by
  intro comps
  induction comps with
  | nil =>
    intro cs0 _ _
    simp
  | cons c cs ih =>
    intro cs0 h0 h1
    rw [List.foldl_cons, appendComp_stR cs0 h0 c]
    rw [ih (cs0 ++ [c]) (by
      intro x hx
      rcases List.mem_append.mp hx with h | h
      · exact h0 x h
      · rw [List.mem_singleton.mp h]
        exact h1 c (by simp)) (fun x hx => h1 x (List.mem_cons_of_mem c hx))]
    simp

theorem foldl_appendComp_stU (m : Nat) : ∀ (comps cs0 : List (List Char)),
    (∀ x ∈ cs0, x ≠ []) → (∀ x ∈ comps, x ≠ []) →
    List.foldl appendComp (stU m cs0) comps = stU m (cs0 ++ comps) := by
  intro comps
  induction comps with
  | nil =>
    intro cs0 _ _
    simp
  | cons c cs ih =>
    intro cs0 h0 h1
    rw [List.foldl_cons, appendComp_stU m cs0 h0 c]
    rw [ih (cs0 ++ [c]) (by
      intro x hx
      rcases List.mem_append.mp hx with h | h
      · exact h0 x h
      · rw [List.mem_singleton.mp h]
        exact h1 c (by simp)) (fun x hx => h1 x (List.mem_cons_of_mem c hx))]
    simp

theorem iterate_dotdotStep : ∀ (k m : Nat), dotdotStep^[k] (stU m []) = stU (m + k) [] := by
  intro k
  induction k with
  | zero =>
    intro m
    rfl
  | succ k2 ih =>
    intro m
    rw [Function.iterate_succ_apply, dotdotStep_stU_nil m, ih (m + 1)]
    rw [show m + 1 + k2 = m + (k2 + 1) by omega]

theorem takeWhile_nil_cases (rest : List Char)
    (h : rest.takeWhile (fun x => x ≠ '/') = []) :
    rest = [] ∨ rest.headD ' ' = '/' := by
  cases rest with
  | nil => exact Or.inl rfl
  | cons r0 r1 =>
    right
    rw [List.takeWhile_cons] at h
    split at h
    · exact absurd h (by simp)
    · rename_i hp
      simp only [ne_eq, decide_not, Bool.not_eq_true', decide_eq_false_iff_not,
        Decidable.not_not] at hp
      simpa using hp

theorem takeWhile_regComp (c : Char) (rest : List Char) (h1 : ¬c = '/')
    (h2 : ¬(c = '.' ∧ (rest = [] ∨ rest.headD ' ' = '/')))
    (h3 : ¬(c = '.' ∧ rest.headD ' ' = '.' ∧
      (rest.tail = [] ∨ rest.tail.headD ' ' = '/'))) :
    RegComp ((c :: rest).takeWhile (fun x => x ≠ '/')) := by
  rw [List.takeWhile_cons, if_pos (by simpa using h1)]
  refine ⟨by simp, ?_, ?_, ?_⟩
  · intro hmem
    rcases List.mem_cons.mp hmem with h | h
    · exact h1 h.symm
    · have := List.mem_takeWhile_imp h
      simp at this
  · intro hcon
    rw [List.cons.injEq] at hcon
    obtain ⟨hc, htw⟩ := hcon
    exact h2 ⟨hc, takeWhile_nil_cases rest htw⟩
  · intro hcon
    rw [List.cons.injEq] at hcon
    obtain ⟨hc, htw⟩ := hcon
    cases rest with
    | nil => exact absurd htw (by simp)
    | cons r0 r1 =>
      rw [List.takeWhile_cons] at htw
      split at htw
      · rw [List.cons.injEq] at htw
        obtain ⟨hr0, htw1⟩ := htw
        exact h3 ⟨hc, by simpa using hr0, by
          simpa using takeWhile_nil_cases r1 htw1⟩
      · exact absurd htw (by simp)

theorem dropWhile_cons_length (c : Char) (rest : List Char) (h1 : ¬c = '/') :
    ((c :: rest).dropWhile (fun x => x ≠ '/')).length ≤ rest.length := by
  rw [List.dropWhile_cons, if_pos (by simpa using h1)]
  exact dropWhile_length_le _ rest

theorem cleanLoop_stR_inv : ∀ (k : Nat) (p : List Char), p.length ≤ k →
    ∀ (comps : List (List Char)), (∀ x ∈ comps, RegComp x) →
    ∃ comps2, (∀ x ∈ comps2, RegComp x) ∧ cleanLoop p (stR comps) = stR comps2 := by
  intro k
  induction k with
  | zero =>
    intro p hk comps hreg
    have hnil : p = [] := List.length_eq_zero.mp (Nat.le_zero.mp hk)
    subst hnil
    exact ⟨comps, hreg, cleanLoop_nil _⟩
  | succ n ih =>
    intro p hk comps hreg
    cases p with
    | nil => exact ⟨comps, hreg, cleanLoop_nil _⟩
    | cons c rest =>
      have hrest : rest.length ≤ n := by
        simp only [List.length_cons] at hk
        omega
      rw [cleanLoop_cons]
      by_cases h1 : c = '/'
      · rw [if_pos h1]
        exact ih rest hrest comps hreg
      · rw [if_neg h1]
        by_cases h2 : c = '.' ∧ (rest = [] ∨ rest.headD ' ' = '/')
        · rw [if_pos h2]
          exact ih rest hrest comps hreg
        · rw [if_neg h2]
          by_cases h3 : c = '.' ∧ rest.headD ' ' = '.' ∧
              (rest.tail = [] ∨ rest.tail.headD ' ' = '/')
          · rw [if_pos h3]
            have htl : rest.tail.length ≤ n := by
              have : rest.tail.length ≤ rest.length := by cases rest <;> simp
              omega
            rcases List.eq_nil_or_concat comps with rfl | ⟨l, c2, rfl⟩
            · rw [dotdotStep_stR_nil]
              exact ih rest.tail htl [] (by simp)
            · have hc2 := hreg c2 (by simp)
              rw [List.concat_eq_append] at hreg ⊢
              rw [dotdotStep_stR_pop l c2 hc2.1 hc2.2.1]
              exact ih rest.tail htl l
                (fun x hx => hreg x (List.mem_append.mpr (Or.inl hx)))
          · rw [if_neg h3]
            have htw := takeWhile_regComp c rest h1 h2 h3
            rw [appendComp_stR comps (fun x hx => (hreg x hx).1) _]
            have hdw := dropWhile_cons_length c rest h1
            obtain ⟨comps2, hreg2, heq⟩ := ih ((c :: rest).dropWhile (fun x => x ≠ '/'))
              (by omega) (comps ++ [(c :: rest).takeWhile (fun x => x ≠ '/')]) (by
                intro x hx
                rcases List.mem_append.mp hx with h | h
                · exact hreg x h
                · rw [List.mem_singleton.mp h]
                  exact htw)
            exact ⟨comps2, hreg2, heq⟩

theorem cleanLoop_stU_inv : ∀ (k : Nat) (p : List Char), p.length ≤ k →
    ∀ (m : Nat) (comps : List (List Char)), (∀ x ∈ comps, RegComp x) →
    ∃ m2 comps2, (∀ x ∈ comps2, RegComp x) ∧ cleanLoop p (stU m comps) = stU m2 comps2 := by
  intro k
  induction k with
  | zero =>
    intro p hk m comps hreg
    have hnil : p = [] := List.length_eq_zero.mp (Nat.le_zero.mp hk)
    subst hnil
    exact ⟨m, comps, hreg, cleanLoop_nil _⟩
  | succ n ih =>
    intro p hk m comps hreg
    cases p with
    | nil => exact ⟨m, comps, hreg, cleanLoop_nil _⟩
    | cons c rest =>
      have hrest : rest.length ≤ n := by
        simp only [List.length_cons] at hk
        omega
      rw [cleanLoop_cons]
      by_cases h1 : c = '/'
      · rw [if_pos h1]
        exact ih rest hrest m comps hreg
      · rw [if_neg h1]
        by_cases h2 : c = '.' ∧ (rest = [] ∨ rest.headD ' ' = '/')
        · rw [if_pos h2]
          exact ih rest hrest m comps hreg
        · rw [if_neg h2]
          by_cases h3 : c = '.' ∧ rest.headD ' ' = '.' ∧
              (rest.tail = [] ∨ rest.tail.headD ' ' = '/')
          · rw [if_pos h3]
            have htl : rest.tail.length ≤ n := by
              have : rest.tail.length ≤ rest.length := by cases rest <;> simp
              omega
            rcases List.eq_nil_or_concat comps with rfl | ⟨l, c2, rfl⟩
            · rw [dotdotStep_stU_nil]
              exact ih rest.tail htl (m + 1) [] (by simp)
            · have hc2 := hreg c2 (by simp)
              rw [List.concat_eq_append] at hreg ⊢
              rw [dotdotStep_stU_pop m l c2 hc2.1 hc2.2.1]
              exact ih rest.tail htl m l
                (fun x hx => hreg x (List.mem_append.mpr (Or.inl hx)))
          · rw [if_neg h3]
            have htw := takeWhile_regComp c rest h1 h2 h3
            rw [appendComp_stU m comps (fun x hx => (hreg x hx).1) _]
            have hdw := dropWhile_cons_length c rest h1
            exact ih ((c :: rest).dropWhile (fun x => x ≠ '/')) (by omega) m
              (comps ++ [(c :: rest).takeWhile (fun x => x ≠ '/')]) (by
                intro x hx
                rcases List.mem_append.mp hx with h | h
                · exact hreg x h
                · rw [List.mem_singleton.mp h]
                  exact htw)

/-- The normal forms produced by `pathClean`. -/
def CleanForm (D : List Char) : Prop :=
  D = ['.'] ∨
  (∃ comps, (∀ x ∈ comps, RegComp x) ∧ D = '/' :: joinComps comps) ∨
  (∃ m comps, (∀ x ∈ comps, RegComp x) ∧ ¬(m = 0 ∧ comps = []) ∧
    D = joinComps (List.replicate m dd ++ comps))

theorem pathClean_cleanForm (Y : List Char) : CleanForm (pathClean Y) := by
  by_cases hY : Y = []
  · subst hY
    exact Or.inl rfl
  · simp only [pathClean]
    rw [if_neg hY]
    by_cases hroot : Y.headD ' ' = '/'
    · rw [if_pos hroot, if_pos hroot]
      obtain ⟨comps2, hreg2, heq⟩ := cleanLoop_stR_inv Y.tail.length Y.tail (le_refl _)
        [] (by simp)
      rw [show (⟨['/'], 1, true⟩ : CS) = stR [] from rfl, heq]
      rw [if_neg (by simp [stR])]
      exact Or.inr (Or.inl ⟨comps2, hreg2, rfl⟩)
    · rw [if_neg hroot, if_neg hroot]
      obtain ⟨m2, comps2, hreg2, heq⟩ := cleanLoop_stU_inv Y.length Y (le_refl _)
        0 [] (by simp)
      rw [show (⟨[], 0, false⟩ : CS) = stU 0 [] from rfl, heq]
      by_cases hout : (stU m2 comps2).out = []
      · rw [if_pos hout]
        exact Or.inl rfl
      · rw [if_neg hout]
        refine Or.inr (Or.inr ⟨m2, comps2, hreg2, ?_, rfl⟩)
        intro hcon
        apply hout
        show joinComps (List.replicate m2 dd ++ comps2) = []
        exact (joinComps_rep_nil_iff m2 comps2
          (fun x hx => (hreg2 x hx).1)).mpr hcon

theorem headD_regComp_ne_slash (A : List Char) (hA : RegComp A) (r : List Char) :
    (A ++ r).headD ' ' ≠ '/' := by
  obtain ⟨hne, hsl, -, -⟩ := hA
  cases A with
  | nil => exact absurd rfl hne
  | cons x xs =>
    rw [List.cons_append, List.headD_cons]
    exact fun h => hsl (by rw [h]; simp)

theorem joinComps_head_ne_slash (m : Nat) (comps : List (List Char))
    (hreg : ∀ x ∈ comps, RegComp x) (hnz : ¬(m = 0 ∧ comps = [])) :
    (joinComps (List.replicate m dd ++ comps)).headD ' ' ≠ '/' := by
  cases m with
  | zero =>
    cases comps with
    | nil => exact absurd ⟨rfl, rfl⟩ hnz
    | cons a l =>
      simp only [List.replicate, List.nil_append]
      have ha := hreg a (by simp)
      cases hl : l with
      | nil =>
        rw [show joinComps [a] = a from rfl]
        have := headD_regComp_ne_slash a ha []
        rwa [List.append_nil] at this
      | cons b bs =>
        subst hl
        rw [joinComps_cons a (b :: bs) (by simp)]
        exact headD_regComp_ne_slash a ha _
  | succ m2 =>
    rw [show List.replicate (m2 + 1) dd = dd :: List.replicate m2 dd from rfl]
    cases hrl : List.replicate m2 dd ++ comps with
    | nil =>
      rw [List.cons_append, hrl]
      rw [show joinComps [dd] = dd from rfl]
      decide
    | cons e es =>
      rw [List.cons_append, hrl, joinComps_cons dd (e :: es) (by simp)]
      simp [dd]

theorem cleanLoop_comp_end (q : List Char) (hq : RegComp q) (st : CS) :
    cleanLoop q st = appendComp st q := by
  have := cleanLoop_comp_step q [] st hq (Or.inl rfl)
  rw [List.append_nil] at this
  rw [this, cleanLoop_nil]

theorem headD_append_left (D r : List Char) (hD : D ≠ []) (d : Char) :
    (D ++ r).headD d = D.headD d := by
  cases D with
  | nil => exact absurd rfl hD
  | cons x xs => rfl

theorem pathClean_rooted_append (comps : List (List Char))
    (hreg : ∀ x ∈ comps, RegComp x) (q : List Char) (hq : RegComp q) :
    pathClean (('/' :: joinComps comps) ++ '/' :: q) =
      '/' :: joinComps (comps ++ [q]) := by
  simp only [pathClean]
  rw [if_neg (by simp)]
  rw [List.cons_append]
  have hcond : ('/' :: (joinComps comps ++ '/' :: q)).headD ' ' = '/' := rfl
  rw [if_pos hcond, if_pos hcond]
  rw [List.tail_cons]
  rw [show (⟨['/'], 1, true⟩ : CS) = stR [] from rfl]
  rw [cleanLoop_replay comps (stR []) ('/' :: q) hreg (Or.inr (by simp))]
  rw [foldl_appendComp_stR comps [] (by simp) (fun x hx => (hreg x hx).1)]
  rw [List.nil_append]
  rw [cleanLoop_cons, if_pos rfl]
  rw [cleanLoop_comp_end q hq]
  rw [appendComp_stR comps (fun x hx => (hreg x hx).1) q]
  rw [if_neg (by simp [stR])]
  rfl

theorem pathClean_rooted_slash (comps : List (List Char))
    (hreg : ∀ x ∈ comps, RegComp x) :
    pathClean (('/' :: joinComps comps) ++ ['/']) = '/' :: joinComps comps := by
  simp only [pathClean]
  rw [if_neg (by simp)]
  rw [List.cons_append]
  have hcond : ('/' :: (joinComps comps ++ ['/'])).headD ' ' = '/' := rfl
  rw [if_pos hcond, if_pos hcond]
  rw [List.tail_cons]
  rw [show (⟨['/'], 1, true⟩ : CS) = stR [] from rfl]
  rw [cleanLoop_replay comps (stR []) ['/'] hreg (Or.inr (by simp))]
  rw [foldl_appendComp_stR comps [] (by simp) (fun x hx => (hreg x hx).1)]
  rw [List.nil_append]
  rw [cleanLoop_cons, if_pos rfl]
  rw [cleanLoop_nil]
  rw [if_neg (by simp [stR])]
  rfl

theorem pathClean_unrooted_core (m : Nat) (comps : List (List Char))
    (hreg : ∀ x ∈ comps, RegComp x) (suffix : List Char)
    (hS : suffix = [] ∨ suffix.headD ' ' = '/') :
    cleanLoop (joinComps (List.replicate m dd ++ comps) ++ suffix) (stU 0 []) =
      cleanLoop suffix (stU m comps) := by
  cases hcs : comps with
  | nil =>
    rw [List.append_nil]
    rw [cleanLoop_dd_replay m (stU 0 []) suffix hS]
    rw [iterate_dotdotStep m 0]
    rw [Nat.zero_add]
  | cons a l =>
    cases hm : m with
    | zero =>
      rw [show List.replicate 0 dd = ([] : List (List Char)) from rfl, List.nil_append]
      rw [cleanLoop_replay (a :: l) (stU 0 []) suffix (hcs ▸ hreg) hS]
      rw [foldl_appendComp_stU 0 (a :: l) [] (by simp)
        (fun x hx => ((hcs ▸ hreg) x hx).1)]
      rw [List.nil_append]
    | succ m2 =>
      rw [joinComps_append (List.replicate (m2 + 1) dd) (a :: l) (by simp) (by simp)]
      rw [show (joinComps (List.replicate (m2 + 1) dd) ++
          '/' :: joinComps (a :: l)) ++ suffix =
        joinComps (List.replicate (m2 + 1) dd) ++
          ('/' :: (joinComps (a :: l) ++ suffix)) by simp]
      rw [cleanLoop_dd_replay (m2 + 1) (stU 0 []) _ (Or.inr (by simp))]
      rw [iterate_dotdotStep (m2 + 1) 0, Nat.zero_add]
      rw [cleanLoop_cons, if_pos rfl]
      rw [cleanLoop_replay (a :: l) (stU (m2 + 1) []) suffix (hcs ▸ hreg) hS]
      rw [foldl_appendComp_stU (m2 + 1) (a :: l) [] (by simp)
        (fun x hx => ((hcs ▸ hreg) x hx).1)]
      rw [List.nil_append]

theorem pathClean_unrooted_append (m : Nat) (comps : List (List Char))
    (hreg : ∀ x ∈ comps, RegComp x) (hnz : ¬(m = 0 ∧ comps = []))
    (q : List Char) (hq : RegComp q) :
    pathClean (joinComps (List.replicate m dd ++ comps) ++ '/' :: q) =
      joinComps (List.replicate m dd ++ (comps ++ [q])) := by
  have hDne : joinComps (List.replicate m dd ++ comps) ≠ [] := by
    intro hcon
    exact hnz ((joinComps_rep_nil_iff m comps (fun x hx => (hreg x hx).1)).mp hcon)
  have hhead := joinComps_head_ne_slash m comps hreg hnz
  have hcond : ¬((joinComps (List.replicate m dd ++ comps) ++ '/' :: q).headD ' ' = '/') := by
    rw [headD_append_left _ _ hDne]
    exact hhead
  simp only [pathClean]
  rw [if_neg (by simp [hDne])]
  rw [if_neg hcond, if_neg hcond]
  rw [show (⟨[], 0, false⟩ : CS) = stU 0 [] from rfl]
  rw [pathClean_unrooted_core m comps hreg ('/' :: q) (Or.inr (by simp))]
  rw [cleanLoop_cons, if_pos rfl]
  rw [cleanLoop_comp_end q hq]
  rw [appendComp_stU m comps (fun x hx => (hreg x hx).1) q]
  rw [if_neg (by
    show ¬joinComps (List.replicate m dd ++ (comps ++ [q])) = []
    intro hcon
    have hmem : ∀ x ∈ comps ++ [q], x ≠ [] := by
      intro x hx
      rcases List.mem_append.mp hx with h | h
      · exact (hreg x h).1
      · rw [List.mem_singleton.mp h]
        exact hq.1
    have := (joinComps_rep_nil_iff m (comps ++ [q]) hmem).mp hcon
    exact absurd this.2 (by simp))]
  rfl

theorem pathClean_unrooted_slash (m : Nat) (comps : List (List Char))
    (hreg : ∀ x ∈ comps, RegComp x) (hnz : ¬(m = 0 ∧ comps = [])) :
    pathClean (joinComps (List.replicate m dd ++ comps) ++ ['/']) =
      joinComps (List.replicate m dd ++ comps) := by
  have hDne : joinComps (List.replicate m dd ++ comps) ≠ [] := by
    intro hcon
    exact hnz ((joinComps_rep_nil_iff m comps (fun x hx => (hreg x hx).1)).mp hcon)
  have hhead := joinComps_head_ne_slash m comps hreg hnz
  have hcond : ¬((joinComps (List.replicate m dd ++ comps) ++ ['/']).headD ' ' = '/') := by
    rw [headD_append_left _ _ hDne]
    exact hhead
  simp only [pathClean]
  rw [if_neg (by simp [hDne])]
  rw [if_neg hcond, if_neg hcond]
  rw [show (⟨[], 0, false⟩ : CS) = stU 0 [] from rfl]
  rw [pathClean_unrooted_core m comps hreg ['/'] (Or.inr (by simp))]
  rw [cleanLoop_cons, if_pos rfl]
  rw [cleanLoop_nil]
  rw [if_neg (show ¬(stU m comps).out = [] from hDne)]
  rfl

theorem filepathBase_append (xs q : List Char) (hq : q ≠ []) (hsl : '/' ∉ q) :
    filepathBase (xs ++ '/' :: q) = q := by
  have hqr : '/' ∉ q.reverse := by simpa using hsl
  simp only [filepathBase]
  rw [if_neg (by simp)]
  have hrev : (xs ++ '/' :: q).reverse = q.reverse ++ '/' :: xs.reverse := by
    simp
  rw [hrev]
  have hdrop : (q.reverse ++ '/' :: xs.reverse).dropWhile (fun x => x = '/') =
      q.reverse ++ '/' :: xs.reverse := by
    cases hqrev : q.reverse with
    | nil => exact absurd (by simpa using hqrev) hq
    | cons y ys =>
      rw [List.cons_append, List.dropWhile_cons]
      rw [if_neg (by
        have : y ≠ '/' := by
          intro hcon
          apply hqr
          rw [hqrev, hcon]
          simp
        simpa using this)]
  rw [hdrop]
  rw [if_neg (by simp)]
  rw [List.reverse_reverse]
  rw [takeWhile_noslash_append q.reverse xs.reverse hqr]
  simp

theorem filepathBase_noslash (q : List Char) (hq : q ≠ []) (hsl : '/' ∉ q) :
    filepathBase q = q := by
  have hqr : '/' ∉ q.reverse := by simpa using hsl
  simp only [filepathBase]
  rw [if_neg hq]
  have hdrop : q.reverse.dropWhile (fun x => x = '/') = q.reverse := by
    cases hqrev : q.reverse with
    | nil => exact absurd (by simpa using hqrev) hq
    | cons y ys =>
      rw [List.dropWhile_cons]
      rw [if_neg (by
        have : y ≠ '/' := by
          intro hcon
          apply hqr
          rw [hqrev, hcon]
          simp
        simpa using this)]
  rw [hdrop]
  rw [if_neg (by simpa using hq)]
  rw [List.reverse_reverse]
  rw [takeWhile_noslash q.reverse hqr]
  simp

theorem filepathDir_append (xs q : List Char) (hsl : '/' ∉ q) :
    filepathDir (xs ++ '/' :: q) = pathClean (xs ++ ['/']) := by
  have hqr : '/' ∉ q.reverse := by simpa using hsl
  simp only [filepathDir]
  have hrev : (xs ++ '/' :: q).reverse = q.reverse ++ '/' :: xs.reverse := by
    simp
  rw [hrev]
  rw [dropWhile_noslash_append q.reverse xs.reverse hqr]
  simp

theorem filepathDir_noslash (q : List Char) (hsl : '/' ∉ q) :
    filepathDir q = ['.'] := by
  simp only [filepathDir]
  have hqr : '/' ∉ q.reverse := by simpa using hsl
  rw [dropWhile_noslash q.reverse hqr]
  rw [show (([] : List Char)).reverse = [] from rfl]
  rfl

theorem pathClean_ne_nil (Y : List Char) : pathClean Y ≠ [] := by
  simp only [pathClean]
  split
  · simp
  · split
    · split
      · simp
      · rename_i h
        exact h
    · split
      · simp
      · rename_i h
        exact h

theorem pathClean_slash : pathClean ['/'] = ['/'] := by
  simp only [pathClean]
  rw [if_neg (by simp)]
  have hcond : (['/'] : List Char).headD ' ' = '/' := rfl
  rw [if_pos hcond, if_pos hcond]
  rw [show (['/'] : List Char).tail = [] from rfl]
  rw [cleanLoop_nil]
  rw [if_neg (by simp)]

theorem pathClean_dot_append (q : List Char) (hq : RegComp q) :
    pathClean (['.'] ++ '/' :: q) = q := by
  simp only [pathClean]
  rw [if_neg (by simp)]
  have hcond : ¬((['.'] : List Char) ++ '/' :: q).headD ' ' = '/' := by simp
  rw [if_neg hcond, if_neg hcond]
  rw [show (['.'] : List Char) ++ '/' :: q = '.' :: '/' :: q by simp]
  rw [cleanLoop_cons]
  rw [if_neg (show ¬(('.' : Char) = '/') by decide)]
  rw [if_pos (show ('.' : Char) = '.' ∧
    (('/' :: q : List Char) = [] ∨ ('/' :: q : List Char).headD ' ' = '/') from
    ⟨rfl, Or.inr rfl⟩)]
  rw [cleanLoop_cons, if_pos rfl]
  rw [show (⟨[], 0, false⟩ : CS) = stU 0 [] from rfl]
  rw [cleanLoop_comp_end q hq]
  rw [show appendComp (stU 0 []) q = stU 0 [q] from appendComp_stU 0 [] (by simp) q]
  have hout : (stU 0 [q]).out = q := rfl
  rw [hout]
  rw [if_neg hq.1]

theorem base_dir_join (Y q : List Char) (hq : RegComp q) :
    filepathBase (filepathJoin (pathClean Y) q) = q ∧
    filepathDir (filepathJoin (pathClean Y) q) = pathClean Y := by
  have hD := pathClean_cleanForm Y
  have hDne := pathClean_ne_nil Y
  have hjoin : filepathJoin (pathClean Y) q = pathClean (pathClean Y ++ '/' :: q) := by
    simp only [filepathJoin]
    rw [if_pos (by simpa using hDne)]
  rw [hjoin]
  rcases hD with hdot | ⟨comps, hreg, hform⟩ | ⟨m, comps, hreg, hnz, hform⟩
  · rw [hdot]
    rw [pathClean_dot_append q hq]
    refine ⟨filepathBase_noslash q hq.1 hq.2.1, ?_⟩
    rw [filepathDir_noslash q hq.2.1]
  · rw [hform]
    rw [pathClean_rooted_append comps hreg q hq]
    cases hcs : comps with
    | nil =>
      rw [show joinComps ([] ++ [q]) = q from rfl]
      constructor
      · rw [show ('/' :: q : List Char) = [] ++ '/' :: q by simp]
        exact filepathBase_append [] q hq.1 hq.2.1
      · rw [show ('/' :: q : List Char) = [] ++ '/' :: q by simp]
        rw [filepathDir_append [] q hq.2.1]
        rw [show ([] : List Char) ++ ['/'] = ['/'] by simp]
        rw [pathClean_slash]
        rfl
    | cons a l =>
      rw [joinComps_append (a :: l) [q] (by simp) (by simp)]
      rw [show joinComps [q] = q from rfl]
      rw [show '/' :: (joinComps (a :: l) ++ '/' :: q) =
        ('/' :: joinComps (a :: l)) ++ '/' :: q by simp]
      constructor
      · exact filepathBase_append _ q hq.1 hq.2.1
      · rw [filepathDir_append _ q hq.2.1]
        exact pathClean_rooted_slash (a :: l) (hcs ▸ hreg)
  · rw [hform]
    rw [pathClean_unrooted_append m comps hreg hnz q hq]
    have hleft : List.replicate m dd ++ comps ≠ [] := by
      intro hcon
      rcases List.append_eq_nil.mp hcon with ⟨h1, h2⟩
      exact hnz ⟨by simpa using h1, h2⟩
    rw [show List.replicate m dd ++ (comps ++ [q]) =
      (List.replicate m dd ++ comps) ++ [q] by simp]
    rw [joinComps_append (List.replicate m dd ++ comps) [q] hleft (by simp)]
    rw [show joinComps [q] = q from rfl]
    constructor
    · exact filepathBase_append _ q hq.1 hq.2.1
    · rw [filepathDir_append _ q hq.2.1]
      exact pathClean_unrooted_slash m comps hreg hnz

theorem pathBase_eq_filepathBase (p : List Char) : pathBase p = filepathBase p := rfl

theorem createPasswordZip_ok_path {f pw zp : List Char} {env : ZipEnv}
    (h : createPasswordZip f pw env = .ok zp) :
    zp = filepathJoin (filepathDir f) (filepathBase f ++ zipExt) := by
  simp only [createPasswordZip] at h
  split at h
  · exact absurd h (by simp)
  · split at h
    · exact absurd h (by simp)
    · split at h
      · exact absurd h (by simp)
      · split at h
        · exact absurd h (by simp)
        · split at h
          · exact absurd h (by simp)
          · simp only [Except.ok.injEq] at h
            exact h.symm

theorem keepPred_zip (p : List Char) (f : RFile) (hdir : f.isDir = false)
    (hm : goMatch (p ++ zipExt) (pathBase f.path) = .ok true) :
    keepPred p f = true := by
  simp only [keepPred, hdir, hm, Bool.not_false, Bool.true_and]
  cases goMatch p (pathBase f.path) with
  | error e => simp
  | ok b => simp

/-- C10: on success `createPasswordZip` returns a path in the directory of the
source whose base name is the source's base name with `".zip"` appended; and
whenever the source's base name matches the backup pattern, the produced
base name matches `pattern ++ ".zip"`, which is the second shape
(`matchedZip`) accepted by the retention filter `keepPred`/`filterBackups`.
The source is a file path `dir/base` with a nonempty, slash-free base. -/
theorem claim10_zip_name (xs b pat pw : List Char) (env : ZipEnv) (zp : List Char)
    (hb : b ≠ []) (hsl : '/' ∉ b)
    (hok : createPasswordZip (xs ++ '/' :: b) pw env = .ok zp) :
    filepathDir zp = filepathDir (xs ++ '/' :: b) ∧
    filepathBase zp = filepathBase (xs ++ '/' :: b) ++ zipExt ∧
    (goMatch pat (filepathBase (xs ++ '/' :: b)) = .ok true →
      goMatch (pat ++ zipExt) (filepathBase zp) = .ok true ∧
      ∀ f : RFile, f.isDir = false → pathBase f.path = filepathBase zp →
        keepPred pat f = true) := by
  have hzp := createPasswordZip_ok_path hok
  have hbase : filepathBase (xs ++ '/' :: b) = b := filepathBase_append xs b hb hsl
  have hdir : filepathDir (xs ++ '/' :: b) = pathClean (xs ++ ['/']) :=
    filepathDir_append xs b hsl
  have hq : RegComp (b ++ zipExt) := by
    refine ⟨by simp [hb], ?_, ?_, ?_⟩
    · intro hcon
      rcases List.mem_append.mp hcon with h | h
      · exact hsl h
      · simp [zipExt] at h
    · intro hcon
      have := congrArg List.length hcon
      simp only [List.length_append, List.length_cons, List.length_nil] at this
      simp [zipExt] at this
    · intro hcon
      have := congrArg List.length hcon
      simp only [List.length_append, List.length_cons, List.length_nil] at this
      simp [zipExt] at this
  have hbd := base_dir_join (xs ++ ['/']) (b ++ zipExt) hq
  rw [hzp, hbase, hdir]
  refine ⟨hbd.2, hbd.1, ?_⟩
  intro hmatch
  have hzipmatch : goMatch (pat ++ zipExt) (b ++ zipExt) = .ok true :=
    goMatch_zip_suffix hmatch
  rw [hbd.1]
  refine ⟨hzipmatch, ?_⟩
  intro f hfdir hfb
  apply keepPred_zip pat f hfdir
  rw [hfb]
  exact hzipmatch

theorem claim10_witness :
    filepathDir ['/', 'a', '.', 'z', 'i', 'p'] = filepathDir ['/', 'a'] ∧
    filepathBase ['/', 'a', '.', 'z', 'i', 'p'] = filepathBase ['/', 'a'] ++ zipExt ∧
    goMatch (['?'] ++ zipExt) (filepathBase ['/', 'a', '.', 'z', 'i', 'p']) = .ok true ∧
    keepPred ['?']
      { path := ['/', 'a', '.', 'z', 'i', 'p'], name := ['a', '.', 'z', 'i', 'p'],
        size := 3, modTime := 7, isDir := false } = true := by
  obtain ⟨h1, h2, h3⟩ := claim10_zip_name [] ['a'] ['?'] ['p']
    { createOk := true, openSrcOk := true, encryptOk := true, copyOk := true,
      statSize := some 5 } ['/', 'a', '.', 'z', 'i', 'p'] (by simp) (by simp)
    (by simp [createPasswordZip, filepathJoin, filepathDir, filepathBase, pathClean,
      cleanLoop_cons, cleanLoop_nil, appendComp, dotdotStep, popW, zipExt])
  obtain ⟨h4, h5⟩ := h3 (by
    simp [goMatch, starLoop, scanChunk, scanStars, scanBody, matchChunk,
      matchChunkGo_cons, matchChunkGo_nil, parseRanges_eq, getEsc, filepathBase])
  exact ⟨h1, h2, h4, h5
    { path := ['/', 'a', '.', 'z', 'i', 'p'], name := ['a', '.', 'z', 'i', 'p'],
      size := 3, modTime := 7, isDir := false } rfl (pathBase_eq_filepathBase _)⟩
